import Mathlib

/-!
# Formal model of the grid path-search engine in `src/main.py`

This file is a shallow embedding of the search core of the
`GOODPERFORMANCETIMEAPPathfinder` class: the grid and cell states, the
neighbor generator, the dynamic-obstacle injector, the six search
strategies (BFS, DFS, UCS, DLS, IDDFS, Bidirectional), path
reconstruction and visualization, and the event handling that implements
pause (SPACE) and cancellation (QUIT) during a run.

Modelling conventions:
* Positions are pairs of integers `(row, col)`, as in the source.
* The grid is a total function `Pos → CellType`; only in-bounds cells are
  ever read after the bounds check in `is_valid_position`, as in the source.
* Step costs are scaled by 10 so that the source's float costs `1.0`
  (orthogonal) and `1.4` (diagonal) become the naturals `10` and `14`;
  since all costs are sums of these two values, comparisons of scaled
  natural costs agree exactly with comparisons of the source's costs.
* Randomness (`random.random() < p` and `random.choice`) is abstracted by
  an oracle `Sched.rand`: per call it yields whether the draw succeeded
  and an index choosing among the empty cells.  The pygame event queue is
  abstracted by `Sched.events`: the list of pending events per call of
  `handle_events_during_search`.
* The pygame side effects (`draw`, `display.flip`, `time.wait`, `print`)
  have no effect on the search state and are omitted.
* Python functions returning `True`/`False` for found/not-found are
  modelled as returning `Option (List Pos)`: `some path` corresponds to
  `return True` after `visualize_path(path)`, `none` to `return False`.
* Search loops are modelled with an explicit step function plus fuel;
  `none` at the top level means the fuel ran out before the loop ended.
-/

set_option linter.unusedVariables false

/-- `CellType` from main.py. -/
inductive CellType where
  | EMPTY
  | WALL
  | START
  | TARGET
  | FRONTIER
  | EXPLORED
  | PATH
  | DYNAMIC_OBSTACLE
deriving DecidableEq, Repr

/-- A grid position `(row, col)`. -/
abbrev Pos := Int × Int

/-- `Node` from main.py: coordinates, accumulated cost (scaled by 10) and
parent back-reference used for path reconstruction.  `__lt__` compares
costs only; `__eq__`/`__hash__` compare positions only. -/
inductive Node where
  | mk (x y : Int) (cost : Nat) (parent : Option Node)

def Node.x : Node → Int
  | .mk x _ _ _ => x

def Node.y : Node → Int
  | .mk _ y _ _ => y

def Node.cost : Node → Nat
  | .mk _ _ c _ => c

def Node.parent : Node → Option Node
  | .mk _ _ _ p => p

/-- The `(x, y)` position of a node. -/
def Node.pos (n : Node) : Pos := (n.x, n.y)

/-- Structural decidable equality on nodes (used only for bookkeeping in
proofs; the source compares nodes by position, but node values in a run
are distinguished structurally here). -/
def Node.decEq : (a b : Node) → Decidable (a = b)
  | .mk x y c p, .mk x' y' c' p' =>
    if hx : x = x' then
      if hy : y = y' then
        if hc : c = c' then
          match p, p' with
          | none, none => isTrue (by subst hx; subst hy; subst hc; rfl)
          | some a, some b =>
            match Node.decEq a b with
            | isTrue h => isTrue (by subst hx; subst hy; subst hc; subst h; rfl)
            | isFalse h =>
              isFalse (by intro he; injection he with h1 h2 h3 h4; exact h (Option.some.inj h4))
          | none, some _ =>
            isFalse (by intro he; injection he with h1 h2 h3 h4; exact Option.noConfusion h4)
          | some _, none =>
            isFalse (by intro he; injection he with h1 h2 h3 h4; exact Option.noConfusion h4)
        else isFalse (by intro he; injection he with h1 h2 h3 h4; exact hc h3)
      else isFalse (by intro he; injection he with h1 h2 h3 h4; exact hy h2)
    else isFalse (by intro he; injection he with h1 h2 h3 h4; exact hx h1)

instance : DecidableEq Node := Node.decEq

/-- Default node, used only to totalize list indexing (never observed in
positions that matter). -/
def dNode : Node := .mk 0 0 0 none

/-- The grid: cell state per position. -/
abbrev GridMap := Pos → CellType

/-- Pointwise grid update (`self.grid[r][c] = v`). -/
def updGrid (g : GridMap) (p : Pos) (v : CellType) : GridMap :=
  fun q => if q = p then v else g q

/-- The static configuration of the pathfinder relevant to a search run:
grid dimensions, start/target markers and the dynamic-obstacle toggle. -/
structure Model where
  rows : Nat
  cols : Nat
  start : Pos
  target : Pos
  enable_dynamic_obstacles : Bool

/-- The mutable grid-side state: the grid and the append-only log
`dynamic_obstacles_added`. -/
structure GState where
  grid : GridMap
  dynamic_obstacles_added : List Pos

/-- Write one cell of the grid. -/
def markCell (gs : GState) (p : Pos) (v : CellType) : GState :=
  { gs with grid := updGrid gs.grid p v }

/-- `directions` from main.py: the eight moves in the source's clockwise
order. -/
def directions : List (Int × Int) :=
  [(-1, 0), (0, 1), (1, 0), (1, 1), (0, -1), (-1, -1), (-1, 1), (1, -1)]

/-- `is_valid_position` from main.py: in bounds and not a wall or dynamic
obstacle. -/
def is_valid_position (M : Model) (g : GridMap) (row col : Int) : Bool :=
  decide (0 ≤ row) && decide (row < (M.rows : Int)) &&
  decide (0 ≤ col) && decide (col < (M.cols : Int)) &&
  !(g (row, col) = CellType.WALL) && !(g (row, col) = CellType.DYNAMIC_OBSTACLE)

/-- The scaled cost of the move `(dr, dc)`: 14 (= 1.4) for a diagonal,
10 (= 1.0) for an orthogonal move. -/
def moveCost (dr dc : Int) : Nat :=
  if dr.natAbs + dc.natAbs = 2 then 14 else 10

/-- `get_neighbors` from main.py: the valid neighbor nodes of `node` in
strict clockwise order, with accumulated costs and parent link. -/
def get_neighbors (M : Model) (g : GridMap) (node : Node) : List Node :=
  directions.filterMap fun d =>
    let new_row := node.x + d.1
    let new_col := node.y + d.2
    if is_valid_position M g new_row new_col then
      some (Node.mk new_row new_col (node.cost + moveCost d.1 d.2) (some node))
    else none

/-- The list of empty cells scanned in row-major order by
`add_dynamic_obstacle`. -/
def empty_cells_list (M : Model) (g : GridMap) : List Pos :=
  (List.range M.rows).flatMap fun r =>
    (List.range M.cols).filterMap fun c =>
      if g ((r : Int), (c : Int)) = CellType.EMPTY then some ((r : Int), (c : Int)) else none

/-- `add_dynamic_obstacle` from main.py.  `draw` abstracts
`random.random() < self.dynamic_obstacle_probability` and `choice`
abstracts `random.choice` (an index into the empty-cell list). -/
def add_dynamic_obstacle (M : Model) (gs : GState) (draw : Bool) (choice : Nat) :
    GState × Bool :=
  if !M.enable_dynamic_obstacles then (gs, false)
  else if draw then
    let empty_cells := empty_cells_list M gs.grid
    if empty_cells.isEmpty then (gs, false)
    else
      let pc := empty_cells.getD (choice % empty_cells.length) (0, 0)
      ({ grid := updGrid gs.grid pc CellType.DYNAMIC_OBSTACLE,
         dynamic_obstacles_added := gs.dynamic_obstacles_added ++ [pc] }, true)
  else (gs, false)

/-- A pygame event as seen by `handle_events_during_search`. -/
inductive Ev where
  | quit
  | space
  | other

/-- `handle_events_during_search` from main.py: processes pending events;
QUIT returns `false` (abort) immediately, SPACE toggles the pause flag.
Returns the new pause flag and whether to continue. -/
def handle_events_during_search : List Ev → Bool → Bool × Bool
  | [], paused => (paused, true)
  | .quit :: _, paused => (paused, false)
  | .space :: rest, paused => handle_events_during_search rest (!paused)
  | .other :: rest, paused => handle_events_during_search rest paused

/-- The environment oracle for one run: per step the injector randomness
and the pending pygame events. -/
structure Sched where
  rand : Nat → Bool × Nat
  events : Nat → List Ev

/-- The trivial environment: the random draw never fires and no events
are pending (dynamic obstacles never appear; no pause, no cancellation). -/
def trivSched : Sched :=
  { rand := fun _ => (false, 0), events := fun _ => [] }

/-- The positions of the node's parent chain, from the node back to the
root (the order in which `reconstruct_path` collects them). -/
def collectChain : Node → List Pos
  | .mk x y _ none => [(x, y)]
  | .mk x y _ (some p) => (x, y) :: collectChain p

/-- `reconstruct_path` from main.py: follow parent links and reverse. -/
def reconstruct_path (node : Node) : List Pos :=
  (collectChain node).reverse

/-- The parent chain in root-to-node order (`reconstruct_path` output). -/
def chainList : Node → List Pos
  | .mk x y _ none => [(x, y)]
  | .mk x y _ (some p) => chainList p ++ [(x, y)]

/-- `visualize_path` from main.py: mark each path cell `PATH`, skipping
the start and target cells. -/
def visualize_path (M : Model) (gs : GState) (path : List Pos) : GState :=
  path.foldl
    (fun gs p => if p ≠ M.start ∧ p ≠ M.target then markCell gs p CellType.PATH else gs) gs

/-- Bounds check used when modelling the cell sweeps of the clear
functions (the Python loops range over `rows × cols`). -/
def inBounds (M : Model) (p : Pos) : Prop :=
  0 ≤ p.1 ∧ p.1 < (M.rows : Int) ∧ 0 ≤ p.2 ∧ p.2 < (M.cols : Int)

instance (M : Model) (p : Pos) : Decidable (inBounds M p) := by
  unfold inBounds; infer_instance

/-- `clear_search_visualization` from main.py: reset FRONTIER, EXPLORED
and PATH cells to EMPTY, then restore the start and target markers. -/
def clear_search_visualization (M : Model) (gs : GState) : GState :=
  let g1 : GridMap := fun q =>
    if inBounds M q ∧
        (gs.grid q = CellType.FRONTIER ∨ gs.grid q = CellType.EXPLORED ∨
          gs.grid q = CellType.PATH)
    then CellType.EMPTY else gs.grid q
  { gs with grid := updGrid (updGrid g1 M.start CellType.START) M.target CellType.TARGET }

/-- `clear_all` from main.py: reset every non-start/target cell to EMPTY
and empty the obstacle log. -/
def clear_all (M : Model) (gs : GState) : GState :=
  { grid := fun q =>
      if inBounds M q ∧ ¬(gs.grid q = CellType.START ∨ gs.grid q = CellType.TARGET)
      then CellType.EMPTY else gs.grid q,
    dynamic_obstacles_added := [] }

/-- The result message printed by `run_algorithm` for a run outcome. -/
def search_result_message (success : Bool) : String :=
  if success then "Path found!" else "No path found!"

/-! ## The `heapq` frontier used by `uniform_cost_search`

`heapq.heappush`/`heapq.heappop` from CPython, specialized to lists of
`Node` compared by `Node.__lt__`, i.e. by `cost` alone. -/

/-- Indexing into the heap list (total, with an irrelevant default). -/
def hget (l : List Node) (i : Nat) : Node := l.getD i dNode

/-- Parent index in the binary-heap layout (`parentpos = (pos - 1) >> 1`). -/
def parentIdx (j : Nat) : Nat := (j - 1) / 2

/-- The child index `_siftup` descends into: the right child if it exists
and is not more expensive than the left, else the left child
(`childpos = rightpos` when `not heap[childpos] < heap[rightpos]`). -/
def pickChild (heap : List Node) (endpos pos : Nat) : Nat :=
  if 2 * pos + 2 < endpos ∧
      ¬(hget heap (2 * pos + 1)).cost < (hget heap (2 * pos + 2)).cost
  then 2 * pos + 2 else 2 * pos + 1

/-- The loop of `heapq._siftdown(heap, startpos, pos)` with the moved
item carried explicitly (CPython reads `newitem = heap[pos]` once at
entry).  `fuel` only bounds the recursion structurally; with `pos ≤ fuel`
it is never exhausted, so the function computes exactly the CPython loop
(`siftdownGo_congr` below). -/
def siftdownGo : Nat → List Node → Nat → Nat → Node → List Node
  | 0, heap, _startpos, pos, newitem => heap.set pos newitem
  | fuel + 1, heap, startpos, pos, newitem =>
    if startpos < pos then
      if newitem.cost < (hget heap (parentIdx pos)).cost then
        siftdownGo fuel (heap.set pos (hget heap (parentIdx pos))) startpos
          (parentIdx pos) newitem
      else heap.set pos newitem
    else heap.set pos newitem

/-- `heapq._siftdown`. -/
def siftdownAux (heap : List Node) (startpos pos : Nat) (newitem : Node) : List Node :=
  siftdownGo pos heap startpos pos newitem

/-- The loop of `heapq._siftup(heap, pos)` with the moved item carried
explicitly: bubble the hole down to a leaf following the smaller child,
then place the item and sift it back up towards `startpos`.  `fuel` only
bounds the recursion structurally; with `endpos ≤ fuel + pos` it is never
exhausted (`siftupGo_congr` below). -/
def siftupGo : Nat → List Node → Nat → Nat → Nat → Node → List Node
  | 0, heap, _endpos, startpos, pos, newitem => siftdownAux heap startpos pos newitem
  | fuel + 1, heap, endpos, startpos, pos, newitem =>
    if 2 * pos + 1 < endpos then
      siftupGo fuel (heap.set pos (hget heap (pickChild heap endpos pos))) endpos startpos
        (pickChild heap endpos pos) newitem
    else siftdownAux heap startpos pos newitem

/-- `heapq._siftup`. -/
def siftupAux (heap : List Node) (endpos startpos pos : Nat) (newitem : Node) : List Node :=
  siftupGo endpos heap endpos startpos pos newitem

/-- `heapq.heappush`. -/
def heappush (heap : List Node) (item : Node) : List Node :=
  siftdownAux (heap ++ [item]) 0 heap.length item

/-- `heapq.heappop`: returns the popped root and the remaining heap
(CPython mutates in place).  On `[]` CPython raises; the search loop only
pops non-empty heaps. -/
def heappop (heap : List Node) : Node × List Node :=
  let lastelt := hget heap (heap.length - 1)
  let rest := heap.dropLast
  if rest.isEmpty then (lastelt, [])
  else
    let h2 := rest.set 0 lastelt
    (hget rest 0, siftupAux h2 h2.length 0 0 (hget h2 0))

/-! ## Search-loop scaffolding -/

/-- Result of one iteration of a search loop: either the run ended with
an outcome (`some path` = `return True` after visualizing `path`,
`none` = `return False`) and a final grid state, or the loop continues. -/
inductive StepRes (σ : Type) where
  | done : Option (List Pos) → GState → StepRes σ
  | cont : σ → StepRes σ

/-- Run a step function with fuel; `none` = fuel exhausted. -/
def loopRun {σ} (step : σ → StepRes σ) : Nat → σ → Option (Option (List Pos) × GState)
  | 0, _ => none
  | fuel + 1, s =>
    match step s with
    | .done r g => some (r, g)
    | .cont s2 => loopRun step fuel s2

/-- The state (or the final outcome) after `k` iterations: every state a
run passes through is `stepIter step k init` for some `k`. -/
def stepIter {σ} (step : σ → StepRes σ) : Nat → σ → StepRes σ
  | 0, s => .cont s
  | k + 1, s =>
    match step s with
    | .done r g => .done r g
    | .cont s2 => stepIter step k s2

/-! ## BFS and DFS -/

/-- Loop state of `breadth_first_search` (also used by
`depth_first_search`, whose `stack` plays the role of `queue`). -/
structure BfsState where
  gs : GState
  queue : List Node
  visited : List Pos
  paused : Bool
  k : Nat

/-- The neighbor loop shared by BFS and DFS: for each neighbor not yet
visited and still valid, mark it FRONTIER (unless it is the target),
append it to the queue/stack and add it to the visited set. -/
def bfsExpand (M : Model) :
    List Node → GState × List Node × List Pos → GState × List Node × List Pos
  | [], acc => acc
  | neighbor :: more, (gs, q, vis) =>
    let pos := neighbor.pos
    if pos ∉ vis ∧ is_valid_position M gs.grid neighbor.x neighbor.y then
      bfsExpand M more
        ((if pos ≠ M.target then markCell gs pos CellType.FRONTIER else gs),
         q ++ [neighbor], pos :: vis)
    else bfsExpand M more (gs, q, vis)

/-- One iteration of the `while` loop of `breadth_first_search`. -/
def bfsStep (M : Model) (sched : Sched) (s : BfsState) : StepRes BfsState :=
  if s.queue.isEmpty || s.paused then .done none s.gs
  else
    let gs1 := (add_dynamic_obstacle M s.gs (sched.rand s.k).1 (sched.rand s.k).2).1
    match s.queue with
    | [] => .done none gs1
    | current :: rest =>
      if current.pos = M.target then
        let path := reconstruct_path current
        .done (some path) (visualize_path M gs1 path)
      else
        let gs2 :=
          if current.pos ≠ M.start then markCell gs1 current.pos CellType.EXPLORED else gs1
        match bfsExpand M (get_neighbors M gs2.grid current) (gs2, rest, s.visited) with
        | (gs3, queue3, visited3) =>
          match handle_events_during_search (sched.events s.k) s.paused with
          | (paused2, cont2) =>
            if cont2 then
              .cont { gs := gs3, queue := queue3, visited := visited3,
                      paused := paused2, k := s.k + 1 }
            else .done none gs3

/-- Initial loop state of `breadth_first_search`. -/
def bfsInit (M : Model) (gs : GState) : BfsState :=
  let start_node := Node.mk M.start.1 M.start.2 0 none
  { gs := gs, queue := [start_node], visited := [start_node.pos], paused := false, k := 0 }

/-- `breadth_first_search` from main.py. -/
def breadth_first_search (M : Model) (sched : Sched) (gs : GState) (fuel : Nat) :
    Option (Option (List Pos) × GState) :=
  loopRun (bfsStep M sched) fuel (bfsInit M gs)

/-- The outcome of `breadth_first_search` without the final grid state. -/
def bfs_result (M : Model) (sched : Sched) (gs : GState) (fuel : Nat) :
    Option (Option (List Pos)) :=
  (breadth_first_search M sched gs fuel).map Prod.fst

/-- One iteration of the `while` loop of `depth_first_search`: the stack
is popped from the end, and neighbors are pushed in reversed order. -/
def dfsStep (M : Model) (sched : Sched) (s : BfsState) : StepRes BfsState :=
  if s.queue.isEmpty || s.paused then .done none s.gs
  else
    let gs1 := (add_dynamic_obstacle M s.gs (sched.rand s.k).1 (sched.rand s.k).2).1
    let current := hget s.queue (s.queue.length - 1)
    let rest := s.queue.dropLast
    if current.pos = M.target then
      let path := reconstruct_path current
      .done (some path) (visualize_path M gs1 path)
    else
      let gs2 :=
        if current.pos ≠ M.start then markCell gs1 current.pos CellType.EXPLORED else gs1
      match bfsExpand M (get_neighbors M gs2.grid current).reverse (gs2, rest, s.visited) with
      | (gs3, stack3, visited3) =>
        match handle_events_during_search (sched.events s.k) s.paused with
        | (paused2, cont2) =>
          if cont2 then
            .cont { gs := gs3, queue := stack3, visited := visited3,
                    paused := paused2, k := s.k + 1 }
          else .done none gs3

/-- `depth_first_search` from main.py. -/
def depth_first_search (M : Model) (sched : Sched) (gs : GState) (fuel : Nat) :
    Option (Option (List Pos) × GState) :=
  loopRun (dfsStep M sched) fuel (bfsInit M gs)

/-! ## Uniform-cost search -/

/-- Loop state of `uniform_cost_search`.  `kr`/`ke` are the positions in
the randomness/event streams (the `continue` branch skips the event
check, so the two streams advance independently). -/
structure UcsState where
  gs : GState
  priority_queue : List Node
  visited : List Pos
  costs : Pos → Option Nat
  paused : Bool
  kr : Nat
  ke : Nat

/-- The neighbor loop of `uniform_cost_search`: for each neighbor not in
the closed set and still valid, if it improves the best known cost,
record the cost, push it and mark it FRONTIER (unless it is the target). -/
def ucsExpand (M : Model) (visited : List Pos) :
    List Node → GState × (Pos → Option Nat) × List Node →
      GState × (Pos → Option Nat) × List Node
  | [], acc => acc
  | neighbor :: more, (gs, costs, pq) =>
    let pos := neighbor.pos
    if pos ∉ visited ∧ is_valid_position M gs.grid neighbor.x neighbor.y then
      if (match costs pos with | none => true | some c => neighbor.cost < c) then
        ucsExpand M visited more
          ((if pos ≠ M.target then markCell gs pos CellType.FRONTIER else gs),
           (fun q => if q = pos then some neighbor.cost else costs q),
           heappush pq neighbor)
      else ucsExpand M visited more (gs, costs, pq)
    else ucsExpand M visited more (gs, costs, pq)

/-- One iteration of the `while` loop of `uniform_cost_search`: pop the
minimum, skip it if already closed (`continue`), close it, test the goal,
mark it EXPLORED and relax its neighbors. -/
def ucsStep (M : Model) (sched : Sched) (s : UcsState) : StepRes UcsState :=
  if s.priority_queue.isEmpty || s.paused then .done none s.gs
  else
    let gs1 := (add_dynamic_obstacle M s.gs (sched.rand s.kr).1 (sched.rand s.kr).2).1
    match heappop s.priority_queue with
    | (current, rest) =>
      if current.pos ∈ s.visited then
        .cont { s with gs := gs1, priority_queue := rest, kr := s.kr + 1 }
      else
        let visited2 := current.pos :: s.visited
        if current.pos = M.target then
          let path := reconstruct_path current
          .done (some path) (visualize_path M gs1 path)
        else
          let gs2 :=
            if current.pos ≠ M.start then markCell gs1 current.pos CellType.EXPLORED else gs1
          match ucsExpand M visited2 (get_neighbors M gs2.grid current) (gs2, s.costs, rest) with
          | (gs3, costs3, pq3) =>
            match handle_events_during_search (sched.events s.ke) s.paused with
            | (paused2, cont2) =>
              if cont2 then
                .cont { gs := gs3, priority_queue := pq3, visited := visited2,
                        costs := costs3, paused := paused2, kr := s.kr + 1, ke := s.ke + 1 }
              else .done none gs3

/-- Initial loop state of `uniform_cost_search`. -/
def ucsInit (M : Model) (gs : GState) : UcsState :=
  let start_node := Node.mk M.start.1 M.start.2 0 none
  { gs := gs, priority_queue := [start_node], visited := [],
    costs := fun p => if p = start_node.pos then some 0 else none,
    paused := false, kr := 0, ke := 0 }

/-- `uniform_cost_search` from main.py. -/
def uniform_cost_search (M : Model) (sched : Sched) (gs : GState) (fuel : Nat) :
    Option (Option (List Pos) × GState) :=
  loopRun (ucsStep M sched) fuel (ucsInit M gs)

/-- The outcome of `uniform_cost_search` without the final grid state. -/
def ucs_result (M : Model) (sched : Sched) (gs : GState) (fuel : Nat) :
    Option (Option (List Pos)) :=
  (uniform_cost_search M sched gs fuel).map Prod.fst

/-! ## Depth-limited search and IDDFS -/

/-- Result of a `dls_recursive` invocation: the outcome plus the state
threaded through the recursion. -/
structure DlsOut where
  found : Option (List Pos)
  gs : GState
  kr : Nat
  ke : Nat
  paused : Bool

/-- The neighbor loop of `dls_recursive`: FRONTIER-mark a valid unvisited
neighbor, process pending events (QUIT aborts this invocation), recurse
via `recur` (the depth-decremented `dls_recursive`), and stop at the
first success. -/
def dlsChildren (M : Model) (sched : Sched)
    (recur : Node → List Pos → List Pos → GState → Nat → Nat → Bool → DlsOut) :
    List Node → List Pos → List Pos → GState → Nat → Nat → Bool → DlsOut
  | [], _visited, _path2, gs, kr, ke, paused =>
    { found := none, gs := gs, kr := kr, ke := ke, paused := paused }
  | neighbor :: more, visited, path2, gs, kr, ke, paused =>
    let npos := neighbor.pos
    if npos ∉ visited ∧ is_valid_position M gs.grid neighbor.x neighbor.y then
      let gs2 := if npos ≠ M.target then markCell gs npos CellType.FRONTIER else gs
      match handle_events_during_search (sched.events ke) paused with
      | (paused2, cont2) =>
        if !cont2 then
          { found := none, gs := gs2, kr := kr, ke := ke + 1, paused := paused2 }
        else
          let r := recur neighbor visited path2 gs2 kr (ke + 1) paused2
          match r.found with
          | some _ => r
          | none => dlsChildren M sched recur more visited path2 r.gs r.kr r.ke r.paused
    else dlsChildren M sched recur more visited path2 gs kr ke paused

/-- `dls_recursive` from main.py.  `dfuel` is the Python `depth + 1`, so
the guard `depth < 0` becomes `dfuel = 0`; the visited set is passed down
as a copy on each descent (`visited.copy()`), which the functional model
renders by simply passing the extended set. -/
def dls_recursive (M : Model) (sched : Sched) :
    Nat → Node → List Pos → List Pos → GState → Nat → Nat → Bool → DlsOut
  | 0, _node, _visited, _path, gs, kr, ke, paused =>
    { found := none, gs := gs, kr := kr, ke := ke, paused := paused }
  | dfuel2 + 1, node, visited, path, gs, kr, ke, paused =>
    if paused then { found := none, gs := gs, kr := kr, ke := ke, paused := paused }
    else
      let gs1 := (add_dynamic_obstacle M gs (sched.rand kr).1 (sched.rand kr).2).1
      let pos := node.pos
      if pos = M.target then
        let full_path := path ++ [pos]
        { found := some full_path, gs := visualize_path M gs1 full_path,
          kr := kr + 1, ke := ke, paused := paused }
      else
        let gs2 := if pos ≠ M.start then markCell gs1 pos CellType.EXPLORED else gs1
        dlsChildren M sched (dls_recursive M sched dfuel2)
          (get_neighbors M gs2.grid node) (pos :: visited) (path ++ [pos])
          gs2 (kr + 1) ke paused

/-- `depth_limited_search` from main.py (`depth_limit` defaults to 15 in
the source). -/
def depth_limited_search (M : Model) (sched : Sched) (gs : GState) (depth_limit : Nat) :
    DlsOut :=
  let start_node := Node.mk M.start.1 M.start.2 0 none
  dls_recursive M sched (depth_limit + 1) start_node [] [] gs 0 0 false

/-- The outcome of `depth_limited_search` alone. -/
def dls_result (M : Model) (sched : Sched) (gs : GState) (depth_limit : Nat) :
    Option (List Pos) :=
  (depth_limited_search M sched gs depth_limit).found

/-- The `for depth in range(30)` loop of `iterative_deepening_dfs`. -/
def iddfsLoop (M : Model) (sched : Sched) :
    List Nat → GState → Nat → Nat → Bool → Option (List Pos) × GState
  | [], gs, _, _, _ => (none, gs)
  | depth :: more, gs, kr, ke, paused =>
    let gs1 := clear_search_visualization M gs
    let start_node := Node.mk M.start.1 M.start.2 0 none
    let r := dls_recursive M sched (depth + 1) start_node [] [] gs1 kr ke paused
    match r.found with
    | some p => (some p, r.gs)
    | none => if r.paused then (none, r.gs) else iddfsLoop M sched more r.gs r.kr r.ke r.paused

/-- `iterative_deepening_dfs` from main.py. -/
def iterative_deepening_dfs (M : Model) (sched : Sched) (gs : GState) :
    Option (List Pos) × GState :=
  iddfsLoop M sched (List.range 30) gs 0 0 false

/-! ## Bidirectional search -/

/-- Loop state of `bidirectional_search`. -/
structure BidirState where
  gs : GState
  forward_queue : List Node
  backward_queue : List Node
  forward_visited : Pos → Option Node
  backward_visited : Pos → Option Node
  paused : Bool
  k : Nat

/-- The neighbor loop of either frontier of `bidirectional_search`:
record the discovering node in this side's visited map, enqueue, and mark
FRONTIER unless the position is this side's goal (`skip`). -/
def bidirExpand (M : Model) (skip : Pos) :
    List Node → GState × (Pos → Option Node) × List Node →
      GState × (Pos → Option Node) × List Node
  | [], acc => acc
  | neighbor :: more, (gs, vis, q) =>
    let pos := neighbor.pos
    if vis pos = none ∧ is_valid_position M gs.grid neighbor.x neighbor.y then
      bidirExpand M skip more
        ((if pos ≠ skip then markCell gs pos CellType.FRONTIER else gs),
         (fun r => if r = pos then some neighbor else vis r),
         q ++ [neighbor])
    else bidirExpand M skip more (gs, vis, q)

/-- Tail of one `bidirectional_search` iteration: event processing. -/
def bidirFinish (sched : Sched) (s : BidirState) : StepRes BidirState :=
  match handle_events_during_search (sched.events s.k) s.paused with
  | (paused2, cont2) =>
    if cont2 then .cont { s with paused := paused2, k := s.k + 1 }
    else .done none s.gs

/-- The backward phase of one `bidirectional_search` iteration. -/
def bidirBackward (M : Model) (sched : Sched) (s : BidirState) : StepRes BidirState :=
  match s.backward_queue with
  | current :: brest =>
    let pos := current.pos
    match s.forward_visited pos with
    | some fnode =>
      let forward_path := reconstruct_path fnode
      let backward_path := (reconstruct_path current).reverse
      let full_path := forward_path ++ backward_path.tail
      .done (some full_path) (visualize_path M s.gs full_path)
    | none =>
      let gs2 := if pos ≠ M.target then markCell s.gs pos CellType.EXPLORED else s.gs
      match bidirExpand M M.start (get_neighbors M gs2.grid current)
          (gs2, s.backward_visited, brest) with
      | (gs3, bvis3, bq3) =>
        bidirFinish sched
          { s with gs := gs3, backward_queue := bq3, backward_visited := bvis3 }
  | [] => bidirFinish sched s

/-- One iteration of the `while` loop of `bidirectional_search`: the
forward phase (meeting test on dequeue against the backward visited map,
then expansion), then the backward phase, then event processing. -/
def bidirStep (M : Model) (sched : Sched) (s : BidirState) : StepRes BidirState :=
  if (s.forward_queue.isEmpty && s.backward_queue.isEmpty) || s.paused then .done none s.gs
  else
    let gs1 := (add_dynamic_obstacle M s.gs (sched.rand s.k).1 (sched.rand s.k).2).1
    match s.forward_queue with
    | current :: frest =>
      let pos := current.pos
      match s.backward_visited pos with
      | some bnode =>
        let forward_path := reconstruct_path current
        let backward_path := (reconstruct_path bnode).reverse
        let full_path := forward_path ++ backward_path.tail
        .done (some full_path) (visualize_path M gs1 full_path)
      | none =>
        let gs2 := if pos ≠ M.start then markCell gs1 pos CellType.EXPLORED else gs1
        match bidirExpand M M.target (get_neighbors M gs2.grid current)
            (gs2, s.forward_visited, frest) with
        | (gs3, fvis3, fq3) =>
          bidirBackward M sched
            { s with gs := gs3, forward_queue := fq3, forward_visited := fvis3 }
    | [] => bidirBackward M sched { s with gs := gs1 }

/-- Initial loop state of `bidirectional_search`. -/
def bidirInit (M : Model) (gs : GState) : BidirState :=
  let start_node := Node.mk M.start.1 M.start.2 0 none
  let target_node := Node.mk M.target.1 M.target.2 0 none
  { gs := gs,
    forward_queue := [start_node], backward_queue := [target_node],
    forward_visited := fun p => if p = start_node.pos then some start_node else none,
    backward_visited := fun p => if p = target_node.pos then some target_node else none,
    paused := false, k := 0 }

/-- `bidirectional_search` from main.py. -/
def bidirectional_search (M : Model) (sched : Sched) (gs : GState) (fuel : Nat) :
    Option (Option (List Pos) × GState) :=
  loopRun (bidirStep M sched) fuel (bidirInit M gs)

/-- The outcome of `bidirectional_search` without the final grid state. -/
def bidir_result (M : Model) (sched : Sched) (gs : GState) (fuel : Nat) :
    Option (Option (List Pos)) :=
  (bidirectional_search M sched gs fuel).map Prod.fst

/-! ## Grid clicks (start/target/wall editing) -/

/-- The drawing mode of the UI. -/
inductive Mode where
  | WALL
  | START
  | TARGET
deriving DecidableEq

/-- The grid-editing state seen by `handle_grid_click`. -/
structure ClickState where
  grid : GridMap
  start : Pos
  target : Pos

/-- `handle_grid_click` from main.py, at the cell level (the pixel→cell
division and the legend-area check are presentation-shell concerns): in
START/TARGET mode the prior marker cell is reset to EMPTY and the clicked
cell is overwritten unconditionally; in WALL mode an EMPTY cell becomes
WALL and a WALL cell becomes EMPTY. -/
def handle_grid_click (M : Model) (mode : Mode) (cs : ClickState) (row col : Int) :
    ClickState :=
  if 0 ≤ row ∧ row < (M.rows : Int) ∧ 0 ≤ col ∧ col < (M.cols : Int) then
    match mode with
    | .START =>
      let g1 := updGrid cs.grid cs.start CellType.EMPTY
      { grid := updGrid g1 (row, col) CellType.START, start := (row, col), target := cs.target }
    | .TARGET =>
      let g1 := updGrid cs.grid cs.target CellType.EMPTY
      { grid := updGrid g1 (row, col) CellType.TARGET, start := cs.start, target := (row, col) }
    | .WALL =>
      if cs.grid (row, col) = CellType.EMPTY then
        { cs with grid := updGrid cs.grid (row, col) CellType.WALL }
      else if cs.grid (row, col) = CellType.WALL then
        { cs with grid := updGrid cs.grid (row, col) CellType.EMPTY }
      else cs
  else cs

/-! ## Specification-side definitions -/

/-- The binary-heap invariant of `heapq`: every child costs at least its
parent. -/
def HeapInv (l : List Node) : Prop :=
  ∀ j, 0 < j → j < l.length → (hget l (parentIdx j)).cost ≤ (hget l j).cost

/-- Invariant of the `_siftdown` phase: the heap has a hole at `pos`
holding `item`; all parent edges not incident to the hole are good, the
hole's children dominate `item`, and the hole's children dominate the
hole's parent. -/
def SDInv (l : List Node) (pos : Nat) (item : Node) : Prop :=
  (∀ j, 0 < j → j < l.length → j ≠ pos → parentIdx j ≠ pos →
    (hget l (parentIdx j)).cost ≤ (hget l j).cost) ∧
  (∀ j, j < l.length → parentIdx j = pos → 0 < j → item.cost ≤ (hget l j).cost) ∧
  (∀ j, j < l.length → parentIdx j = pos → 0 < j → 0 < pos →
    (hget l (parentIdx pos)).cost ≤ (hget l j).cost)

/-- Invariant of the blind descent phase of `_siftup`: all parent edges
not incident to the hole at `pos` are good, and the hole's children
dominate the hole's parent. -/
def SUInv (l : List Node) (pos : Nat) : Prop :=
  (∀ j, 0 < j → j < l.length → j ≠ pos → parentIdx j ≠ pos →
    (hget l (parentIdx j)).cost ≤ (hget l j).cost) ∧
  (∀ j, j < l.length → parentIdx j = pos → 0 < j → 0 < pos →
    (hget l (parentIdx pos)).cost ≤ (hget l j).cost)

/-- Push a list of nodes into an (initially empty) heap, in order. -/
def pushSeq (xs : List Node) : List Node := xs.foldl heappush []

/-- Pop `k` nodes off a heap, in order. -/
def popSeq : Nat → List Node → List Node
  | 0, _ => []
  | _ + 1, [] => []
  | k + 1, l => (heappop l).1 :: popSeq k (heappop l).2

/-- A 1×6 corridor grid: start (0,0), target (0,5), no walls; reaching
the target needs 5 moves. -/
def lineGrid6 : GridMap := fun p =>
  if p = ((0 : Int), (0 : Int)) then CellType.START
  else if p = ((0 : Int), (5 : Int)) then CellType.TARGET
  else CellType.EMPTY

/-- Model for the 1×6 corridor, dynamic obstacles disabled. -/
def lineM6 : Model :=
  { rows := 1, cols := 6, start := (0, 0), target := (0, 5),
    enable_dynamic_obstacles := false }

/-- Grid state for the 1×6 corridor. -/
def lineGS6 : GState := { grid := lineGrid6, dynamic_obstacles_added := [] }

/-- Environment in which SPACE (pause) is pressed during the first step. -/
def pauseSched : Sched :=
  { rand := fun _ => (false, 0), events := fun k => if k = 0 then [Ev.space] else [] }

/-- Environment in which the window is closed (QUIT) during every step. -/
def quitSched : Sched :=
  { rand := fun _ => (false, 0), events := fun _ => [Ev.quit] }

/-- A 1×3 corridor whose middle cell is a wall: no path exists. -/
def wallGrid3 : GridMap := fun p =>
  if p = ((0 : Int), (0 : Int)) then CellType.START
  else if p = ((0 : Int), (1 : Int)) then CellType.WALL
  else if p = ((0 : Int), (2 : Int)) then CellType.TARGET
  else CellType.EMPTY

/-- Model for the walled 1×3 corridor, dynamic obstacles disabled. -/
def wallM3 : Model :=
  { rows := 1, cols := 3, start := (0, 0), target := (0, 2),
    enable_dynamic_obstacles := false }

/-- Grid state for the walled 1×3 corridor. -/
def wallGS3 : GState := { grid := wallGrid3, dynamic_obstacles_added := [] }

/-- Click state over the walled corridor (wall at (0,1)). -/
def c7cs : ClickState := { grid := wallGrid3, start := (0, 0), target := (0, 2) }

/-- Four distinct positions' frontier nodes with equal accumulated cost,
for exercising tie-breaking in the UCS frontier. -/
def tieN1 : Node := .mk 1 1 5 none

/-- Second equal-cost node. -/
def tieN2 : Node := .mk 2 2 5 none

/-- Third equal-cost node. -/
def tieN3 : Node := .mk 3 3 5 none

/-- Fourth equal-cost node. -/
def tieN4 : Node := .mk 4 4 5 none

/-- A 1×3 corridor in which the middle cell has become a dynamic obstacle
while the BFS node for it is still queued (the scenario of Scenario D). -/
def c4grid : GridMap := fun p =>
  if p = ((0 : Int), (0 : Int)) then CellType.START
  else if p = ((0 : Int), (1 : Int)) then CellType.DYNAMIC_OBSTACLE
  else if p = ((0 : Int), (2 : Int)) then CellType.TARGET
  else CellType.EMPTY

/-- Model for the C4 scenario. -/
def c4M : Model :=
  { rows := 1, cols := 3, start := (0, 0), target := (0, 2),
    enable_dynamic_obstacles := false }

/-- The queued node whose cell became impassable after it was enqueued. -/
def c4node : Node := .mk 0 1 0 none

/-- The mid-run BFS state: `c4node` at the head of the queue while its
cell is a DYNAMIC_OBSTACLE. -/
def c4state : BfsState :=
  { gs := { grid := c4grid, dynamic_obstacles_added := [(0, 1)] },
    queue := [c4node], visited := [(0, 1), (0, 0)], paused := false, k := 1 }

/-- Read the grid of a step result at one position. -/
def stepGridAt (r : StepRes BfsState) (p : Pos) : CellType :=
  match r with
  | .done _ g => g.grid p
  | .cont s => s.gs.grid p

/-- The start and target cells carry their markers. -/
def MarksOK (M : Model) (gs : GState) : Prop :=
  gs.grid M.start = CellType.START ∧ gs.grid M.target = CellType.TARGET

/-- Per-outcome marker invariant for a step result. -/
def ResMarksOK {σ : Type} (M : Model) (proj : σ → GState) : StepRes σ → Prop
  | .done _ g => MarksOK M g
  | .cont s => MarksOK M (proj s)

/-- BFS/DFS loop invariant for marker preservation: additionally the
start position is in the visited set, so it is never FRONTIER-marked. -/
def BfsMarksInv (M : Model) (s : BfsState) : Prop :=
  MarksOK M s.gs ∧ M.start ∈ s.visited

/-- UCS loop invariant for marker preservation: additionally the start
keeps its recorded cost 0, so no re-push ever FRONTIER-marks it. -/
def UcsMarksInv (M : Model) (s : UcsState) : Prop :=
  MarksOK M s.gs ∧ s.costs M.start = some 0

/-- Bidirectional loop invariant for marker preservation: each side's
root is in its own visited map. -/
def BidirMarksInv (M : Model) (s : BidirState) : Prop :=
  MarksOK M s.gs ∧ s.forward_visited M.start ≠ none ∧
    s.backward_visited M.target ≠ none

/-- Outcome predicate of one step: the loop invariant on a continuing
state, a grid-state predicate on a finished run. -/
def StepInvRes {σ : Type} (Inv : σ → Prop) (P : GState → Prop) : StepRes σ → Prop
  | .done _ g => P g
  | .cont s2 => Inv s2

/-- Eight-connected adjacency: `b` is one `directions` move away from
`a`. -/
def Adj (a b : Pos) : Prop :=
  ∃ d ∈ directions, b = (a.1 + d.1, a.2 + d.2)

instance instDecidableAdj (a b : Pos) : Decidable (Adj a b) :=
  inferInstanceAs (Decidable (∃ d ∈ directions, b = (a.1 + d.1, a.2 + d.2)))

instance instDecidableRelAdj : DecidableRel Adj :=
  fun a b => instDecidableAdj a b

instance (priority := 2000) instDecidableChainAdj :
    ∀ (l : List Pos), Decidable (List.Chain' Adj l)
  | [] => isTrue List.chain'_nil
  | [a] => isTrue (List.chain'_singleton a)
  | a :: b :: t =>
    match instDecidableAdj a b, instDecidableChainAdj (b :: t) with
    | isTrue h1, isTrue h2 => isTrue (List.chain'_cons.mpr ⟨h1, h2⟩)
    | isFalse h1, _ => isFalse (fun hc => h1 (List.chain'_cons.mp hc).1)
    | _, isFalse h2 => isFalse (fun hc => h2 (List.chain'_cons.mp hc).2)

/-- A passable path of grid `g` under model `M`: it starts at the start
marker, ends at the target marker, moves by one of the eight direction
offsets at each step, and every cell on it is a valid (in-bounds,
non-wall, non-obstacle) position of `g`. -/
def GoodPath (M : Model) (g : GridMap) (p : List Pos) : Prop :=
  p.head? = some M.start ∧ p.getLast? = some M.target ∧
  List.Chain' Adj p ∧ ∀ q ∈ p, is_valid_position M g q.1 q.2 = true

instance instDecidableGoodPath (M : Model) (g : GridMap) (p : List Pos) :
    Decidable (GoodPath M g p) :=
  inferInstanceAs (Decidable (p.head? = some M.start ∧ p.getLast? = some M.target ∧
    List.Chain' Adj p ∧ ∀ q ∈ p, is_valid_position M g q.1 q.2 = true))

/-- `g2` keeps passable every cell that is passable in `g` (search marks
only ever overwrite cells with passable states). -/
def profileLE (g g2 : GridMap) : Prop :=
  ∀ q : Pos, g q ≠ CellType.WALL → g q ≠ CellType.DYNAMIC_OBSTACLE →
    g2 q ≠ CellType.WALL ∧ g2 q ≠ CellType.DYNAMIC_OBSTACLE

/-- `g` and `g2` have the same walls and the same dynamic obstacles. -/
def sameProfile (g g2 : GridMap) : Prop :=
  ∀ q : Pos, (g q = CellType.WALL ↔ g2 q = CellType.WALL) ∧
    (g q = CellType.DYNAMIC_OBSTACLE ↔ g2 q = CellType.DYNAMIC_OBSTACLE)

/-- The node's recorded parent chain (root-to-node positions) starts at
`root`, moves by single eight-connected steps, never repeats a cell, and
stays inside the keys of the visited map `vis`. -/
def ChainInv (root : Pos) (vis : Pos → Option Node) (n : Node) : Prop :=
  (chainList n).head? = some root ∧ List.Chain' Adj (chainList n) ∧
  (chainList n).Nodup ∧ ∀ q ∈ chainList n, vis q ≠ none

/-- Every entry of a visited map records a node at its key position whose
chain satisfies `ChainInv`. -/
def VisOK (root : Pos) (vis : Pos → Option Node) : Prop :=
  ∀ p n, vis p = some n → n.pos = p ∧ ChainInv root vis n

/-- Loop invariant of `bidirectional_search` for path assembly. -/
def BidirPathInv (M : Model) (s : BidirState) : Prop :=
  (∀ n ∈ s.forward_queue, ChainInv M.start s.forward_visited n) ∧
  (∀ n ∈ s.backward_queue, ChainInv M.target s.backward_visited n) ∧
  VisOK M.start s.forward_visited ∧ VisOK M.target s.backward_visited

/-- What C6 asserts of a returned path: first element the start, last the
target, consecutive cells eight-connected, and some meeting cell splits
the path and occurs exactly once. -/
def C6Path (M : Model) (p : List Pos) : Prop :=
  p.head? = some M.start ∧ p.getLast? = some M.target ∧ List.Chain' Adj p ∧
  ∃ meet l1 l2, p = l1 ++ meet :: l2 ∧ meet ∉ l1 ∧ meet ∉ l2

/-- Per-outcome predicate for a bidirectional step: the invariant
continues, and any returned path satisfies `C6Path`. -/
def BidirDoneOK (M : Model) : StepRes BidirState → Prop
  | .done r _ => ∀ path, r = some path → C6Path M path
  | .cont s2 => BidirPathInv M s2

/-- The scaled cost of the move from `a` to `b` (10 orthogonal, 14
diagonal, mirroring `get_neighbors`). -/
def stepCost (a b : Pos) : Nat := moveCost (b.1 - a.1) (b.2 - a.2)

/-- The accumulated cost of a path, summing `stepCost` over consecutive
cells. -/
def listCost : List Pos → Nat
  | [] => 0
  | [_] => 0
  | a :: b :: t => stepCost a b + listCost (b :: t)

/-- A passable path of grid `g` from the start marker to `q`. -/
def PathTo (M : Model) (g : GridMap) (q : Pos) (p : List Pos) : Prop :=
  p.head? = some M.start ∧ p.getLast? = some q ∧ List.Chain' Adj p ∧
  ∀ r ∈ p, is_valid_position M g r.1 r.2 = true

/-- A queue node is sound: its recorded parent chain is a passable path
from the start to its position whose accumulated cost is its cost. -/
def NodeSound (M : Model) (g : GridMap) (n : Node) : Prop :=
  PathTo M g n.pos (chainList n) ∧ listCost (chainList n) = n.cost

/-- The Dijkstra invariant of the `uniform_cost_search` loop (dynamic
obstacles disabled, no pending events), relative to the initial grid
state `gs0`. -/
structure UcsInv (M : Model) (gs0 : GState) (s : UcsState) : Prop where
  prof : sameProfile gs0.grid s.gs.grid
  np : s.paused = false
  heap : HeapInv s.priority_queue
  sound : ∀ n ∈ s.priority_queue, NodeSound M gs0.grid n
  closedMin : ∀ u ∈ s.visited, ∃ cu, s.costs u = some cu ∧
    ∀ p, PathTo M gs0.grid u p → cu ≤ listCost p
  relaxed : ∀ u ∈ s.visited, ∀ cu, s.costs u = some cu →
    ∀ r, Adj u r → is_valid_position M gs0.grid r.1 r.2 = true → r ∉ s.visited →
      ∃ m, s.costs r = some m ∧ m ≤ cu + stepCost u r
  openQueue : ∀ r, r ∉ s.visited → ∀ m, s.costs r = some m →
    ∃ n ∈ s.priority_queue, n.pos = r ∧ n.cost ≤ m
  openCost : ∀ n ∈ s.priority_queue, n.pos ∉ s.visited →
    ∃ m, s.costs n.pos = some m ∧ m ≤ n.cost
  startOk : M.start ∈ s.visited ∨ ∃ n ∈ s.priority_queue, n.pos = M.start ∧ n.cost = 0
  nd : s.visited.Nodup
  vb : ∀ u ∈ s.visited, inBounds M u

/-! End of definitions marker follows. -/

/-! ### End of definitions; lemmas and claim theorems follow -/

/-! ## Heap index bookkeeping -/

theorem hget_set_self (l : List Node) (i : Nat) (a : Node) (h : i < l.length) :
    hget (l.set i a) i = a := by
  simp [hget, List.getD_eq_getElem?_getD, List.getElem?_set_self, h]

theorem hget_set_ne (l : List Node) (i j : Nat) (a : Node) (h : i ≠ j) :
    hget (l.set i a) j = hget l j := by
  simp [hget, List.getD_eq_getElem?_getD, List.getElem?_set_ne h]

theorem hget_append_left (l l2 : List Node) (i : Nat) (h : i < l.length) :
    hget (l ++ l2) i = hget l i := by
  simp [hget, List.getD_eq_getElem?_getD, List.getElem?_append_left h]

theorem hget_append_last (l : List Node) (x : Node) :
    hget (l ++ [x]) l.length = x := by
  simp [hget, List.getD_eq_getElem?_getD]

theorem hget_dropLast (l : List Node) (i : Nat) (h : i < l.length - 1) :
    hget l.dropLast i = hget l i := by
  have h1 : i < l.dropLast.length := by simp [List.length_dropLast]; omega
  have h2 : i < l.length := by omega
  rw [hget, hget, List.getD_eq_getElem?_getD, List.getD_eq_getElem?_getD,
    List.getElem?_eq_getElem h1, List.getElem?_eq_getElem h2]
  simp [List.getElem_dropLast]

theorem hget_eq_getElem (l : List Node) (i : Nat) (h : i < l.length) :
    hget l i = l[i] := by
  simp [hget, List.getD_eq_getElem?_getD, List.getElem?_eq_getElem h]

/-- The two children of `p` are exactly `2p+1` and `2p+2`. -/
theorem parentIdx_eq_iff (j p : Nat) (hj : 0 < j) :
    parentIdx j = p ↔ j = 2 * p + 1 ∨ j = 2 * p + 2 := by
  unfold parentIdx; omega

theorem parentIdx_lt (j : Nat) (hj : 0 < j) : parentIdx j < j := by
  unfold parentIdx; omega

/-- In a heap, the root is a minimum. -/
theorem heapInv_root_min (l : List Node) (hl : HeapInv l) :
    ∀ j, j < l.length → (hget l 0).cost ≤ (hget l j).cost := by
  intro j
  induction j using Nat.strong_induction_on with
  | _ j ih =>
    intro hj
    rcases Nat.eq_zero_or_pos j with h0 | h0
    · subst h0; exact le_refl _
    · exact le_trans (ih (parentIdx j) (parentIdx_lt j h0)
        (lt_trans (parentIdx_lt j h0) hj)) (hl j h0 hj)

/-- Additive form of `List.count_set`. -/
theorem count_set_add (l : List Node) (i : Nat) (a : Node) (h : i < l.length) (x : Node) :
    (l.set i a).count x + (if hget l i = x then 1 else 0) =
      l.count x + (if a = x then 1 else 0) := by
  have hgl : hget l i = l[i] := hget_eq_getElem l i h
  have hmem : l[i] = x → 1 ≤ l.count x := by
    intro hx
    have : x ∈ l := hx ▸ List.getElem_mem h
    exact List.one_le_count_iff.mpr this
  have hcs := List.count_set a x l i h
  simp only [beq_iff_eq] at hcs
  rw [hgl]
  by_cases h1 : l[i] = x
  · have h3 := hmem h1
    by_cases h2 : a = x <;> simp [h1, h2] at hcs ⊢ <;> omega
  · by_cases h2 : a = x <;> simp [h1, h2] at hcs ⊢ <;> omega

/-- Swapping a two-step update: writing `l[j]` into hole `i` and `x` into
the new hole `j` permutes to just writing `x` into hole `i`. -/
theorem set_set_perm (l : List Node) (i j : Nat) (x : Node)
    (hi : i < l.length) (hj : j < l.length) (hij : i ≠ j) :
    ((l.set i (hget l j)).set j x).Perm (l.set i x) := by
  rw [List.perm_iff_count]
  intro y
  have e1 := count_set_add (l.set i (hget l j)) j x (by simpa using hj) y
  have e2 := count_set_add l i (hget l j) hi y
  have e3 := count_set_add l i x hi y
  rw [hget_set_ne l i j (hget l j) hij] at e1
  by_cases hq : hget l j = y <;> by_cases hr : hget l i = y <;> by_cases hs : x = y <;>
    simp [hq, hr, hs] at e1 e2 e3 ⊢ <;> omega

/-- Writing back the value already present is the identity. -/
theorem set_hget_self (l : List Node) (i : Nat) (h : i < l.length) :
    l.set i (hget l i) = l := by
  rw [hget_eq_getElem l i h]
  apply List.ext_getElem
  · simp
  · intro n h1 h2
    rw [List.getElem_set]
    split
    · subst ‹i = n›; rfl
    · rfl

/-- The fuel of `siftdownGo` is irrelevant once it covers `pos`. -/
theorem siftdownGo_congr (pos : Nat) :
    ∀ (f1 f2 s : Nat) (heap : List Node) (item : Node), pos ≤ f1 → pos ≤ f2 →
      siftdownGo f1 heap s pos item = siftdownGo f2 heap s pos item := by
  induction pos using Nat.strong_induction_on with
  | _ pos ih =>
    intro f1 f2 s heap item h1 h2
    match f1, f2 with
    | 0, 0 => rfl
    | 0, f2 + 1 =>
      have hp : pos = 0 := by omega
      subst hp
      simp [siftdownGo]
    | f1 + 1, 0 =>
      have hp : pos = 0 := by omega
      subst hp
      simp [siftdownGo]
    | f1 + 1, f2 + 1 =>
      by_cases hs : s < pos
      · by_cases hc : item.cost < (hget heap (parentIdx pos)).cost
        · simp only [siftdownGo, if_pos hs, if_pos hc]
          exact ih (parentIdx pos) (parentIdx_lt pos (by omega)) f1 f2 s _ item
            (by have := parentIdx_lt pos (by omega : 0 < pos); omega)
            (by have := parentIdx_lt pos (by omega : 0 < pos); omega)
        · simp only [siftdownGo, if_pos hs, if_neg hc]
      · simp only [siftdownGo, if_neg hs]

/-- Unfolding equation of `siftdownAux`: move the parent down, recurse. -/
theorem siftdownAux_rec (l : List Node) (pos : Nat) (item : Node) (h0 : 0 < pos)
    (hc : item.cost < (hget l (parentIdx pos)).cost) :
    siftdownAux l 0 pos item =
      siftdownAux (l.set pos (hget l (parentIdx pos))) 0 (parentIdx pos) item := by
  obtain ⟨p, rfl⟩ : ∃ p, pos = p + 1 := ⟨pos - 1, by omega⟩
  unfold siftdownAux
  simp only [siftdownGo, if_pos h0, if_pos hc]
  exact siftdownGo_congr (parentIdx (p + 1)) p (parentIdx (p + 1)) 0 _ item
    (by have := parentIdx_lt (p + 1) h0; omega) (le_refl _)

/-- Unfolding equation of `siftdownAux`: the item stops here. -/
theorem siftdownAux_stop (l : List Node) (pos : Nat) (item : Node) (h0 : 0 < pos)
    (hc : ¬item.cost < (hget l (parentIdx pos)).cost) :
    siftdownAux l 0 pos item = l.set pos item := by
  obtain ⟨p, rfl⟩ : ∃ p, pos = p + 1 := ⟨pos - 1, by omega⟩
  unfold siftdownAux
  simp only [siftdownGo, if_pos h0, if_neg hc]

/-- Unfolding equation of `siftdownAux`: the item reached the root. -/
theorem siftdownAux_base (l : List Node) (pos : Nat) (item : Node) (h0 : ¬0 < pos) :
    siftdownAux l 0 pos item = l.set pos item := by
  have hp : pos = 0 := by omega
  subst hp
  rfl

/-- `pickChild` is a child index strictly between `pos` and `endpos`. -/
theorem pickChild_bounds (l : List Node) (endpos pos : Nat) (h : 2 * pos + 1 < endpos) :
    pos < pickChild l endpos pos ∧ pickChild l endpos pos < endpos ∧
      parentIdx (pickChild l endpos pos) = pos := by
  unfold pickChild parentIdx
  split <;> omega

/-- The fuel of `siftupGo` is irrelevant once `endpos ≤ fuel + pos`. -/
theorem siftupGo_congr (n : Nat) :
    ∀ (f1 f2 endpos s pos : Nat) (heap : List Node) (item : Node),
      endpos - pos ≤ n → endpos ≤ f1 + pos → endpos ≤ f2 + pos →
      siftupGo f1 heap endpos s pos item = siftupGo f2 heap endpos s pos item := by
  induction n with
  | zero =>
    intro f1 f2 endpos s pos heap item h0 h1 h2
    have hstop : ¬2 * pos + 1 < endpos := by omega
    match f1, f2 with
    | 0, 0 => rfl
    | 0, f2 + 1 => simp only [siftupGo, if_neg hstop]
    | f1 + 1, 0 => simp only [siftupGo, if_neg hstop]
    | f1 + 1, f2 + 1 => simp only [siftupGo, if_neg hstop]
  | succ n ih =>
    intro f1 f2 endpos s pos heap item h0 h1 h2
    by_cases hch : 2 * pos + 1 < endpos
    · match f1, f2 with
      | 0, _ => omega
      | _ + 1, 0 => omega
      | f1 + 1, f2 + 1 =>
        simp only [siftupGo, if_pos hch]
        have hb := pickChild_bounds heap endpos pos hch
        exact ih f1 f2 endpos s (pickChild heap endpos pos) _ item
          (by omega) (by omega) (by omega)
    · match f1, f2 with
      | 0, 0 => rfl
      | 0, f2 + 1 => simp only [siftupGo, if_neg hch]
      | f1 + 1, 0 => simp only [siftupGo, if_neg hch]
      | f1 + 1, f2 + 1 => simp only [siftupGo, if_neg hch]

/-- Unfolding equation of `siftupAux`: descend into the cheaper child. -/
theorem siftupAux_rec (l : List Node) (endpos pos : Nat) (item : Node)
    (h : 2 * pos + 1 < endpos) :
    siftupAux l endpos 0 pos item =
      siftupAux (l.set pos (hget l (pickChild l endpos pos))) endpos 0
        (pickChild l endpos pos) item := by
  obtain ⟨e, rfl⟩ : ∃ e, endpos = e + 1 := ⟨endpos - 1, by omega⟩
  have hb := pickChild_bounds l (e + 1) pos h
  have step1 : siftupAux l (e + 1) 0 pos item =
      siftupGo e (l.set pos (hget l (pickChild l (e + 1) pos))) (e + 1) 0
        (pickChild l (e + 1) pos) item := by
    show siftupGo (e + 1) l (e + 1) 0 pos item = _
    simp only [siftupGo, if_pos h]
  rw [step1]
  exact siftupGo_congr (e + 1) e (e + 1) (e + 1) 0 (pickChild l (e + 1) pos) _ item
    (by omega) (by omega) (by omega)

/-- Unfolding equation of `siftupAux`: the hole reached a leaf. -/
theorem siftupAux_base (l : List Node) (endpos pos : Nat) (item : Node)
    (h : ¬2 * pos + 1 < endpos) :
    siftupAux l endpos 0 pos item = siftdownAux l 0 pos item := by
  unfold siftupAux
  match endpos with
  | 0 => rfl
  | e + 1 => simp only [siftupGo, if_neg h]

/-- `_siftdown` permutes the heap with the item written into the hole. -/
theorem siftdownAux_perm (pos : Nat) :
    ∀ (l : List Node) (item : Node), pos < l.length →
      (siftdownAux l 0 pos item).Perm (l.set pos item) := by
  induction pos using Nat.strong_induction_on with
  | _ pos ih =>
    intro l item hp
    by_cases h0 : 0 < pos
    · by_cases hc : item.cost < (hget l (parentIdx pos)).cost
      · rw [siftdownAux_rec l pos item h0 hc]
        have hpp : parentIdx pos < pos := parentIdx_lt pos h0
        have hrec := ih (parentIdx pos) hpp (l.set pos (hget l (parentIdx pos))) item
          (by simpa using lt_trans hpp hp)
        exact hrec.trans (set_set_perm l pos (parentIdx pos) item hp
          (lt_trans hpp hp) (Nat.ne_of_gt hpp))
      · rw [siftdownAux_stop l pos item h0 hc]
    · rw [siftdownAux_base l pos item h0]

/-- `_siftup` permutes the heap with the item written into the hole. -/
theorem siftupAux_perm :
    ∀ (n : Nat) (l : List Node) (pos : Nat) (item : Node), l.length - pos ≤ n →
      pos < l.length →
      (siftupAux l l.length 0 pos item).Perm (l.set pos item) := by
  intro n
  induction n with
  | zero => intro l pos item h1 h2; omega
  | succ n ih =>
    intro l pos item h1 h2
    by_cases hch : 2 * pos + 1 < l.length
    · rw [siftupAux_rec l l.length pos item hch]
      obtain ⟨hb1, hb2, _⟩ := pickChild_bounds l l.length pos hch
      have hlen : (l.set pos (hget l (pickChild l l.length pos))).length = l.length := by simp
      have hrec := ih (l.set pos (hget l (pickChild l l.length pos)))
        (pickChild l l.length pos) item (by omega) (by omega)
      rw [hlen] at hrec
      exact hrec.trans (set_set_perm l pos (pickChild l l.length pos) item h2 hb2
        (Nat.ne_of_lt hb1))
    · rw [siftupAux_base l l.length pos item hch]
      exact siftdownAux_perm pos l item h2

/-- `heappush` permutes the heap with the new item added. -/
theorem heappush_perm (l : List Node) (x : Node) : (heappush l x).Perm (x :: l) := by
  unfold heappush
  have h1 : l.length < (l ++ [x]).length := by simp
  have h2 := siftdownAux_perm l.length (l ++ [x]) x h1
  have h3 : (l ++ [x]).set l.length x = l ++ [x] := by
    have := set_hget_self (l ++ [x]) l.length h1
    rwa [hget_append_last] at this
  rw [h3] at h2
  exact h2.trans (List.perm_append_singleton x l)

/-- `heappop` returns the root. -/
theorem heappop_fst (l : List Node) (h : l ≠ []) : (heappop l).1 = hget l 0 := by
  unfold heappop
  by_cases h1 : l.dropLast.isEmpty
  · have hlen : l.length = 1 := by
      have := List.isEmpty_iff.mp h1
      have h2 := l.length_dropLast
      rw [this] at h2
      have h3 : l.length ≠ 0 := by simpa using h
      simp at h2; omega
    simp only [h1, if_pos]
    congr 1
    omega
  · simp only [h1, if_neg, not_false_iff]
    have hl2 : 2 ≤ l.length := by
      rcases l with _ | ⟨a, _ | ⟨b, t⟩⟩ <;> simp_all
    exact hget_dropLast l 0 (by omega)

/-- `heappop` leaves a permutation of the tail. -/
theorem heappop_perm (l : List Node) (h : l ≠ []) : (heappop l).2.Perm l.tail := by
  unfold heappop
  by_cases h1 : l.dropLast.isEmpty
  · have hlen : l.length = 1 := by
      have := List.isEmpty_iff.mp h1
      have h2 := l.length_dropLast
      rw [this] at h2
      have h3 : l.length ≠ 0 := by simpa using h
      simp at h2; omega
    rcases l with _ | ⟨a, t⟩
    · simp at h
    · have : t = [] := by simpa [List.length_cons] using hlen
      subst this
      simp [h1]
  · simp only [h1, if_neg, not_false_iff]
    have hl2 : 2 ≤ l.length := by
      rcases l with _ | ⟨a, _ | ⟨b, t⟩⟩ <;> simp_all
    have hrl : l.dropLast.length = l.length - 1 := by simp [List.length_dropLast]
    have h0r : 0 < l.dropLast.length := by omega
    have h2len : (l.dropLast.set 0 (hget l (l.length - 1))).length = l.dropLast.length := by
      simp
    have hperm := siftupAux_perm (l.dropLast.set 0 (hget l (l.length - 1))).length
      (l.dropLast.set 0 (hget l (l.length - 1))) 0
      (hget (l.dropLast.set 0 (hget l (l.length - 1))) 0) (by omega) (by omega)
    have hself := set_hget_self (l.dropLast.set 0 (hget l (l.length - 1))) 0 (by omega)
    rw [hself] at hperm
    refine hperm.trans ?_
    rw [List.perm_iff_count]
    intro y
    have e1 := count_set_add l.dropLast 0 (hget l (l.length - 1)) h0r y
    have hr0 : hget l.dropLast 0 = hget l 0 := hget_dropLast l 0 (by omega)
    have hcl : l.count y = l.dropLast.count y +
        (if hget l (l.length - 1) = y then 1 else 0) := by
      conv_lhs => rw [← List.dropLast_append_getLast h]
      have hgl : l.getLast h = hget l (l.length - 1) := by
        rw [List.getLast_eq_getElem, hget_eq_getElem l (l.length - 1) (by omega)]
      rw [hgl]
      by_cases hy : hget l (l.length - 1) = y <;>
        simp [List.count_append, List.count_singleton, hy, beq_iff_eq]
    have hct : l.count y = (if hget l 0 = y then 1 else 0) + l.tail.count y := by
      conv_lhs => rw [← List.head_cons_tail l h]
      have hh : l.head h = hget l 0 := by
        rw [List.head_eq_getElem, hget_eq_getElem l 0 (by omega)]
      rw [hh]
      by_cases hy : hget l 0 = y <;> simp [List.count_cons, hy, beq_iff_eq] <;> omega
    rw [hr0] at e1
    by_cases hy1 : hget l 0 = y <;> by_cases hy2 : hget l (l.length - 1) = y <;>
      simp [hy1, hy2] at e1 hcl hct ⊢ <;> omega

/-- `pickChild` picks a cheapest child. -/
theorem pickChild_min (l : List Node) (endpos pos : Nat) (h : 2 * pos + 1 < endpos) :
    ∀ j, 0 < j → j < endpos → parentIdx j = pos →
      (hget l (pickChild l endpos pos)).cost ≤ (hget l j).cost := by
  intro j hj0 hj hpj
  have hcases := (parentIdx_eq_iff j pos hj0).mp hpj
  unfold pickChild
  split
  · rename_i hcond
    rcases hcases with h1 | h1 <;> subst h1
    · exact le_of_not_lt hcond.2
    · exact le_refl _
  · rename_i hcond
    rcases hcases with h1 | h1 <;> subst h1
    · exact le_refl _
    · rcases Classical.em (2 * pos + 2 < endpos) with h2 | h2
      · have : (hget l (2 * pos + 1)).cost < (hget l (2 * pos + 2)).cost := by
          by_contra hcc
          exact hcond ⟨h2, hcc⟩
        exact le_of_lt this
      · omega

/-- `_siftdown` restores the heap invariant from the hole invariant. -/
theorem siftdownAux_heapInv (pos : Nat) :
    ∀ (l : List Node) (item : Node), pos < l.length → SDInv l pos item →
      HeapInv (siftdownAux l 0 pos item) := by
  induction pos using Nat.strong_induction_on with
  | _ pos ih =>
    intro l item hp hinv
    obtain ⟨ha, hb, hc3⟩ := hinv
    by_cases h0 : 0 < pos
    · have hpp : parentIdx pos < pos := parentIdx_lt pos h0
      have hppl : parentIdx pos < l.length := lt_trans hpp hp
      have hppne : parentIdx pos ≠ pos := Nat.ne_of_lt hpp
      by_cases hcc : item.cost < (hget l (parentIdx pos)).cost
      · rw [siftdownAux_rec l pos item h0 hcc]
        apply ih (parentIdx pos) hpp _ item (by simpa using hppl)
        refine ⟨?_, ?_, ?_⟩
        · intro j hj hjl hjp hpjp
          simp only [List.length_set] at hjl
          have hjpos : j ≠ pos := by
            intro he; subst he; exact hpjp rfl
          rw [hget_set_ne l pos j _ (fun he => hjpos he.symm)]
          by_cases hpj : parentIdx j = pos
          · rw [hpj, hget_set_self l pos _ hp]
            exact hc3 j hjl hpj hj h0
          · rw [hget_set_ne l pos (parentIdx j) _ (fun he => hpj he.symm)]
            exact ha j hj hjl hjpos hpj
        · intro j hjl hpj hj
          simp only [List.length_set] at hjl
          by_cases hjpos : j = pos
          · rw [hjpos, hget_set_self l pos _ hp]
            exact le_of_lt hcc
          · rw [hget_set_ne l pos j _ (fun he => hjpos he.symm)]
            have h1 := ha j hj hjl hjpos (by rw [hpj]; exact hppne)
            rw [hpj] at h1
            exact le_trans (le_of_lt hcc) h1
        · intro j hjl hpj hj hpp0
          simp only [List.length_set] at hjl
          have hpppne : parentIdx (parentIdx pos) ≠ pos :=
            Nat.ne_of_lt (lt_trans (parentIdx_lt _ hpp0) hpp)
          rw [hget_set_ne l pos (parentIdx (parentIdx pos)) _ (fun he => hpppne he.symm)]
          have hstep : (hget l (parentIdx (parentIdx pos))).cost ≤ (hget l (parentIdx pos)).cost :=
            ha (parentIdx pos) hpp0 hppl hppne hpppne
          by_cases hjpos : j = pos
          · rw [hjpos, hget_set_self l pos _ hp]
            exact hstep
          · rw [hget_set_ne l pos j _ (fun he => hjpos he.symm)]
            have h1 := ha j hj hjl hjpos (by rw [hpj]; exact hppne)
            rw [hpj] at h1
            exact le_trans hstep h1
      · rw [siftdownAux_stop l pos item h0 hcc]
        intro j hj hjl
        simp only [List.length_set] at hjl
        by_cases hjpos : j = pos
        · subst hjpos
          rw [hget_set_ne l j (parentIdx j) _ (fun he => (Nat.ne_of_lt (parentIdx_lt j h0)) he.symm),
            hget_set_self l j _ hp]
          exact le_of_not_lt hcc
        · rw [hget_set_ne l pos j _ (fun he => hjpos he.symm)]
          by_cases hpj : parentIdx j = pos
          · rw [hpj, hget_set_self l pos _ hp]
            exact hb j hjl hpj hj
          · rw [hget_set_ne l pos (parentIdx j) _ (fun he => hpj he.symm)]
            exact ha j hj hjl hjpos hpj
    · have hpos : pos = 0 := by omega
      subst hpos
      rw [siftdownAux_base l 0 item h0]
      intro j hj hjl
      simp only [List.length_set] at hjl
      have hj0 : j ≠ 0 := Nat.pos_iff_ne_zero.mp hj
      rw [hget_set_ne l 0 j _ (fun he => hj0 he.symm)]
      by_cases hpj : parentIdx j = 0
      · rw [hpj, hget_set_self l 0 _ hp]
        exact hb j hjl hpj hj
      · rw [hget_set_ne l 0 (parentIdx j) _ (fun he => hpj he.symm)]
        exact ha j hj hjl hj0 hpj

/-- `_siftup` restores the heap invariant from the hole invariant. -/
theorem siftupAux_heapInv :
    ∀ (n : Nat) (l : List Node) (pos : Nat) (item : Node), l.length - pos ≤ n →
      pos < l.length → SUInv l pos →
      HeapInv (siftupAux l l.length 0 pos item) := by
  intro n
  induction n with
  | zero => intro l pos item h1 h2 _; omega
  | succ n ih =>
    intro l pos item h1 h2 hinv
    obtain ⟨ha, hb⟩ := hinv
    by_cases hch : 2 * pos + 1 < l.length
    · rw [siftupAux_rec l l.length pos item hch]
      obtain ⟨hb1, hb2, hb3⟩ := pickChild_bounds l l.length pos hch
      set cp := pickChild l l.length pos with hcpdef
      have hlen : (l.set pos (hget l cp)).length = l.length := by simp
      have hne : pos ≠ cp := Nat.ne_of_lt hb1
      have hmin := pickChild_min l l.length pos hch
      have hrec := ih (l.set pos (hget l cp)) cp item (by omega) (by omega) ?_
      · rw [hlen] at hrec
        exact hrec
      constructor
      · intro j hj hjl hjcp hpjcp
        rw [hlen] at hjl
        by_cases hjpos : j = pos
        · subst hjpos
          have hj0 := hj
          have hppne : parentIdx j ≠ j := Nat.ne_of_lt (parentIdx_lt j hj)
          rw [hget_set_ne l j (parentIdx j) _ (fun he => hppne he.symm),
            hget_set_self l j _ h2]
          exact hb cp hb2 hb3 (by omega) hj
        · rw [hget_set_ne l pos j _ (fun he => hjpos he.symm)]
          by_cases hpj : parentIdx j = pos
          · rw [hpj, hget_set_self l pos _ h2]
            exact hmin j hj hjl hpj
          · rw [hget_set_ne l pos (parentIdx j) _ (fun he => hpj he.symm)]
            exact ha j hj hjl hjpos hpj
      · intro j hjl hpj hj hcp0
        rw [hlen] at hjl
        have hjcp : cp < j := by
          have := parentIdx_lt j hj
          omega
        have hjpos : j ≠ pos := by omega
        rw [hb3, hget_set_self l pos _ h2,
          hget_set_ne l pos j _ (fun he => hjpos he.symm)]
        have h1 := ha j hj hjl hjpos (by rw [hpj]; omega)
        rw [hpj] at h1
        exact h1
    · rw [siftupAux_base l l.length pos item hch]
      apply siftdownAux_heapInv pos l item h2
      refine ⟨ha, ?_, ?_⟩
      · intro j hjl hpj hj
        have : j = 2 * pos + 1 ∨ j = 2 * pos + 2 := (parentIdx_eq_iff j pos hj).mp hpj
        omega
      · intro j hjl hpj hj _
        have : j = 2 * pos + 1 ∨ j = 2 * pos + 2 := (parentIdx_eq_iff j pos hj).mp hpj
        omega

/-- `heappush` preserves the heap invariant. -/
theorem heappush_heapInv (l : List Node) (x : Node) (h : HeapInv l) :
    HeapInv (heappush l x) := by
  unfold heappush
  have h1 : l.length < (l ++ [x]).length := by simp
  apply siftdownAux_heapInv l.length (l ++ [x]) x h1
  refine ⟨?_, ?_, ?_⟩
  · intro j hj hjl hjp hpjp
    simp only [List.length_append, List.length_singleton] at hjl
    have hjl2 : j < l.length := by omega
    rw [hget_append_left l [x] j hjl2,
      hget_append_left l [x] (parentIdx j) (lt_trans (parentIdx_lt j hj) hjl2)]
    exact h j hj hjl2
  · intro j hjl hpj hj
    simp only [List.length_append, List.length_singleton] at hjl
    have : j = 2 * l.length + 1 ∨ j = 2 * l.length + 2 := (parentIdx_eq_iff j _ hj).mp hpj
    omega
  · intro j hjl hpj hj _
    simp only [List.length_append, List.length_singleton] at hjl
    have : j = 2 * l.length + 1 ∨ j = 2 * l.length + 2 := (parentIdx_eq_iff j _ hj).mp hpj
    omega

/-- `heappop` preserves the heap invariant. -/
theorem heappop_heapInv (l : List Node) (h : HeapInv l) : HeapInv (heappop l).2 := by
  unfold heappop
  by_cases h1 : l.dropLast.isEmpty
  · simp only [h1, if_pos]
    intro j hj hjl
    simp at hjl
  · simp only [h1, if_neg, not_false_iff]
    have hl2 : 2 ≤ l.length := by
      rcases l with _ | ⟨a, _ | ⟨b, t⟩⟩ <;> simp_all
    have hrl : l.dropLast.length = l.length - 1 := by simp [List.length_dropLast]
    have h0r : 0 < l.dropLast.length := by omega
    have h2len : (l.dropLast.set 0 (hget l (l.length - 1))).length = l.dropLast.length := by
      simp
    apply siftupAux_heapInv (l.dropLast.set 0 (hget l (l.length - 1))).length
      _ 0 _ (by omega) (by omega)
    constructor
    · intro j hj hjl hj0 hpj0
      rw [h2len, hrl] at hjl
      have hjdl : j < l.dropLast.length := by omega
      have hpjdl : parentIdx j < l.dropLast.length := lt_trans (parentIdx_lt j hj) hjdl
      rw [hget_set_ne _ 0 j _ (fun he => hj0 he.symm),
        hget_set_ne _ 0 (parentIdx j) _ (fun he => hpj0 he.symm),
        hget_dropLast l j (by omega), hget_dropLast l (parentIdx j) (by omega)]
      exact h j hj (by omega)
    · intro j hjl hpj hj hcp0
      omega

/-- The popped node has minimal cost among the heap's nodes. -/
theorem heappop_min (l : List Node) (h : HeapInv l) (hne : l ≠ []) :
    ∀ m ∈ l, (heappop l).1.cost ≤ m.cost := by
  intro m hm
  rw [heappop_fst l hne]
  obtain ⟨i, hi, hmi⟩ := List.mem_iff_getElem.mp hm
  have := heapInv_root_min l h i hi
  rw [hget_eq_getElem l i hi, hmi] at this
  exact this

/-! ## Claims C2, C3, C7 -/

/-- C2: the pause contract is broken in the code.  The spec claims that
setting the pause flag freezes the run at the next step boundary without
terminating it and without changing the eventual Found/NotFound outcome.
In the code the search loop condition is `while queue and not self.paused`,
so pressing SPACE during a step makes `breadth_first_search` exit the
loop and return False, which `run_algorithm` reports as "No path found!":
on the 1×6 corridor the unpaused run returns Found with the corridor
path, while the identical run paused at the first step returns NotFound.
The run cannot return to Running: it has already terminated. -/
theorem C2_pause_aborts_run :
    bfs_result lineM6 trivSched lineGS6 30 =
        some (some [(0, 0), (0, 1), (0, 2), (0, 3), (0, 4), (0, 5)]) ∧
    bfs_result lineM6 pauseSched lineGS6 30 = some none ∧
    search_result_message false = "No path found!" :=
  ⟨by decide, by decide, rfl⟩

/-- C3 counterexample: cancellation is not distinguishable from NotFound.
A run of `breadth_first_search` cancelled by QUIT at its first step
returns exactly the same caller-visible outcome (`False`, modelled
`some none`, reported "No path found!") as an uncancelled run on a grid
with no path; there is no distinct Cancelled value anywhere in the
interface. -/
theorem C3_counterexample :
    bfs_result lineM6 quitSched lineGS6 30 = some none ∧
    bfs_result wallM3 trivSched wallGS3 30 = some none ∧
    search_result_message false = "No path found!" :=
  ⟨by decide, by decide, rfl⟩

/-- C3 amended: cancellation (QUIT) of an active run ends the run at the
next step boundary — the strategy returns False — but this outcome is
the very value NotFound produces, so it is reported identically
("No path found!") and is not distinguishable by the caller. -/
theorem C3_cancel_ends_run (M : Model) (sched : Sched) (gs : GState) (fuel : Nat)
    (hne : M.start ≠ M.target)
    (hq : (handle_events_during_search (sched.events 0) false).2 = false) :
    bfs_result M sched gs (fuel + 1) = some none ∧
    search_result_message false = "No path found!" := by
  refine ⟨?_, rfl⟩
  unfold bfs_result breadth_first_search loopRun bfsInit
  simp [bfsStep, Node.pos, Node.x, Node.y, hq, hne]

/-- Witness for C3's amended theorem at a concrete cancelled run. -/
theorem C3_cancel_ends_run_witness :
    bfs_result lineM6 quitSched lineGS6 30 = some none ∧
    search_result_message false = "No path found!" :=
  C3_cancel_ends_run lineM6 quitSched lineGS6 29 (by decide) (by decide)

/-- C7 counterexample: placing the Start marker on a Wall cell is not
rejected.  On the walled corridor, clicking (0,1) (a WALL) in START mode
does not leave the grid unchanged: the wall cell is overwritten. -/
theorem C7_counterexample :
    ¬(∀ (M : Model) (cs : ClickState) (row col : Int),
        0 ≤ row → row < (M.rows : Int) → 0 ≤ col → col < (M.cols : Int) →
        cs.grid (row, col) = CellType.WALL →
        handle_grid_click M Mode.START cs row col = cs) := by
  intro hclaim
  have h := hclaim wallM3 c7cs 0 1 (by decide) (by decide) (by decide) (by decide) (by decide)
  have h2 := congrArg (fun cs => cs.grid (0, 1)) h
  simp only at h2
  have h3 : (handle_grid_click wallM3 Mode.START c7cs 0 1).grid (0, 1) = CellType.START := by
    decide
  have h4 : c7cs.grid (0, 1) = CellType.WALL := by decide
  rw [h3, h4] at h2
  exact CellType.noConfusion h2

/-- C7 amended: for every in-bounds position `p = (row, col)`, setting
the Start (resp. Target) marker always succeeds — even when `p` is a
Wall, which is overwritten without any `BlockedStartOrTarget` rejection:
the prior marker cell is cleared back to EMPTY, `p` becomes the marker,
and no other cell changes. -/
theorem C7_set_marker_overwrites (M : Model) (cs : ClickState) (row col : Int)
    (h1 : 0 ≤ row) (h2 : row < (M.rows : Int)) (h3 : 0 ≤ col) (h4 : col < (M.cols : Int)) :
    ((handle_grid_click M Mode.START cs row col).start = (row, col) ∧
      (handle_grid_click M Mode.START cs row col).grid (row, col) = CellType.START ∧
      (cs.start ≠ (row, col) →
        (handle_grid_click M Mode.START cs row col).grid cs.start = CellType.EMPTY) ∧
      ∀ q, q ≠ (row, col) → q ≠ cs.start →
        (handle_grid_click M Mode.START cs row col).grid q = cs.grid q) ∧
    ((handle_grid_click M Mode.TARGET cs row col).target = (row, col) ∧
      (handle_grid_click M Mode.TARGET cs row col).grid (row, col) = CellType.TARGET ∧
      (cs.target ≠ (row, col) →
        (handle_grid_click M Mode.TARGET cs row col).grid cs.target = CellType.EMPTY) ∧
      ∀ q, q ≠ (row, col) → q ≠ cs.target →
        (handle_grid_click M Mode.TARGET cs row col).grid q = cs.grid q) := by
  have hb : 0 ≤ row ∧ row < (M.rows : Int) ∧ 0 ≤ col ∧ col < (M.cols : Int) :=
    ⟨h1, h2, h3, h4⟩
  constructor
  · refine ⟨?_, ?_, ?_, ?_⟩
    · simp [handle_grid_click, if_pos hb]
    · simp [handle_grid_click, if_pos hb, updGrid]
    · intro hne
      simp [handle_grid_click, if_pos hb, updGrid, hne]
    · intro q hq1 hq2
      simp [handle_grid_click, if_pos hb, updGrid, hq1, hq2]
  · refine ⟨?_, ?_, ?_, ?_⟩
    · simp [handle_grid_click, if_pos hb]
    · simp [handle_grid_click, if_pos hb, updGrid]
    · intro hne
      simp [handle_grid_click, if_pos hb, updGrid, hne]
    · intro q hq1 hq2
      simp [handle_grid_click, if_pos hb, updGrid, hq1, hq2]

/-- Witness for C7's amended theorem: clicking the wall cell (0,1) in
START mode on the walled corridor. -/
theorem C7_set_marker_overwrites_witness :
    (handle_grid_click wallM3 Mode.START c7cs 0 1).start = (0, 1) ∧
    (handle_grid_click wallM3 Mode.START c7cs 0 1).grid (0, 1) = CellType.START :=
  ⟨(C7_set_marker_overwrites wallM3 c7cs 0 1 (by decide) (by decide) (by decide)
      (by decide)).1.1,
   (C7_set_marker_overwrites wallM3 c7cs 0 1 (by decide) (by decide) (by decide)
      (by decide)).1.2.1⟩

/-! ## Claim C9 -/

/-- Members of the empty-cell scan are EMPTY cells. -/
theorem mem_empty_cells (M : Model) (g : GridMap) (p : Pos)
    (h : p ∈ empty_cells_list M g) : g p = CellType.EMPTY := by
  unfold empty_cells_list at h
  rw [List.mem_flatMap] at h
  obtain ⟨r, _, hr⟩ := h
  rw [List.mem_filterMap] at hr
  obtain ⟨c, _, hc⟩ := hr
  by_cases he : g ((r : Int), (c : Int)) = CellType.EMPTY
  · rw [if_pos he] at hc
    cases hc
    exact he
  · rw [if_neg he] at hc
    cases hc

/-- The cell picked by `random.choice` is a member of the list. -/
theorem getD_mod_mem (l : List Pos) (choice : Nat) (h : l ≠ []) :
    l.getD (choice % l.length) (0, 0) ∈ l := by
  have hlen : 0 < l.length := List.length_pos.mpr h
  have hm : choice % l.length < l.length := Nat.mod_lt choice hlen
  rw [List.getD_eq_getElem?_getD, List.getElem?_eq_getElem hm]
  exact List.getElem_mem hm

/-- C9: `add_dynamic_obstacle` only ever converts an EMPTY cell.  When it
returns true, exactly one previously-EMPTY cell `p` became
DYNAMIC_OBSTACLE, `p` was appended to the obstacle log, and every other
cell — in particular every FRONTIER, EXPLORED, PATH, START, TARGET or
WALL cell — is unchanged.  When dynamic obstacles are disabled, the
random draw fails, or no EMPTY cell exists, the grid and the log are
unchanged and it returns false. -/
theorem C9_add_dynamic_obstacle_empty_only (M : Model) (gs : GState) (draw : Bool)
    (choice : Nat) :
    ((add_dynamic_obstacle M gs draw choice).2 = true →
      ∃ p, gs.grid p = CellType.EMPTY ∧
        (add_dynamic_obstacle M gs draw choice).1.grid p = CellType.DYNAMIC_OBSTACLE ∧
        (∀ q, q ≠ p → (add_dynamic_obstacle M gs draw choice).1.grid q = gs.grid q) ∧
        (∀ q, gs.grid q ≠ CellType.EMPTY →
          (add_dynamic_obstacle M gs draw choice).1.grid q = gs.grid q) ∧
        (add_dynamic_obstacle M gs draw choice).1.dynamic_obstacles_added =
          gs.dynamic_obstacles_added ++ [p]) ∧
    ((M.enable_dynamic_obstacles = false ∨ draw = false ∨
        empty_cells_list M gs.grid = []) →
      add_dynamic_obstacle M gs draw choice = (gs, false)) := by
  unfold add_dynamic_obstacle
  by_cases hen : M.enable_dynamic_obstacles
  · simp only [hen, Bool.not_true, Bool.false_eq_true, if_false]
    by_cases hdr : draw
    · subst hdr
      simp only [if_true]
      by_cases hemp : (empty_cells_list M gs.grid).isEmpty
      · simp only [hemp, if_pos]
        constructor
        · intro h; cases h
        · intro _; trivial
      · simp only [hemp, Bool.false_eq_true, if_false]
        have hnil : empty_cells_list M gs.grid ≠ [] := by
          simpa [List.isEmpty_iff] using hemp
        have hpcmem := getD_mod_mem (empty_cells_list M gs.grid) choice hnil
        have hpcempty := mem_empty_cells M gs.grid _ hpcmem
        constructor
        · intro _
          refine ⟨(empty_cells_list M gs.grid).getD
            (choice % (empty_cells_list M gs.grid).length) (0, 0),
            hpcempty, ?_, ?_, ?_, rfl⟩
          · simp [updGrid]
          · intro q hq
            simp only [updGrid]
            rw [if_neg hq]
          · intro q hq
            have hne : q ≠ (empty_cells_list M gs.grid).getD
                (choice % (empty_cells_list M gs.grid).length) (0, 0) := by
              intro he
              exact hq (he ▸ hpcempty)
            simp only [updGrid]
            rw [if_neg hne]
        · intro h
          rcases h with h | h | h
          · exact Bool.noConfusion h
          · exact Bool.noConfusion h
          · exact absurd h hnil
    · simp only [Bool.not_eq_true] at hdr
      subst hdr
      simp only [Bool.false_eq_true, if_false]
      exact ⟨fun h => h.elim, fun _ => trivial⟩
  · simp only [Bool.not_eq_true] at hen
    simp only [hen, Bool.not_false, if_true]
    exact ⟨fun h => Bool.noConfusion h, fun _ => trivial⟩

/-- Witness for C9 at a concrete injection: on the corridor with dynamic
obstacles enabled, a successful draw converts an EMPTY cell. -/
theorem C9_add_dynamic_obstacle_empty_only_witness :
    ∃ p, lineGS6.grid p = CellType.EMPTY ∧
      (add_dynamic_obstacle
          { lineM6 with enable_dynamic_obstacles := true } lineGS6 true 0).1.grid p =
        CellType.DYNAMIC_OBSTACLE ∧
      (∀ q, q ≠ p →
        (add_dynamic_obstacle
            { lineM6 with enable_dynamic_obstacles := true } lineGS6 true 0).1.grid q =
          lineGS6.grid q) ∧
      (∀ q, lineGS6.grid q ≠ CellType.EMPTY →
        (add_dynamic_obstacle
            { lineM6 with enable_dynamic_obstacles := true } lineGS6 true 0).1.grid q =
          lineGS6.grid q) ∧
      (add_dynamic_obstacle
          { lineM6 with enable_dynamic_obstacles := true } lineGS6 true
          0).1.dynamic_obstacles_added =
        lineGS6.dynamic_obstacles_added ++ [p] :=
  (C9_add_dynamic_obstacle_empty_only
      { lineM6 with enable_dynamic_obstacles := true } lineGS6 true 0).1 (by decide)

/-! ## Claim C8 -/

/-- C8 counterexample: the UCS frontier does not break cost ties by
insertion order.  Pushing the four equal-cost nodes `tieN1..tieN4` into
an empty `heapq` heap and popping them all yields
`[tieN1, tieN3, tieN2, tieN4]`: `tieN2` was inserted before `tieN3`
(indices 1 < 2, equal costs) yet is popped after it. -/
theorem C8_counterexample :
    ¬(∀ (xs : List Node) (i j : Fin xs.length), (i : Nat) < (j : Nat) →
        (xs.get i).cost = (xs.get j).cost →
        (popSeq xs.length (pushSeq xs)).indexOf (xs.get i) <
          (popSeq xs.length (pushSeq xs)).indexOf (xs.get j)) := by
  intro hclaim
  have h := hclaim [tieN1, tieN2, tieN3, tieN4] ⟨1, by decide⟩ ⟨2, by decide⟩
    (by decide) (by decide)
  revert h
  decide

/-- C8 amended: the UCS frontier is a min-priority queue ordered by
accumulated cost — `heappush`/`heappop` preserve the binary-heap
invariant, the heap contents change exactly by the pushed/popped node,
and every pop returns a node of minimal accumulated cost — but ties
between equal-cost nodes are broken by the binary-heap layout, not by
insertion/discovery order (see the counterexample). -/
theorem C8_heap_min_queue :
    (∀ (l : List Node) (x : Node), HeapInv l →
      HeapInv (heappush l x) ∧ (heappush l x).Perm (x :: l)) ∧
    (∀ l : List Node, HeapInv l → l ≠ [] →
      (heappop l).1 = hget l 0 ∧ (heappop l).1 ∈ l ∧
      (∀ m ∈ l, (heappop l).1.cost ≤ m.cost) ∧
      HeapInv (heappop l).2 ∧ (heappop l).2.Perm l.tail) := by
  constructor
  · intro l x h
    exact ⟨heappush_heapInv l x h, heappush_perm l x⟩
  · intro l h hne
    have h0 : 0 < l.length := List.length_pos.mpr hne
    refine ⟨heappop_fst l hne, ?_, heappop_min l h hne, heappop_heapInv l h,
      heappop_perm l hne⟩
    rw [heappop_fst l hne, hget_eq_getElem l 0 h0]
    exact List.getElem_mem h0

/-- Witness for C8's amended theorem on a concrete two-node heap. -/
theorem C8_heap_min_queue_witness :
    HeapInv (heappush [tieN1, tieN4] tieN2) ∧
    (heappop [tieN1, tieN4]).1 = hget [tieN1, tieN4] 0 ∧
    ∀ m ∈ [tieN1, tieN4], (heappop [tieN1, tieN4]).1.cost ≤ m.cost := by
  have hinv : HeapInv [tieN1, tieN4] := by
    intro j hj hjl
    simp only [List.length_cons, List.length_nil] at hjl
    interval_cases j
    · decide
  refine ⟨(C8_heap_min_queue.1 [tieN1, tieN4] tieN2 hinv).1,
    (C8_heap_min_queue.2 [tieN1, tieN4] hinv (by decide)).1,
    (C8_heap_min_queue.2 [tieN1, tieN4] hinv (by decide)).2.2.1⟩

/-! ## Claim C4 -/

/-- When the random draw fails, the injector leaves the state unchanged. -/
theorem add_dynamic_obstacle_draw_false (M : Model) (gs : GState) (choice : Nat) :
    add_dynamic_obstacle M gs false choice = (gs, false) := by
  unfold add_dynamic_obstacle
  by_cases h : M.enable_dynamic_obstacles <;> simp [h]

/-- Every node produced by `get_neighbors` passed the passability check
against the grid it was generated from. -/
theorem get_neighbors_valid (M : Model) (g : GridMap) (node nb : Node)
    (h : nb ∈ get_neighbors M g node) : is_valid_position M g nb.x nb.y = true := by
  unfold get_neighbors at h
  rw [List.mem_filterMap] at h
  obtain ⟨d, _, hd⟩ := h
  by_cases hv : is_valid_position M g (node.x + d.1) (node.y + d.2)
  · rw [if_pos hv] at hd
    cases hd
    exact hv
  · rw [if_neg hv] at hd
    cases hd

/-- A generated neighbor is at one of the eight direction offsets, so its
position differs from the expanded node's own position. -/
theorem get_neighbors_pos_ne (M : Model) (g : GridMap) (node nb : Node)
    (h : nb ∈ get_neighbors M g node) : nb.pos ≠ node.pos := by
  unfold get_neighbors at h
  rw [List.mem_filterMap] at h
  obtain ⟨d, hdmem, hd⟩ := h
  by_cases hv : is_valid_position M g (node.x + d.1) (node.y + d.2)
  · rw [if_pos hv] at hd
    cases hd
    simp only [Node.pos, Node.x, Node.y]
    intro he
    have h1 : node.x + d.1 = node.x := congrArg Prod.fst he
    have h2 : node.y + d.2 = node.y := congrArg Prod.snd he
    have hd1 : d.1 = 0 := by omega
    have hd2 : d.2 = 0 := by omega
    have hd0 : d = ((0 : Int), (0 : Int)) := Prod.ext hd1 hd2
    rw [hd0] at hdmem
    revert hdmem
    decide
  · rw [if_neg hv] at hd
    cases hd

/-- `bfsExpand` does not touch grid cells outside the positions of the
processed neighbor list. -/
theorem bfsExpand_grid_other (M : Model) :
    ∀ (l : List Node) (acc : GState × List Node × List Pos) (q : Pos),
      (∀ nb ∈ l, nb.pos ≠ q) →
      (bfsExpand M l acc).1.grid q = acc.1.grid q := by
  intro l
  induction l with
  | nil => intro acc q _; rfl
  | cons nb more ih =>
    intro acc q hne
    obtain ⟨gs, qu, vis⟩ := acc
    have hnbq : nb.pos ≠ q := hne nb (List.mem_cons_self nb more)
    have hmore : ∀ m ∈ more, m.pos ≠ q := fun m hm => hne m (List.mem_cons_of_mem nb hm)
    unfold bfsExpand
    by_cases hc : nb.pos ∉ vis ∧ is_valid_position M gs.grid nb.x nb.y
    · rw [if_pos hc]
      rw [ih _ q hmore]
      by_cases ht : nb.pos ≠ M.target
      · rw [if_pos ht]
        show updGrid gs.grid nb.pos CellType.FRONTIER q = gs.grid q
        unfold updGrid
        rw [if_neg (fun he => hnbq he.symm)]
      · rw [if_neg ht]
    · rw [if_neg hc]
      exact ih _ q hmore

/-- Unfolding of the passability check. -/
theorem is_valid_position_spec (M : Model) (g : GridMap) (row col : Int) :
    is_valid_position M g row col = true ↔
      0 ≤ row ∧ row < (M.rows : Int) ∧ 0 ≤ col ∧ col < (M.cols : Int) ∧
        g (row, col) ≠ CellType.WALL ∧ g (row, col) ≠ CellType.DYNAMIC_OBSTACLE := by
  unfold is_valid_position
  simp only [Bool.and_eq_true, decide_eq_true_eq, Bool.not_eq_true', decide_eq_false_iff_not]
  tauto

/-- Writing FRONTIER anywhere cannot create a dynamic obstacle. -/
theorem markCell_frontier_not_dyn (gs : GState) (w p : Pos)
    (h : gs.grid p ≠ CellType.DYNAMIC_OBSTACLE) :
    (markCell gs w CellType.FRONTIER).grid p ≠ CellType.DYNAMIC_OBSTACLE := by
  unfold markCell updGrid
  by_cases hp : p = w
  · simp [hp]
  · simp only [hp, if_false]
    exact h

/-- Nodes in the queue after `bfsExpand` are either old queue members or
newly enqueued neighbors whose cells are not dynamic obstacles in the
resulting grid. -/
theorem bfsExpand_queue_not_dyn (M : Model) :
    ∀ (l : List Node) (gs : GState) (qu : List Node) (vis : List Pos)
      (rest : List Node),
      (∀ m ∈ qu, m ∈ rest ∨ gs.grid m.pos ≠ CellType.DYNAMIC_OBSTACLE) →
      ∀ m ∈ (bfsExpand M l (gs, qu, vis)).2.1,
        m ∈ rest ∨ (bfsExpand M l (gs, qu, vis)).1.grid m.pos ≠ CellType.DYNAMIC_OBSTACLE := by
  intro l
  induction l with
  | nil =>
    intro gs qu vis rest hqu m hm
    exact hqu m hm
  | cons nb more ih =>
    intro gs qu vis rest hqu m hm
    unfold bfsExpand at hm ⊢
    by_cases hc : nb.pos ∉ vis ∧ is_valid_position M gs.grid nb.x nb.y
    · rw [if_pos hc] at hm ⊢
      refine ih _ _ _ rest ?_ m hm
      intro m2 hm2
      rw [List.mem_append] at hm2
      have hnbdyn : gs.grid nb.pos ≠ CellType.DYNAMIC_OBSTACLE := by
        have := ((is_valid_position_spec M gs.grid nb.x nb.y).mp hc.2).2.2.2.2.2
        simpa [Node.pos] using this
      have hpres : ∀ (p : Pos), gs.grid p ≠ CellType.DYNAMIC_OBSTACLE →
          (if nb.pos ≠ M.target then markCell gs nb.pos CellType.FRONTIER else gs).grid p ≠
            CellType.DYNAMIC_OBSTACLE := by
        intro p hp
        by_cases ht : nb.pos ≠ M.target
        · rw [if_pos ht]
          exact markCell_frontier_not_dyn gs nb.pos p hp
        · rw [if_neg ht]
          exact hp
      rcases hm2 with hm2 | hm2
      · rcases hqu m2 hm2 with ho | ho
        · exact Or.inl ho
        · exact Or.inr (hpres m2.pos ho)
      · rw [List.mem_singleton] at hm2
        subst hm2
        exact Or.inr (hpres m2.pos hnbdyn)
    · rw [if_neg hc] at hm ⊢
      exact ih _ _ _ rest hqu m hm

/-- C4 counterexample: a queued node whose cell has become a dynamic
obstacle is NOT silently dropped on dequeue.  In the concrete BFS state
`c4state` (node for (0,1) queued, cell (0,1) now DYNAMIC_OBSTACLE), the
next step does not leave the grid unchanged: the step marks (0,1)
EXPLORED and expands it, contradicting the claimed re-validate-and-drop
behavior. -/
theorem C4_counterexample :
    ¬(∀ (M : Model) (sched : Sched) (st : BfsState) (nd : Node) (rest : List Node),
        st.queue = nd :: rest → st.paused = false →
        st.gs.grid nd.pos = CellType.DYNAMIC_OBSTACLE →
        ∃ st2, bfsStep M sched st = .cont st2 ∧ st2.gs.grid = st.gs.grid ∧
          st2.queue = rest ∧ st2.visited = st.visited) := by
  intro hclaim
  obtain ⟨st2, hstep, hgrid, _, _⟩ :=
    hclaim c4M trivSched c4state c4node [] rfl rfl (by decide)
  have h1 : stepGridAt (bfsStep c4M trivSched c4state) ((0 : Int), (1 : Int)) =
      CellType.EXPLORED := by decide
  rw [hstep] at h1
  have h2 : st2.gs.grid ((0 : Int), (1 : Int)) = CellType.EXPLORED := h1
  have h3 : st2.gs.grid ((0 : Int), (1 : Int)) = CellType.DYNAMIC_OBSTACLE := by
    rw [congrFun hgrid ((0 : Int), (1 : Int))]
    decide
  rw [h2] at h3
  exact CellType.noConfusion h3

/-- C4 amended: strategies do not re-validate the dequeued node.  When a
queued node `nd` whose cell has become a DYNAMIC_OBSTACLE is dequeued by
BFS (not the start/target, no pause, no new injection, no quit event),
the step does NOT drop it: it continues, marks `nd`'s cell EXPLORED
(overwriting the obstacle), and expands `nd`'s neighbors — every node
newly added to the queue is an old queue member or sits on a cell that is
not a dynamic obstacle, because passability is re-validated only when
generating neighbors: `get_neighbors` yields exclusively positions that
pass `is_valid_position` against the current grid. -/
theorem C4_dequeued_node_not_revalidated (M : Model) (sched : Sched) (st : BfsState)
    (nd : Node) (rest : List Node)
    (hq : st.queue = nd :: rest) (hp : st.paused = false)
    (hrand : (sched.rand st.k).1 = false)
    (hdyn : st.gs.grid nd.pos = CellType.DYNAMIC_OBSTACLE)
    (hnt : nd.pos ≠ M.target) (hns : nd.pos ≠ M.start)
    (hev : (handle_events_during_search (sched.events st.k) false).2 = true) :
    (∃ st2, bfsStep M sched st = .cont st2 ∧
      st2.gs.grid nd.pos = CellType.EXPLORED ∧
      ∀ m ∈ st2.queue, m ∈ rest ∨ st2.gs.grid m.pos ≠ CellType.DYNAMIC_OBSTACLE) ∧
    (∀ (g : GridMap) (node nb : Node), nb ∈ get_neighbors M g node →
      is_valid_position M g nb.x nb.y = true) := by
  refine ⟨?_, fun g node nb h => get_neighbors_valid M g node nb h⟩
  obtain ⟨gs0, q0, v0, p0, k0⟩ := st
  simp only at hq hp hrand hdyn hev
  subst hq
  subst hp
  rcases hev2 : handle_events_during_search (sched.events k0) false with ⟨pz, cz⟩
  rw [hev2] at hev
  simp only at hev
  subst hev
  have hrand2 : (add_dynamic_obstacle M gs0 (sched.rand k0).1 (sched.rand k0).2).1 = gs0 := by
    rcases hr : sched.rand k0 with ⟨d, c⟩
    rw [hr] at hrand
    simp only at hrand
    subst hrand
    rw [add_dynamic_obstacle_draw_false]
  set gs2 := markCell gs0 nd.pos CellType.EXPLORED with hgs2
  have hstep : bfsStep M sched
      { gs := gs0, queue := nd :: rest, visited := v0, paused := false, k := k0 } =
      .cont { gs := (bfsExpand M (get_neighbors M gs2.grid nd) (gs2, rest, v0)).1,
              queue := (bfsExpand M (get_neighbors M gs2.grid nd) (gs2, rest, v0)).2.1,
              visited := (bfsExpand M (get_neighbors M gs2.grid nd) (gs2, rest, v0)).2.2,
              paused := pz, k := k0 + 1 } := by
    unfold bfsStep
    simp only [List.isEmpty_cons, Bool.or_false, Bool.false_eq_true, if_false,
      Bool.false_or]
    rw [hrand2]
    rw [if_neg hnt, if_pos hns]
    rw [← hgs2]
    rcases hbe : bfsExpand M (get_neighbors M gs2.grid nd) (gs2, rest, v0) with ⟨a, b, c⟩
    rw [hev2]
    rfl
  refine ⟨_, hstep, ?_, ?_⟩
  · show (bfsExpand M (get_neighbors M gs2.grid nd) (gs2, rest, v0)).1.grid nd.pos =
      CellType.EXPLORED
    rw [bfsExpand_grid_other M _ _ nd.pos
      (fun nb hnb => get_neighbors_pos_ne M gs2.grid nd nb hnb)]
    rw [hgs2]
    unfold markCell updGrid
    simp
  · intro m hm
    exact bfsExpand_queue_not_dyn M (get_neighbors M gs2.grid nd) gs2 rest v0 rest
      (fun m2 hm2 => Or.inl hm2) m hm

/-- Witness for C4's amended theorem at the concrete state `c4state`. -/
theorem C4_dequeued_node_not_revalidated_witness :
    ∃ st2, bfsStep c4M trivSched c4state = .cont st2 ∧
      st2.gs.grid c4node.pos = CellType.EXPLORED ∧
      ∀ m ∈ st2.queue, m ∈ ([] : List Node) ∨
        st2.gs.grid m.pos ≠ CellType.DYNAMIC_OBSTACLE :=
  (C4_dequeued_node_not_revalidated c4M trivSched c4state c4node [] rfl rfl rfl
    (by decide) (by decide) (by decide) (by decide)).1

/-! ## Claim C10: marker-preservation helpers -/

/-- The obstacle injector never touches a non-EMPTY cell. -/
theorem add_dynamic_obstacle_grid_nonempty (M : Model) (gs : GState) (draw : Bool)
    (choice : Nat) (p : Pos) (h : gs.grid p ≠ CellType.EMPTY) :
    (add_dynamic_obstacle M gs draw choice).1.grid p = gs.grid p := by
  unfold add_dynamic_obstacle
  by_cases hen : M.enable_dynamic_obstacles
  · simp only [hen, Bool.not_true, Bool.false_eq_true, if_false]
    by_cases hdr : draw
    · simp only [hdr, if_pos]
      by_cases hemp : (empty_cells_list M gs.grid).isEmpty
      · rw [if_pos hemp]
      · rw [if_neg hemp]
        simp only [updGrid]
        have hnil : empty_cells_list M gs.grid ≠ [] := by
          simpa [List.isEmpty_iff] using hemp
        have hp : p ≠ (empty_cells_list M gs.grid).getD
            (choice % (empty_cells_list M gs.grid).length) (0, 0) := by
          intro he
          exact h (he ▸ mem_empty_cells M gs.grid _
            (getD_mod_mem _ choice hnil))
        rw [if_neg hp]
    · simp only [Bool.not_eq_true] at hdr
      rw [hdr, if_neg (by simp)]
  · simp only [Bool.not_eq_true] at hen
    simp only [hen, Bool.not_false, if_true]

/-- Marker preservation through the injector. -/
theorem add_dynamic_obstacle_marks (M : Model) (gs : GState) (draw : Bool) (choice : Nat)
    (h : MarksOK M gs) : MarksOK M (add_dynamic_obstacle M gs draw choice).1 := by
  obtain ⟨h1, h2⟩ := h
  constructor
  · rw [add_dynamic_obstacle_grid_nonempty M gs draw choice M.start (by rw [h1]; intro hc; cases hc)]
    exact h1
  · rw [add_dynamic_obstacle_grid_nonempty M gs draw choice M.target (by rw [h2]; intro hc; cases hc)]
    exact h2

/-- Writing a cell elsewhere does not change a position's state. -/
theorem markCell_grid_other (gs : GState) (p q : Pos) (v : CellType) (h : q ≠ p) :
    (markCell gs p v).grid q = gs.grid q := by
  unfold markCell updGrid
  simp only
  rw [if_neg h]

/-- `visualize_path` skips the start and target cells. -/
theorem visualize_path_marks (M : Model) :
    ∀ (path : List Pos) (gs : GState), MarksOK M gs →
      MarksOK M (visualize_path M gs path) := by
  intro path
  induction path with
  | nil => intro gs h; exact h
  | cons p rest ih =>
    intro gs h
    unfold visualize_path at ih ⊢
    simp only [List.foldl_cons]
    by_cases hc : p ≠ M.start ∧ p ≠ M.target
    · rw [if_pos hc]
      refine ih _ ⟨?_, ?_⟩
      · rw [markCell_grid_other gs p M.start CellType.PATH (fun he => hc.1 he.symm)]
        exact h.1
      · rw [markCell_grid_other gs p M.target CellType.PATH (fun he => hc.2 he.symm)]
        exact h.2
    · rw [if_neg hc]
      exact ih _ h

/-- `clear_search_visualization` re-establishes the markers (distinct
start/target assumed, as maintained by the UI). -/
theorem clear_search_visualization_marks (M : Model) (gs : GState)
    (hne : M.start ≠ M.target) :
    MarksOK M (clear_search_visualization M gs) := by
  unfold clear_search_visualization MarksOK updGrid
  constructor
  · simp [hne]
  · simp

/-- The BFS/DFS neighbor loop preserves the markers and keeps the start
in the visited set. -/
theorem bfsExpand_marks (M : Model) :
    ∀ (l : List Node) (gs : GState) (qu : List Node) (vis : List Pos),
      MarksOK M gs → M.start ∈ vis →
      MarksOK M (bfsExpand M l (gs, qu, vis)).1 ∧
        M.start ∈ (bfsExpand M l (gs, qu, vis)).2.2 := by
  intro l
  induction l with
  | nil => intro gs qu vis h hs; exact ⟨h, hs⟩
  | cons nb more ih =>
    intro gs qu vis h hs
    unfold bfsExpand
    by_cases hc : nb.pos ∉ vis ∧ is_valid_position M gs.grid nb.x nb.y
    · rw [if_pos hc]
      refine ih _ _ _ ⟨?_, ?_⟩ (List.mem_cons_of_mem _ hs)
      · have hnbs : nb.pos ≠ M.start := fun he => hc.1 (he ▸ hs)
        by_cases ht : nb.pos ≠ M.target
        · rw [if_pos ht, markCell_grid_other gs nb.pos M.start CellType.FRONTIER
            (fun he => hnbs he.symm)]
          exact h.1
        · rw [if_neg ht]
          exact h.1
      · by_cases ht : nb.pos ≠ M.target
        · rw [if_pos ht, markCell_grid_other gs nb.pos M.target CellType.FRONTIER
            (fun he => ht he.symm)]
          exact h.2
        · rw [if_neg ht]
          exact h.2
    · rw [if_neg hc]
      exact ih _ _ _ h hs

/-- The UCS relax loop preserves the markers and the recorded start cost. -/
theorem ucsExpand_marks (M : Model) (vis : List Pos) :
    ∀ (l : List Node) (gs : GState) (costs : Pos → Option Nat) (pq : List Node),
      MarksOK M gs → costs M.start = some 0 →
      MarksOK M (ucsExpand M vis l (gs, costs, pq)).1 ∧
        (ucsExpand M vis l (gs, costs, pq)).2.1 M.start = some 0 := by
  intro l
  induction l with
  | nil => intro gs costs pq h hc0; exact ⟨h, hc0⟩
  | cons nb more ih =>
    intro gs costs pq h hc0
    unfold ucsExpand
    by_cases hc : nb.pos ∉ vis ∧ is_valid_position M gs.grid nb.x nb.y
    · rw [if_pos hc]
      by_cases himp : (match costs nb.pos with | none => true | some c => decide (nb.cost < c)) = true
      · rw [if_pos himp]
        have hnbs : nb.pos ≠ M.start := by
          intro he
          rw [he, hc0] at himp
          simp at himp
        refine ih _ _ _ ⟨?_, ?_⟩ ?_
        · by_cases ht : nb.pos ≠ M.target
          · rw [if_pos ht, markCell_grid_other gs nb.pos M.start CellType.FRONTIER
              (fun he => hnbs he.symm)]
            exact h.1
          · rw [if_neg ht]
            exact h.1
        · by_cases ht : nb.pos ≠ M.target
          · rw [if_pos ht, markCell_grid_other gs nb.pos M.target CellType.FRONTIER
              (fun he => ht he.symm)]
            exact h.2
          · rw [if_neg ht]
            exact h.2
        · show (if M.start = nb.pos then some nb.cost else costs M.start) = some 0
          rw [if_neg (fun he => hnbs he.symm)]
          exact hc0
      · rw [if_neg himp]
        exact ih _ _ _ h hc0
    · rw [if_neg hc]
      exact ih _ _ _ h hc0

/-- The bidirectional neighbor loop only records new map entries, never
erases them. -/
theorem bidirExpand_vis_mono (M : Model) (skip : Pos) :
    ∀ (l : List Node) (gs : GState) (vis : Pos → Option Node) (q : List Node) (p : Pos),
      vis p ≠ none → (bidirExpand M skip l (gs, vis, q)).2.1 p ≠ none := by
  intro l
  induction l with
  | nil => intro gs vis q p h; exact h
  | cons nb more ih =>
    intro gs vis q p h
    unfold bidirExpand
    by_cases hc : vis nb.pos = none ∧ is_valid_position M gs.grid nb.x nb.y
    · rw [if_pos hc]
      refine ih _ _ _ p ?_
      by_cases hp : p = nb.pos
      · simp [hp]
      · simpa [hp] using h
    · rw [if_neg hc]
      exact ih _ _ _ p h

/-- The bidirectional neighbor loop never writes to a position that is in
this side's visited map or equals `skip` (this side's goal cell). -/
theorem bidirExpand_grid_protected (M : Model) (skip : Pos) :
    ∀ (l : List Node) (gs : GState) (vis : Pos → Option Node) (q : List Node) (p : Pos),
      (vis p ≠ none ∨ p = skip) →
      (bidirExpand M skip l (gs, vis, q)).1.grid p = gs.grid p := by
  intro l
  induction l with
  | nil => intro gs vis q p _; rfl
  | cons nb more ih =>
    intro gs vis q p hprot
    unfold bidirExpand
    by_cases hc : vis nb.pos = none ∧ is_valid_position M gs.grid nb.x nb.y
    · rw [if_pos hc]
      have hprot2 : (fun r => if r = nb.pos then some nb else vis r) p ≠ none ∨ p = skip := by
        rcases hprot with hv | hs
        · refine Or.inl ?_
          by_cases hp : p = nb.pos
          · simp [hp]
          · simpa [hp] using hv
        · exact Or.inr hs
      rw [ih _ _ _ p hprot2]
      by_cases hsk : nb.pos ≠ skip
      · rw [if_pos hsk]
        refine markCell_grid_other gs nb.pos p CellType.FRONTIER ?_
        intro he
        rcases hprot with hv | hs
        · exact hv (he ▸ hc.1)
        · exact hsk (he ▸ hs)
      · rw [if_neg hsk]
    · rw [if_neg hc]
      exact ih _ _ _ p hprot

/-- Invariant propagation through iterated steps. -/
theorem stepIter_pres {σ : Type} (step : σ → StepRes σ) (Inv : σ → Prop)
    (P : GState → Prop)
    (hstep : ∀ s, Inv s → StepInvRes Inv P (step s)) :
    ∀ (k : Nat) (s : σ), Inv s → StepInvRes Inv P (stepIter step k s) := by
  intro k
  induction k with
  | zero => intro s h; exact h
  | succ k ih =>
    intro s h
    have h2 := hstep s h
    unfold stepIter
    cases hs : step s with
    | done r g =>
      rw [hs] at h2
      exact h2
    | cont s2 =>
      rw [hs] at h2
      exact ih s2 h2

/-- One BFS step preserves the marker invariant. -/
theorem bfsStep_marks (M : Model) (sched : Sched) (s : BfsState) (h : BfsMarksInv M s) :
    StepInvRes (BfsMarksInv M) (MarksOK M) (bfsStep M sched s) := by
  obtain ⟨hm, hsv⟩ := h
  unfold bfsStep
  by_cases h1 : (s.queue.isEmpty || s.paused) = true
  · rw [if_pos h1]
    exact hm
  · rw [if_neg h1]
    have hm1 : MarksOK M (add_dynamic_obstacle M s.gs (sched.rand s.k).1 (sched.rand s.k).2).1 :=
      add_dynamic_obstacle_marks M s.gs _ _ hm
    cases hq : s.queue with
    | nil => exact hm1
    | cons current rest =>
      dsimp only
      by_cases ht : current.pos = M.target
      · rw [if_pos ht]
        exact visualize_path_marks M _ _ hm1
      · rw [if_neg ht]
        have hm2 : MarksOK M (if current.pos ≠ M.start then
            markCell (add_dynamic_obstacle M s.gs (sched.rand s.k).1 (sched.rand s.k).2).1
              current.pos CellType.EXPLORED
          else (add_dynamic_obstacle M s.gs (sched.rand s.k).1 (sched.rand s.k).2).1) := by
          by_cases hcs : current.pos ≠ M.start
          · rw [if_pos hcs]
            exact ⟨by rw [markCell_grid_other _ _ _ _ (fun he => hcs he.symm)]; exact hm1.1,
              by rw [markCell_grid_other _ _ _ _ (fun he => ht he.symm)]; exact hm1.2⟩
          · rw [if_neg hcs]
            exact hm1
        have hexp := bfsExpand_marks M
          (get_neighbors M (if current.pos ≠ M.start then
              markCell (add_dynamic_obstacle M s.gs (sched.rand s.k).1 (sched.rand s.k).2).1
                current.pos CellType.EXPLORED
            else (add_dynamic_obstacle M s.gs (sched.rand s.k).1 (sched.rand s.k).2).1).grid
            current)
          _ rest s.visited hm2 hsv
        rcases hbe : bfsExpand M _ (_, rest, s.visited) with ⟨a, bc⟩
        rcases bc with ⟨b, c⟩
        rw [hbe] at hexp
        rcases hev : handle_events_during_search (sched.events s.k) s.paused with ⟨p2, c2⟩
        by_cases hc2 : c2 = true
        · subst hc2
          exact ⟨hexp.1, hexp.2⟩
        · have : c2 = false := by
            cases c2
            · rfl
            · exact absurd rfl hc2
          subst this
          exact hexp.1

/-- One DFS step preserves the marker invariant. -/
theorem dfsStep_marks (M : Model) (sched : Sched) (s : BfsState) (h : BfsMarksInv M s) :
    StepInvRes (BfsMarksInv M) (MarksOK M) (dfsStep M sched s) := by
  obtain ⟨hm, hsv⟩ := h
  unfold dfsStep
  by_cases h1 : (s.queue.isEmpty || s.paused) = true
  · rw [if_pos h1]
    exact hm
  · rw [if_neg h1]
    have hm1 : MarksOK M (add_dynamic_obstacle M s.gs (sched.rand s.k).1 (sched.rand s.k).2).1 :=
      add_dynamic_obstacle_marks M s.gs _ _ hm
    dsimp only
    by_cases ht : (hget s.queue (s.queue.length - 1)).pos = M.target
    · rw [if_pos ht]
      exact visualize_path_marks M _ _ hm1
    · rw [if_neg ht]
      have hm2 : MarksOK M (if (hget s.queue (s.queue.length - 1)).pos ≠ M.start then
          markCell (add_dynamic_obstacle M s.gs (sched.rand s.k).1 (sched.rand s.k).2).1
            (hget s.queue (s.queue.length - 1)).pos CellType.EXPLORED
        else (add_dynamic_obstacle M s.gs (sched.rand s.k).1 (sched.rand s.k).2).1) := by
        by_cases hcs : (hget s.queue (s.queue.length - 1)).pos ≠ M.start
        · rw [if_pos hcs]
          exact ⟨by rw [markCell_grid_other _ _ _ _ (fun he => hcs he.symm)]; exact hm1.1,
            by rw [markCell_grid_other _ _ _ _ (fun he => ht he.symm)]; exact hm1.2⟩
        · rw [if_neg hcs]
          exact hm1
      have hexp := bfsExpand_marks M
        (get_neighbors M (if (hget s.queue (s.queue.length - 1)).pos ≠ M.start then
            markCell (add_dynamic_obstacle M s.gs (sched.rand s.k).1 (sched.rand s.k).2).1
              (hget s.queue (s.queue.length - 1)).pos CellType.EXPLORED
          else (add_dynamic_obstacle M s.gs (sched.rand s.k).1 (sched.rand s.k).2).1).grid
          (hget s.queue (s.queue.length - 1))).reverse
        _ s.queue.dropLast s.visited hm2 hsv
      rcases hbe : bfsExpand M _ (_, s.queue.dropLast, s.visited) with ⟨a, bc⟩
      rcases bc with ⟨b, c⟩
      rw [hbe] at hexp
      rcases hev : handle_events_during_search (sched.events s.k) s.paused with ⟨p2, c2⟩
      by_cases hc2 : c2 = true
      · subst hc2
        exact ⟨hexp.1, hexp.2⟩
      · have : c2 = false := by
          cases c2
          · rfl
          · exact absurd rfl hc2
        subst this
        exact hexp.1

/-- One UCS step preserves the marker invariant. -/
theorem ucsStep_marks (M : Model) (sched : Sched) (s : UcsState) (h : UcsMarksInv M s) :
    StepInvRes (UcsMarksInv M) (MarksOK M) (ucsStep M sched s) := by
  obtain ⟨hm, hc0⟩ := h
  unfold ucsStep
  by_cases h1 : (s.priority_queue.isEmpty || s.paused) = true
  · rw [if_pos h1]
    exact hm
  · rw [if_neg h1]
    have hm1 : MarksOK M
        (add_dynamic_obstacle M s.gs (sched.rand s.kr).1 (sched.rand s.kr).2).1 :=
      add_dynamic_obstacle_marks M s.gs _ _ hm
    rcases hpop : heappop s.priority_queue with ⟨current, rest⟩
    dsimp only
    by_cases hv : current.pos ∈ s.visited
    · rw [if_pos hv]
      exact ⟨hm1, hc0⟩
    · rw [if_neg hv]
      by_cases ht : current.pos = M.target
      · rw [if_pos ht]
        exact visualize_path_marks M _ _ hm1
      · rw [if_neg ht]
        have hm2 : MarksOK M (if current.pos ≠ M.start then
            markCell (add_dynamic_obstacle M s.gs (sched.rand s.kr).1 (sched.rand s.kr).2).1
              current.pos CellType.EXPLORED
          else (add_dynamic_obstacle M s.gs (sched.rand s.kr).1 (sched.rand s.kr).2).1) := by
          by_cases hcs : current.pos ≠ M.start
          · rw [if_pos hcs]
            exact ⟨by rw [markCell_grid_other _ _ _ _ (fun he => hcs he.symm)]; exact hm1.1,
              by rw [markCell_grid_other _ _ _ _ (fun he => ht he.symm)]; exact hm1.2⟩
          · rw [if_neg hcs]
            exact hm1
        have hexp := ucsExpand_marks M (current.pos :: s.visited)
          (get_neighbors M (if current.pos ≠ M.start then
              markCell (add_dynamic_obstacle M s.gs (sched.rand s.kr).1 (sched.rand s.kr).2).1
                current.pos CellType.EXPLORED
            else (add_dynamic_obstacle M s.gs (sched.rand s.kr).1 (sched.rand s.kr).2).1).grid
            current)
          _ s.costs rest hm2 hc0
        rcases hbe : ucsExpand M (current.pos :: s.visited) _ (_, s.costs, rest) with ⟨a, bc⟩
        rcases bc with ⟨b, c⟩
        rw [hbe] at hexp
        rcases hev : handle_events_during_search (sched.events s.ke) s.paused with ⟨p2, c2⟩
        by_cases hc2 : c2 = true
        · subst hc2
          exact ⟨hexp.1, hexp.2⟩
        · have : c2 = false := by
            cases c2
            · rfl
            · exact absurd rfl hc2
          subst this
          exact hexp.1

/-- The event tail of a bidirectional step preserves the invariant. -/
theorem bidirFinish_marks (sched : Sched) (M : Model) (s : BidirState)
    (h : BidirMarksInv M s) :
    StepInvRes (BidirMarksInv M) (MarksOK M) (bidirFinish sched s) := by
  unfold bidirFinish
  rcases hev : handle_events_during_search (sched.events s.k) s.paused with ⟨p2, c2⟩
  dsimp only
  by_cases hc2 : c2 = true
  · subst hc2
    rw [if_pos rfl]
    exact ⟨h.1, h.2.1, h.2.2⟩
  · have hf : c2 = false := by
      cases c2
      · rfl
      · exact absurd rfl hc2
    subst hf
    rw [if_neg (by intro hcon; cases hcon)]
    exact h.1

/-- The backward phase of a bidirectional step preserves the invariant. -/
theorem bidirBackward_marks (M : Model) (sched : Sched) (s : BidirState)
    (h : BidirMarksInv M s) :
    StepInvRes (BidirMarksInv M) (MarksOK M) (bidirBackward M sched s) := by
  obtain ⟨hm, hf, hb⟩ := h
  unfold bidirBackward
  cases hq : s.backward_queue with
  | nil => exact bidirFinish_marks sched M s ⟨hm, hf, hb⟩
  | cons current brest =>
    dsimp only
    cases hmeet : s.forward_visited current.pos with
    | some fnode =>
      exact visualize_path_marks M _ _ hm
    | none =>
      have hns : current.pos ≠ M.start := by
        intro he
        rw [he] at hmeet
        exact hf hmeet
      have hm2 : MarksOK M (if current.pos ≠ M.target then
          markCell s.gs current.pos CellType.EXPLORED else s.gs) := by
        by_cases hct : current.pos ≠ M.target
        · rw [if_pos hct]
          exact ⟨by rw [markCell_grid_other _ _ _ _ (fun he => hns he.symm)]; exact hm.1,
            by rw [markCell_grid_other _ _ _ _ (fun he => hct he.symm)]; exact hm.2⟩
        · rw [if_neg hct]
          exact hm
      have hgrid1 := bidirExpand_grid_protected M M.start
        (get_neighbors M (if current.pos ≠ M.target then
            markCell s.gs current.pos CellType.EXPLORED else s.gs).grid current)
        (if current.pos ≠ M.target then markCell s.gs current.pos CellType.EXPLORED else s.gs)
        s.backward_visited brest M.start (Or.inr rfl)
      have hgrid2 := bidirExpand_grid_protected M M.start
        (get_neighbors M (if current.pos ≠ M.target then
            markCell s.gs current.pos CellType.EXPLORED else s.gs).grid current)
        (if current.pos ≠ M.target then markCell s.gs current.pos CellType.EXPLORED else s.gs)
        s.backward_visited brest M.target (Or.inl hb)
      have hmono := bidirExpand_vis_mono M M.start
        (get_neighbors M (if current.pos ≠ M.target then
            markCell s.gs current.pos CellType.EXPLORED else s.gs).grid current)
        (if current.pos ≠ M.target then markCell s.gs current.pos CellType.EXPLORED else s.gs)
        s.backward_visited brest M.target hb
      rcases hbe : bidirExpand M M.start _ (_, s.backward_visited, brest) with ⟨a, bc⟩
      rcases bc with ⟨b, c⟩
      rw [hbe] at hgrid1 hgrid2 hmono
      exact bidirFinish_marks sched M _
        ⟨⟨by rw [hgrid1]; exact hm2.1, by rw [hgrid2]; exact hm2.2⟩, hf, hmono⟩

/-- One bidirectional step preserves the marker invariant. -/
theorem bidirStep_marks (M : Model) (sched : Sched) (s : BidirState)
    (h : BidirMarksInv M s) :
    StepInvRes (BidirMarksInv M) (MarksOK M) (bidirStep M sched s) := by
  obtain ⟨hm, hf, hb⟩ := h
  unfold bidirStep
  by_cases h1 : ((s.forward_queue.isEmpty && s.backward_queue.isEmpty) || s.paused) = true
  · rw [if_pos h1]
    exact hm
  · rw [if_neg h1]
    have hm1 : MarksOK M
        (add_dynamic_obstacle M s.gs (sched.rand s.k).1 (sched.rand s.k).2).1 :=
      add_dynamic_obstacle_marks M s.gs _ _ hm
    cases hq : s.forward_queue with
    | nil => exact bidirBackward_marks M sched _ ⟨hm1, hf, hb⟩
    | cons current frest =>
      dsimp only
      cases hmeet : s.backward_visited current.pos with
      | some bnode =>
        exact visualize_path_marks M _ _ hm1
      | none =>
        have hnt : current.pos ≠ M.target := by
          intro he
          rw [he] at hmeet
          exact hb hmeet
        have hm2 : MarksOK M (if current.pos ≠ M.start then
            markCell (add_dynamic_obstacle M s.gs (sched.rand s.k).1 (sched.rand s.k).2).1
              current.pos CellType.EXPLORED
          else (add_dynamic_obstacle M s.gs (sched.rand s.k).1 (sched.rand s.k).2).1) := by
          by_cases hcs : current.pos ≠ M.start
          · rw [if_pos hcs]
            exact ⟨by rw [markCell_grid_other _ _ _ _ (fun he => hcs he.symm)]; exact hm1.1,
              by rw [markCell_grid_other _ _ _ _ (fun he => hnt he.symm)]; exact hm1.2⟩
          · rw [if_neg hcs]
            exact hm1
        have hgrid1 := bidirExpand_grid_protected M M.target
          (get_neighbors M (if current.pos ≠ M.start then
              markCell (add_dynamic_obstacle M s.gs (sched.rand s.k).1 (sched.rand s.k).2).1
                current.pos CellType.EXPLORED
            else (add_dynamic_obstacle M s.gs (sched.rand s.k).1 (sched.rand s.k).2).1).grid
            current)
          (if current.pos ≠ M.start then
              markCell (add_dynamic_obstacle M s.gs (sched.rand s.k).1 (sched.rand s.k).2).1
                current.pos CellType.EXPLORED
            else (add_dynamic_obstacle M s.gs (sched.rand s.k).1 (sched.rand s.k).2).1)
          s.forward_visited frest M.start (Or.inl hf)
        have hgrid2 := bidirExpand_grid_protected M M.target
          (get_neighbors M (if current.pos ≠ M.start then
              markCell (add_dynamic_obstacle M s.gs (sched.rand s.k).1 (sched.rand s.k).2).1
                current.pos CellType.EXPLORED
            else (add_dynamic_obstacle M s.gs (sched.rand s.k).1 (sched.rand s.k).2).1).grid
            current)
          (if current.pos ≠ M.start then
              markCell (add_dynamic_obstacle M s.gs (sched.rand s.k).1 (sched.rand s.k).2).1
                current.pos CellType.EXPLORED
            else (add_dynamic_obstacle M s.gs (sched.rand s.k).1 (sched.rand s.k).2).1)
          s.forward_visited frest M.target (Or.inr rfl)
        have hmono := bidirExpand_vis_mono M M.target
          (get_neighbors M (if current.pos ≠ M.start then
              markCell (add_dynamic_obstacle M s.gs (sched.rand s.k).1 (sched.rand s.k).2).1
                current.pos CellType.EXPLORED
            else (add_dynamic_obstacle M s.gs (sched.rand s.k).1 (sched.rand s.k).2).1).grid
            current)
          (if current.pos ≠ M.start then
              markCell (add_dynamic_obstacle M s.gs (sched.rand s.k).1 (sched.rand s.k).2).1
                current.pos CellType.EXPLORED
            else (add_dynamic_obstacle M s.gs (sched.rand s.k).1 (sched.rand s.k).2).1)
          s.forward_visited frest M.start hf
        rcases hbe : bidirExpand M M.target _ (_, s.forward_visited, frest) with ⟨a, bc⟩
        rcases bc with ⟨b, c⟩
        rw [hbe] at hgrid1 hgrid2 hmono
        exact bidirBackward_marks M sched _
          ⟨⟨by rw [hgrid1]; exact hm2.1, by rw [hgrid2]; exact hm2.2⟩, hmono, hb⟩

/-- The DLS neighbor loop preserves the markers (start in visited). -/
theorem dlsChildren_marks (M : Model) (sched : Sched)
    (recur : Node → List Pos → List Pos → GState → Nat → Nat → Bool → DlsOut)
    (visited path2 : List Pos)
    (hstart : M.start ∈ visited)
    (hrec : ∀ (nb : Node) (gs : GState) (kr ke : Nat) (p : Bool), MarksOK M gs →
      MarksOK M (recur nb visited path2 gs kr ke p).gs) :
    ∀ (ns : List Node) (gs : GState) (kr ke : Nat) (paused : Bool), MarksOK M gs →
      MarksOK M (dlsChildren M sched recur ns visited path2 gs kr ke paused).gs := by
  intro ns
  induction ns with
  | nil => intro gs kr ke paused h; exact h
  | cons nb more ih =>
    intro gs kr ke paused h
    unfold dlsChildren
    by_cases hc : nb.pos ∉ visited ∧ is_valid_position M gs.grid nb.x nb.y
    · rw [if_pos hc]
      have hnbs : nb.pos ≠ M.start := fun he => hc.1 (he ▸ hstart)
      have hm2 : MarksOK M
          (if nb.pos ≠ M.target then markCell gs nb.pos CellType.FRONTIER else gs) := by
        by_cases ht : nb.pos ≠ M.target
        · rw [if_pos ht]
          exact ⟨by rw [markCell_grid_other _ _ _ _ (fun he => hnbs he.symm)]; exact h.1,
            by rw [markCell_grid_other _ _ _ _ (fun he => ht he.symm)]; exact h.2⟩
        · rw [if_neg ht]
          exact h
      rcases hev : handle_events_during_search (sched.events ke) paused with ⟨p2, c2⟩
      dsimp only
      by_cases hc2 : (!c2) = true
      · rw [if_pos hc2]
        exact hm2
      · rw [if_neg hc2]
        have hrgs := hrec nb _ kr (ke + 1) p2 hm2
        cases hfnd : (recur nb visited path2
            (if nb.pos ≠ M.target then markCell gs nb.pos CellType.FRONTIER else gs)
            kr (ke + 1) p2).found with
        | some p => exact hrgs
        | none => exact ih _ _ _ _ hrgs
    · rw [if_neg hc]
      exact ih _ _ _ _ h

/-- `dls_recursive` preserves the markers. -/
theorem dls_recursive_marks (M : Model) (sched : Sched) :
    ∀ (dfuel : Nat) (node : Node) (visited path : List Pos) (gs : GState)
      (kr ke : Nat) (paused : Bool),
      MarksOK M gs → (M.start ∈ visited ∨ node.pos = M.start) →
      MarksOK M (dls_recursive M sched dfuel node visited path gs kr ke paused).gs := by
  intro dfuel
  induction dfuel with
  | zero => intro node visited path gs kr ke paused h _; exact h
  | succ dfuel2 ih =>
    intro node visited path gs kr ke paused h hstart
    unfold dls_recursive
    by_cases hp : paused = true
    · rw [if_pos hp]
      exact h
    · rw [if_neg hp]
      have hm1 : MarksOK M (add_dynamic_obstacle M gs (sched.rand kr).1 (sched.rand kr).2).1 :=
        add_dynamic_obstacle_marks M gs _ _ h
      dsimp only
      by_cases ht : node.pos = M.target
      · rw [if_pos ht]
        exact visualize_path_marks M _ _ hm1
      · rw [if_neg ht]
        have hm2 : MarksOK M (if node.pos ≠ M.start then
            markCell (add_dynamic_obstacle M gs (sched.rand kr).1 (sched.rand kr).2).1
              node.pos CellType.EXPLORED
          else (add_dynamic_obstacle M gs (sched.rand kr).1 (sched.rand kr).2).1) := by
          by_cases hcs : node.pos ≠ M.start
          · rw [if_pos hcs]
            exact ⟨by rw [markCell_grid_other _ _ _ _ (fun he => hcs he.symm)]; exact hm1.1,
              by rw [markCell_grid_other _ _ _ _ (fun he => ht he.symm)]; exact hm1.2⟩
          · rw [if_neg hcs]
            exact hm1
        have hstart2 : M.start ∈ node.pos :: visited := by
          rcases hstart with hs | hs
          · exact List.mem_cons_of_mem _ hs
          · rw [← hs]
            exact List.mem_cons_self _ _
        exact dlsChildren_marks M sched (dls_recursive M sched dfuel2)
          (node.pos :: visited) (path ++ [node.pos]) hstart2
          (fun nb gs2 kr2 ke2 p2 hgs2 =>
            ih nb (node.pos :: visited) (path ++ [node.pos]) gs2 kr2 ke2 p2 hgs2
              (Or.inl hstart2))
          _ _ _ _ _ hm2

/-- The IDDFS iteration loop preserves the markers. -/
theorem iddfsLoop_marks (M : Model) (sched : Sched) (hne : M.start ≠ M.target) :
    ∀ (ds : List Nat) (gs : GState) (kr ke : Nat) (paused : Bool), MarksOK M gs →
      MarksOK M (iddfsLoop M sched ds gs kr ke paused).2 := by
  intro ds
  induction ds with
  | nil => intro gs kr ke paused h; exact h
  | cons d more ih =>
    intro gs kr ke paused h
    unfold iddfsLoop
    dsimp only
    have hclear := clear_search_visualization_marks M gs hne
    have hdls := dls_recursive_marks M sched (d + 1) (Node.mk M.start.1 M.start.2 0 none)
      [] [] (clear_search_visualization M gs) kr ke paused hclear
      (Or.inr (by simp [Node.pos, Node.x, Node.y]))
    cases hfnd : (dls_recursive M sched (d + 1) (Node.mk M.start.1 M.start.2 0 none)
        [] [] (clear_search_visualization M gs) kr ke paused).found with
    | some p =>
      exact hdls
    | none =>
      by_cases hpz : (dls_recursive M sched (d + 1) (Node.mk M.start.1 M.start.2 0 none)
          [] [] (clear_search_visualization M gs) kr ke paused).paused = true
      · rw [if_pos hpz]
        exact hdls
      · rw [if_neg hpz]
        exact ih _ _ _ _ hdls

/-- C10: throughout any run of any of the six strategies — every state a
loop strategy can reach after `k` steps, the final state of every
depth-limited and iterative-deepening run, and every path visualization —
the grid cells at the start and target positions retain the START and
TARGET states: the steps that write FRONTIER, EXPLORED or PATH all skip
the start and target positions (the goal test fires before any EXPLORED
write could hit the target, explicit guards skip the start on EXPLORED
and the target on FRONTIER/PATH writes, and the visited/costs bookkeeping
prevents FRONTIER writes at the start). -/
theorem C10_marks_preserved (M : Model) (sched : Sched) (gs0 : GState)
    (hm : MarksOK M gs0) (hne : M.start ≠ M.target) :
    (∀ k, ResMarksOK M BfsState.gs (stepIter (bfsStep M sched) k (bfsInit M gs0))) ∧
    (∀ k, ResMarksOK M BfsState.gs (stepIter (dfsStep M sched) k (bfsInit M gs0))) ∧
    (∀ k, ResMarksOK M UcsState.gs (stepIter (ucsStep M sched) k (ucsInit M gs0))) ∧
    (∀ k, ResMarksOK M BidirState.gs (stepIter (bidirStep M sched) k (bidirInit M gs0))) ∧
    (∀ d, MarksOK M (depth_limited_search M sched gs0 d).gs) ∧
    MarksOK M (iterative_deepening_dfs M sched gs0).2 ∧
    (∀ path gs, MarksOK M gs → MarksOK M (visualize_path M gs path)) := by
  have hbfsinit : BfsMarksInv M (bfsInit M gs0) := by
    refine ⟨hm, ?_⟩
    simp [bfsInit, Node.pos, Node.x, Node.y]
  have hucsinit : UcsMarksInv M (ucsInit M gs0) := by
    refine ⟨hm, ?_⟩
    simp [ucsInit, Node.pos, Node.x, Node.y]
  have hbidirinit : BidirMarksInv M (bidirInit M gs0) := by
    refine ⟨hm, ?_, ?_⟩
    · simp [bidirInit, Node.pos, Node.x, Node.y]
    · simp [bidirInit, Node.pos, Node.x, Node.y]
  refine ⟨?_, ?_, ?_, ?_, ?_, ?_, fun path gs h => visualize_path_marks M path gs h⟩
  · intro k
    have h2 := stepIter_pres (bfsStep M sched) (BfsMarksInv M) (MarksOK M)
      (fun s hs => bfsStep_marks M sched s hs) k (bfsInit M gs0) hbfsinit
    cases hres : stepIter (bfsStep M sched) k (bfsInit M gs0) with
    | done r g => rw [hres] at h2; exact h2
    | cont s2 => rw [hres] at h2; exact h2.1
  · intro k
    have h2 := stepIter_pres (dfsStep M sched) (BfsMarksInv M) (MarksOK M)
      (fun s hs => dfsStep_marks M sched s hs) k (bfsInit M gs0) hbfsinit
    cases hres : stepIter (dfsStep M sched) k (bfsInit M gs0) with
    | done r g => rw [hres] at h2; exact h2
    | cont s2 => rw [hres] at h2; exact h2.1
  · intro k
    have h2 := stepIter_pres (ucsStep M sched) (UcsMarksInv M) (MarksOK M)
      (fun s hs => ucsStep_marks M sched s hs) k (ucsInit M gs0) hucsinit
    cases hres : stepIter (ucsStep M sched) k (ucsInit M gs0) with
    | done r g => rw [hres] at h2; exact h2
    | cont s2 => rw [hres] at h2; exact h2.1
  · intro k
    have h2 := stepIter_pres (bidirStep M sched) (BidirMarksInv M) (MarksOK M)
      (fun s hs => bidirStep_marks M sched s hs) k (bidirInit M gs0) hbidirinit
    cases hres : stepIter (bidirStep M sched) k (bidirInit M gs0) with
    | done r g => rw [hres] at h2; exact h2
    | cont s2 => rw [hres] at h2; exact h2.1
  · intro d
    exact dls_recursive_marks M sched (d + 1) (Node.mk M.start.1 M.start.2 0 none) [] []
      gs0 0 0 false hm (Or.inr (by simp [Node.pos, Node.x, Node.y]))
  · exact iddfsLoop_marks M sched hne (List.range 30) gs0 0 0 false hm

/-- Witness for C10 on the 1×6 corridor with the trivial environment. -/
theorem C10_marks_preserved_witness :
    ResMarksOK lineM6 BfsState.gs
        (stepIter (bfsStep lineM6 trivSched) 3 (bfsInit lineM6 lineGS6)) ∧
    MarksOK lineM6 (iterative_deepening_dfs lineM6 trivSched lineGS6).2 :=
  ⟨(C10_marks_preserved lineM6 trivSched lineGS6 ⟨by decide, by decide⟩ (by decide)).1 3,
   (C10_marks_preserved lineM6 trivSched lineGS6 ⟨by decide, by decide⟩
      (by decide)).2.2.2.2.2.1⟩

/-! ## Paths, adjacency and passability profiles -/

theorem sameProfile_refl (g : GridMap) : sameProfile g g :=
  fun _ => ⟨Iff.rfl, Iff.rfl⟩

theorem sameProfile_trans {g1 g2 g3 : GridMap} (h1 : sameProfile g1 g2)
    (h2 : sameProfile g2 g3) : sameProfile g1 g3 :=
  fun q => ⟨((h1 q).1).trans ((h2 q).1), ((h1 q).2).trans ((h2 q).2)⟩

theorem profileLE_refl (g : GridMap) : profileLE g g :=
  fun _ h1 h2 => ⟨h1, h2⟩

theorem profileLE_trans {g1 g2 g3 : GridMap} (h1 : profileLE g1 g2)
    (h2 : profileLE g2 g3) : profileLE g1 g3 :=
  fun q hw hd => h2 q ((h1 q hw hd).1) ((h1 q hw hd).2)

theorem sameProfile_profileLE {g g2 : GridMap} (h : sameProfile g g2) : profileLE g g2 :=
  fun q hw hd => ⟨fun hc => hw (((h q).1).mpr hc), fun hc => hd (((h q).2).mpr hc)⟩

theorem updGrid_profileLE (g : GridMap) (p : Pos) (v : CellType)
    (hw : v ≠ CellType.WALL) (hd : v ≠ CellType.DYNAMIC_OBSTACLE) :
    profileLE g (updGrid g p v) := by
  intro q h1 h2
  unfold updGrid
  by_cases hq : q = p
  · rw [if_pos hq]; exact ⟨hw, hd⟩
  · rw [if_neg hq]; exact ⟨h1, h2⟩

theorem updGrid_sameProfile (g : GridMap) (p : Pos) (v : CellType)
    (h1 : g p ≠ CellType.WALL) (h2 : g p ≠ CellType.DYNAMIC_OBSTACLE)
    (hw : v ≠ CellType.WALL) (hd : v ≠ CellType.DYNAMIC_OBSTACLE) :
    sameProfile g (updGrid g p v) := by
  intro q
  unfold updGrid
  by_cases hq : q = p
  · subst hq
    rw [if_pos rfl]
    exact ⟨⟨fun hc => absurd hc h1, fun hc => absurd hc hw⟩,
      ⟨fun hc => absurd hc h2, fun hc => absurd hc hd⟩⟩
  · rw [if_neg hq]
    exact ⟨Iff.rfl, Iff.rfl⟩

theorem valid_profileLE {g g2 : GridMap} (M : Model) (h : profileLE g g2) (r c : Int)
    (hv : is_valid_position M g r c = true) : is_valid_position M g2 r c = true := by
  rw [is_valid_position_spec] at hv ⊢
  obtain ⟨h1, h2, h3, h4, h5, h6⟩ := hv
  exact ⟨h1, h2, h3, h4, (h (r, c) h5 h6).1, (h (r, c) h5 h6).2⟩

theorem valid_sameProfile {g g2 : GridMap} (M : Model) (h : sameProfile g g2) (r c : Int) :
    (is_valid_position M g r c = true ↔ is_valid_position M g2 r c = true) := by
  rw [is_valid_position_spec, is_valid_position_spec]
  rcases h (r, c) with ⟨hw, hd⟩
  constructor
  · rintro ⟨h1, h2, h3, h4, h5, h6⟩
    exact ⟨h1, h2, h3, h4, fun hc => h5 (hw.mpr hc), fun hc => h6 (hd.mpr hc)⟩
  · rintro ⟨h1, h2, h3, h4, h5, h6⟩
    exact ⟨h1, h2, h3, h4, fun hc => h5 (hw.mp hc), fun hc => h6 (hd.mp hc)⟩

theorem add_dynamic_obstacle_enable_false (M : Model) (gs : GState) (draw : Bool)
    (choice : Nat) (h : M.enable_dynamic_obstacles = false) :
    add_dynamic_obstacle M gs draw choice = (gs, false) := by
  unfold add_dynamic_obstacle
  simp [h]

theorem get_neighbors_adj (M : Model) (g : GridMap) (node nb : Node)
    (h : nb ∈ get_neighbors M g node) : Adj node.pos nb.pos := by
  rcases node with ⟨x, y, c, pr⟩
  unfold get_neighbors at h
  rw [List.mem_filterMap] at h
  obtain ⟨d, hdmem, hd⟩ := h
  simp only [Node.x, Node.y] at hd
  by_cases hv : is_valid_position M g (x + d.1) (y + d.2)
  · rw [if_pos hv] at hd
    cases hd
    exact ⟨d, hdmem, rfl⟩
  · rw [if_neg hv] at hd
    cases hd

theorem get_neighbors_complete (M : Model) (g : GridMap) (node : Node) (q : Pos)
    (hadj : Adj node.pos q) (hv : is_valid_position M g q.1 q.2 = true) :
    ∃ nb ∈ get_neighbors M g node, nb.pos = q := by
  rcases node with ⟨x, y, c, pr⟩
  obtain ⟨d, hdmem, hq⟩ := hadj
  simp only [Node.pos] at hq
  subst hq
  have hv2 : is_valid_position M g (x + d.1) (y + d.2) = true := hv
  refine ⟨Node.mk (x + d.1) (y + d.2) (c + moveCost d.1 d.2) (some (Node.mk x y c pr)),
    ?_, rfl⟩
  unfold get_neighbors
  rw [List.mem_filterMap]
  refine ⟨d, hdmem, ?_⟩
  simp only [Node.x, Node.y, Node.cost]
  rw [if_pos hv2]

theorem adj_steps_le (a b : Pos) (h : Adj a b) :
    (b.1 - a.1).natAbs ≤ 1 ∧ (b.2 - a.2).natAbs ≤ 1 := by
  obtain ⟨d, hdmem, rfl⟩ := h
  fin_cases hdmem <;> constructor <;> simp

theorem chain_col_span : ∀ (p : List Pos) (a b : Pos), List.Chain' Adj p →
    p.head? = some a → p.getLast? = some b → (b.2 - a.2).natAbs + 1 ≤ p.length := by
  intro p
  induction p with
  | nil => intro a b _ hh _; exact Option.noConfusion hh
  | cons x rest ih =>
    intro a b hch hh hl
    have hxa : x = a := by
      have : some x = some a := hh
      injection this
    subst hxa
    cases rest with
    | nil =>
      have : some x = some b := hl
      injection this with hb
      subst hb
      simp
    | cons y rt =>
      have hadj : Adj x y := (List.chain'_cons.mp hch).1
      rw [List.getLast?_cons_cons] at hl
      have hih := ih y b (List.chain'_cons.mp hch).2 rfl hl
      have hstep := (adj_steps_le x y hadj).2
      have h3 : b.2 - x.2 = (b.2 - y.2) + (y.2 - x.2) := by ring
      have h4 := Int.natAbs_add_le (b.2 - y.2) (y.2 - x.2)
      rw [h3]
      simp only [List.length_cons] at hih ⊢
      omega

theorem getLast?_append_cons {α : Type} : ∀ (l : List α) (a : α) (m : List α),
    (l ++ a :: m).getLast? = (a :: m).getLast? := by
  intro l
  induction l with
  | nil => intro a m; rfl
  | cons b t ih =>
    intro a m
    rw [List.cons_append]
    cases t with
    | nil => rw [List.nil_append, List.getLast?_cons_cons]
    | cons c t2 =>
      rw [show (c :: t2) ++ a :: m = c :: (t2 ++ a :: m) from rfl,
        List.getLast?_cons_cons, ← List.cons_append]
      exact ih a m

theorem mem_split_last {α : Type} [DecidableEq α] (a : α) :
    ∀ l : List α, a ∈ l → ∃ l1 l2, l = l1 ++ a :: l2 ∧ a ∉ l2 := by
  intro l
  induction l with
  | nil => intro h; exact absurd h (List.not_mem_nil a)
  | cons b t ih =>
    intro h
    by_cases ha : a ∈ t
    · obtain ⟨l1, l2, heq, hnm⟩ := ih ha
      exact ⟨b :: l1, l2, by rw [heq]; rfl, hnm⟩
    · have hab : a = b := by
        rcases List.mem_cons.mp h with h1 | h1
        · exact h1
        · exact absurd h1 ha
      subst hab
      exact ⟨[], t, rfl, ha⟩

theorem chain_shrink : ∀ (n : Nat) (p : List Pos), p.length ≤ n → List.Chain' Adj p →
    ∃ q : List Pos, List.Chain' Adj q ∧ q.head? = p.head? ∧ q.getLast? = p.getLast? ∧
      q.Nodup ∧ q.length ≤ p.length ∧ ∀ x ∈ q, x ∈ p := by
  intro n
  induction n with
  | zero =>
    intro p hlen _
    have hp : p = [] := List.length_eq_zero.mp (Nat.le_zero.mp hlen)
    subst hp
    exact ⟨[], List.chain'_nil, rfl, rfl, List.nodup_nil, Nat.le_refl 0,
      fun x hx => absurd hx (List.not_mem_nil x)⟩
  | succ n ih =>
    intro p hlen hch
    cases p with
    | nil =>
      exact ⟨[], List.chain'_nil, rfl, rfl, List.nodup_nil, Nat.le_refl 0,
        fun x hx => absurd hx (List.not_mem_nil x)⟩
    | cons a rest =>
      by_cases ha : a ∈ rest
      · obtain ⟨l1, l2, heq, hnm⟩ := mem_split_last a rest ha
        subst heq
        have hch2 : List.Chain' Adj (a :: l2) :=
          List.Chain'.right_of_append ((List.chain'_cons'.mp hch).2)
        have hlen2 : (a :: l2).length ≤ n := by
          simp only [List.length_cons, List.length_append] at hlen ⊢
          omega
        obtain ⟨q, hq1, hq2, hq3, hq4, hq5, hq6⟩ := ih (a :: l2) hlen2 hch2
        refine ⟨q, hq1, hq2, ?_, hq4, ?_, ?_⟩
        · rw [hq3, show a :: (l1 ++ a :: l2) = (a :: l1) ++ a :: l2 from rfl,
            getLast?_append_cons]
        · simp only [List.length_cons, List.length_append] at hq5 ⊢
          omega
        · intro x hx
          have hx2 := hq6 x hx
          simp only [List.mem_cons, List.mem_append] at hx2 ⊢
          tauto
      · have hlen2 : rest.length ≤ n := by
          simp only [List.length_cons] at hlen
          omega
        obtain ⟨q, hq1, hq2, hq3, hq4, hq5, hq6⟩ :=
          ih rest hlen2 ((List.chain'_cons'.mp hch).2)
        refine ⟨a :: q, ?_, rfl, ?_, ?_, ?_, ?_⟩
        · rw [List.chain'_cons']
          refine ⟨?_, hq1⟩
          intro y hy
          rw [hq2] at hy
          cases rest with
          | nil => exact Option.noConfusion hy
          | cons r rt =>
            have hry : some r = some y := hy
            injection hry with hry
            subst hry
            exact (List.chain'_cons.mp hch).1
        · cases rest with
          | nil =>
            cases q with
            | nil => rfl
            | cons c ct => exact Option.noConfusion hq2
          | cons r rt =>
            cases q with
            | nil => exact Option.noConfusion hq2
            | cons c ct =>
              rw [List.getLast?_cons_cons, List.getLast?_cons_cons]
              exact hq3
        · exact List.nodup_cons.mpr ⟨fun hmem => ha (hq6 a hmem), hq4⟩
        · simp only [List.length_cons]
          omega
        · intro x hx
          rcases List.mem_cons.mp hx with h1 | h1
          · exact h1 ▸ List.mem_cons_self _ _
          · exact List.mem_cons_of_mem _ (hq6 x h1)

theorem visualize_path_profileLE (M : Model) :
    ∀ (path : List Pos) (gs : GState), profileLE gs.grid (visualize_path M gs path).grid := by
  intro path
  induction path with
  | nil => intro gs; exact profileLE_refl _
  | cons p rest ih =>
    intro gs
    unfold visualize_path
    rw [List.foldl_cons]
    have h1 : profileLE gs.grid
        (if p ≠ M.start ∧ p ≠ M.target then markCell gs p CellType.PATH else gs).grid := by
      by_cases hc : p ≠ M.start ∧ p ≠ M.target
      · rw [if_pos hc]
        exact updGrid_profileLE _ _ _ (by intro hh; cases hh) (by intro hh; cases hh)
      · rw [if_neg hc]; exact profileLE_refl _
    exact profileLE_trans h1 (ih _)

theorem visualize_path_sameProfile (M : Model) (g0 : GridMap) :
    ∀ (path : List Pos) (gs : GState), sameProfile g0 gs.grid →
      (∀ q ∈ path, is_valid_position M g0 q.1 q.2 = true) →
      sameProfile g0 (visualize_path M gs path).grid := by
  intro path
  induction path with
  | nil => intro gs h _; exact h
  | cons p rest ih =>
    intro gs h hvalid
    unfold visualize_path
    rw [List.foldl_cons]
    have h1 : sameProfile g0
        (if p ≠ M.start ∧ p ≠ M.target then markCell gs p CellType.PATH else gs).grid := by
      by_cases hc : p ≠ M.start ∧ p ≠ M.target
      · rw [if_pos hc]
        have hv := hvalid p (List.mem_cons_self _ _)
        rw [is_valid_position_spec] at hv
        refine sameProfile_trans h (updGrid_sameProfile _ _ _ ?_ ?_
          (by intro hh; cases hh) (by intro hh; cases hh))
        · exact fun hc2 => hv.2.2.2.2.1 (((h p).1).mpr hc2)
        · exact fun hc2 => hv.2.2.2.2.2 (((h p).2).mpr hc2)
      · rw [if_neg hc]; exact h
    exact ih _ h1 (fun q hq => hvalid q (List.mem_cons_of_mem _ hq))

/-- The DLS neighbor loop only makes cells more passable, and with no
pending events it returns the pause flag unchanged. -/
theorem dlsChildren_profileLE (M : Model) (sched : Sched)
    (hev : ∀ k, sched.events k = [])
    (recur : Node → List Pos → List Pos → GState → Nat → Nat → Bool → DlsOut)
    (visited path2 : List Pos)
    (hrec : ∀ (nb : Node) (gs : GState) (kr ke : Nat) (p : Bool),
      profileLE gs.grid (recur nb visited path2 gs kr ke p).gs.grid ∧
      (recur nb visited path2 gs kr ke p).paused = p) :
    ∀ (ns : List Node) (gs : GState) (kr ke : Nat) (paused : Bool),
      profileLE gs.grid
        (dlsChildren M sched recur ns visited path2 gs kr ke paused).gs.grid ∧
      (dlsChildren M sched recur ns visited path2 gs kr ke paused).paused = paused := by
  intro ns
  induction ns with
  | nil => intro gs kr ke paused; exact ⟨profileLE_refl _, rfl⟩
  | cons nb more ih =>
    intro gs kr ke paused
    unfold dlsChildren
    by_cases hc : nb.pos ∉ visited ∧ is_valid_position M gs.grid nb.x nb.y
    · rw [if_pos hc]
      have hmono2 : profileLE gs.grid
          (if nb.pos ≠ M.target then markCell gs nb.pos CellType.FRONTIER else gs).grid := by
        by_cases ht : nb.pos ≠ M.target
        · rw [if_pos ht]
          exact updGrid_profileLE _ _ _ (by intro hh; cases hh) (by intro hh; cases hh)
        · rw [if_neg ht]; exact profileLE_refl _
      rw [hev ke]
      dsimp only [handle_events_during_search]
      rw [if_neg (by decide : ¬((!true) = true))]
      have hr := hrec nb
        (if nb.pos ≠ M.target then markCell gs nb.pos CellType.FRONTIER else gs)
        kr (ke + 1) paused
      cases hfnd : (recur nb visited path2
          (if nb.pos ≠ M.target then markCell gs nb.pos CellType.FRONTIER else gs)
          kr (ke + 1) paused).found with
      | some p => exact ⟨profileLE_trans hmono2 hr.1, hr.2⟩
      | none =>
        have hih := ih (recur nb visited path2
            (if nb.pos ≠ M.target then markCell gs nb.pos CellType.FRONTIER else gs)
            kr (ke + 1) paused).gs
          (recur nb visited path2
            (if nb.pos ≠ M.target then markCell gs nb.pos CellType.FRONTIER else gs)
            kr (ke + 1) paused).kr
          (recur nb visited path2
            (if nb.pos ≠ M.target then markCell gs nb.pos CellType.FRONTIER else gs)
            kr (ke + 1) paused).ke
          (recur nb visited path2
            (if nb.pos ≠ M.target then markCell gs nb.pos CellType.FRONTIER else gs)
            kr (ke + 1) paused).paused
        exact ⟨profileLE_trans hmono2 (profileLE_trans hr.1 hih.1), by rw [hih.2, hr.2]⟩
    · rw [if_neg hc]
      exact ih gs kr ke paused

/-- `dls_recursive` only makes cells more passable (dynamic obstacles
disabled), and with no pending events it never flips the pause flag. -/
theorem dls_profileLE (M : Model) (sched : Sched)
    (henable : M.enable_dynamic_obstacles = false)
    (hev : ∀ k, sched.events k = []) :
    ∀ (dfuel : Nat) (node : Node) (visited path : List Pos) (gs : GState)
      (kr ke : Nat) (paused : Bool),
      profileLE gs.grid
        (dls_recursive M sched dfuel node visited path gs kr ke paused).gs.grid ∧
      (dls_recursive M sched dfuel node visited path gs kr ke paused).paused = paused := by
  intro dfuel
  induction dfuel with
  | zero => intro node visited path gs kr ke paused; exact ⟨profileLE_refl _, rfl⟩
  | succ dfuel2 ih =>
    intro node visited path gs kr ke paused
    unfold dls_recursive
    by_cases hp : paused = true
    · rw [if_pos hp]; exact ⟨profileLE_refl _, rfl⟩
    · rw [if_neg hp]
      rw [add_dynamic_obstacle_enable_false M gs (sched.rand kr).1 (sched.rand kr).2 henable]
      dsimp only
      by_cases ht : node.pos = M.target
      · rw [if_pos ht]
        exact ⟨visualize_path_profileLE M _ _, rfl⟩
      · rw [if_neg ht]
        have hmono2 : profileLE gs.grid
            (if node.pos ≠ M.start then markCell gs node.pos CellType.EXPLORED
             else gs).grid := by
          by_cases hcs : node.pos ≠ M.start
          · rw [if_pos hcs]
            exact updGrid_profileLE _ _ _ (by intro hh; cases hh) (by intro hh; cases hh)
          · rw [if_neg hcs]; exact profileLE_refl _
        have hch := dlsChildren_profileLE M sched hev (dls_recursive M sched dfuel2)
          (node.pos :: visited) (path ++ [node.pos])
          (fun nb gs2 kr2 ke2 p2 =>
            ih nb (node.pos :: visited) (path ++ [node.pos]) gs2 kr2 ke2 p2)
          (get_neighbors M
            (if node.pos ≠ M.start then markCell gs node.pos CellType.EXPLORED else gs).grid
            node)
          (if node.pos ≠ M.start then markCell gs node.pos CellType.EXPLORED else gs)
          (kr + 1) ke paused
        exact ⟨profileLE_trans hmono2 hch.1, hch.2⟩

theorem head?_append_left {α : Type} (l m : List α) (a : α) (h : l.head? = some a) :
    (l ++ m).head? = some a := by
  cases l with
  | nil => exact Option.noConfusion h
  | cons b t => exact h

theorem node_pos_eq (n : Node) : n.pos = (n.x, n.y) := by
  rcases n with ⟨x, y, c, pr⟩
  rfl

/-- Soundness of the DLS neighbor loop: the wall/obstacle profile is
unchanged, the pause flag stays clear, and any found path is a passable
path of the initial grid within the consumed depth. -/
theorem dlsChildren_sound (M : Model) (sched : Sched) (gs0 : GState)
    (hev : ∀ k, sched.events k = [])
    (recur : Node → List Pos → List Pos → GState → Nat → Nat → Bool → DlsOut)
    (dfuel2 : Nat) (visited path2 : List Pos) (base : Pos)
    (hhead : path2.head? = some M.start)
    (hlast : path2.getLast? = some base)
    (hchain : List.Chain' Adj path2)
    (hval : ∀ q ∈ path2, is_valid_position M gs0.grid q.1 q.2 = true)
    (hrec : ∀ (nb : Node) (gs : GState) (kr ke : Nat),
      sameProfile gs0.grid gs.grid →
      (path2 ++ [nb.pos]).head? = some M.start →
      List.Chain' Adj (path2 ++ [nb.pos]) →
      (∀ q ∈ path2 ++ [nb.pos], is_valid_position M gs0.grid q.1 q.2 = true) →
      sameProfile gs0.grid (recur nb visited path2 gs kr ke false).gs.grid ∧
      (recur nb visited path2 gs kr ke false).paused = false ∧
      ∀ fp, (recur nb visited path2 gs kr ke false).found = some fp →
        GoodPath M gs0.grid fp ∧ fp.length ≤ path2.length + dfuel2) :
    ∀ (ns : List Node) (gs : GState) (kr ke : Nat),
      (∀ n ∈ ns, Adj base n.pos) →
      sameProfile gs0.grid gs.grid →
      sameProfile gs0.grid
        (dlsChildren M sched recur ns visited path2 gs kr ke false).gs.grid ∧
      (dlsChildren M sched recur ns visited path2 gs kr ke false).paused = false ∧
      ∀ fp, (dlsChildren M sched recur ns visited path2 gs kr ke false).found = some fp →
        GoodPath M gs0.grid fp ∧ fp.length ≤ path2.length + dfuel2 := by
  intro ns
  induction ns with
  | nil =>
    intro gs kr ke _ hprof
    exact ⟨hprof, rfl, fun fp hfp => Option.noConfusion hfp⟩
  | cons nb more ih =>
    intro gs kr ke hns hprof
    unfold dlsChildren
    by_cases hc : nb.pos ∉ visited ∧ is_valid_position M gs.grid nb.x nb.y
    · rw [if_pos hc]
      have hnbval0 : is_valid_position M gs0.grid nb.pos.1 nb.pos.2 = true := by
        rw [node_pos_eq]
        exact (valid_sameProfile M hprof nb.x nb.y).mpr hc.2
      have hprof2 : sameProfile gs0.grid
          (if nb.pos ≠ M.target then markCell gs nb.pos CellType.FRONTIER else gs).grid := by
        by_cases ht : nb.pos ≠ M.target
        · rw [if_pos ht]
          have hv0 := hnbval0
          rw [is_valid_position_spec] at hv0
          refine sameProfile_trans hprof (updGrid_sameProfile _ _ _ ?_ ?_
            (by intro hh; cases hh) (by intro hh; cases hh))
          · exact fun hc2 => hv0.2.2.2.2.1 (((hprof nb.pos).1).mpr hc2)
          · exact fun hc2 => hv0.2.2.2.2.2 (((hprof nb.pos).2).mpr hc2)
        · rw [if_neg ht]; exact hprof
      rw [hev ke]
      dsimp only [handle_events_during_search]
      rw [if_neg (by decide : ¬((!true) = true))]
      have hhead2 : (path2 ++ [nb.pos]).head? = some M.start :=
        head?_append_left _ _ _ hhead
      have hchain2 : List.Chain' Adj (path2 ++ [nb.pos]) := by
        rw [List.chain'_append]
        refine ⟨hchain, List.chain'_singleton _, ?_⟩
        intro x hx y hy
        rw [hlast] at hx
        simp only [Option.mem_def, Option.some_inj, List.head?_cons] at hx hy
        rw [← hx, ← hy]
        exact hns nb (List.mem_cons_self _ _)
      have hval2 : ∀ q ∈ path2 ++ [nb.pos],
          is_valid_position M gs0.grid q.1 q.2 = true := by
        intro q hq
        rcases List.mem_append.mp hq with hq1 | hq1
        · exact hval q hq1
        · rw [List.mem_singleton.mp hq1]
          exact hnbval0
      have hr := hrec nb
        (if nb.pos ≠ M.target then markCell gs nb.pos CellType.FRONTIER else gs)
        kr (ke + 1) hprof2 hhead2 hchain2 hval2
      cases hfnd : (recur nb visited path2
          (if nb.pos ≠ M.target then markCell gs nb.pos CellType.FRONTIER else gs)
          kr (ke + 1) false).found with
      | some p =>
        exact ⟨hr.1, hr.2.1, fun fp hfp => hr.2.2 fp hfp⟩
      | none =>
        rw [hr.2.1]
        exact ih _ _ _ (fun n hn => hns n (List.mem_cons_of_mem _ hn)) hr.1
    · rw [if_neg hc]
      exact ih gs kr ke (fun n hn => hns n (List.mem_cons_of_mem _ hn)) hprof

/-- Soundness of `dls_recursive`: with dynamic obstacles disabled and no
pending events, the profile is unchanged and any found path is a passable
path of the initial grid from start to target using at most `dfuel`
cells beyond the accumulated prefix. -/
theorem dls_sound (M : Model) (sched : Sched) (gs0 : GState)
    (henable : M.enable_dynamic_obstacles = false)
    (hev : ∀ k, sched.events k = []) :
    ∀ (dfuel : Nat) (node : Node) (visited path : List Pos) (gs : GState) (kr ke : Nat),
      sameProfile gs0.grid gs.grid →
      (path ++ [node.pos]).head? = some M.start →
      List.Chain' Adj (path ++ [node.pos]) →
      (∀ q ∈ path ++ [node.pos], is_valid_position M gs0.grid q.1 q.2 = true) →
      sameProfile gs0.grid
        (dls_recursive M sched dfuel node visited path gs kr ke false).gs.grid ∧
      (dls_recursive M sched dfuel node visited path gs kr ke false).paused = false ∧
      ∀ fp, (dls_recursive M sched dfuel node visited path gs kr ke false).found = some fp →
        GoodPath M gs0.grid fp ∧ fp.length ≤ path.length + dfuel := by
  intro dfuel
  induction dfuel with
  | zero =>
    intro node visited path gs kr ke hprof _ _ _
    exact ⟨hprof, rfl, fun fp hfp => Option.noConfusion hfp⟩
  | succ dfuel2 ih =>
    intro node visited path gs kr ke hprof hhead hchain hval
    unfold dls_recursive
    rw [if_neg (by decide : ¬(false = true))]
    rw [add_dynamic_obstacle_enable_false M gs (sched.rand kr).1 (sched.rand kr).2 henable]
    dsimp only
    by_cases ht : node.pos = M.target
    · rw [if_pos ht]
      refine ⟨visualize_path_sameProfile M gs0.grid (path ++ [node.pos]) gs hprof hval,
        rfl, ?_⟩
      intro fp hfp
      have hfp2 : some (path ++ [node.pos]) = some fp := hfp
      injection hfp2 with hfp2
      subst hfp2
      refine ⟨⟨hhead, ?_, hchain, hval⟩, ?_⟩
      · rw [List.getLast?_concat, ht]
      · simp only [List.length_append, List.length_cons, List.length_nil]
        omega
    · rw [if_neg ht]
      have hposval : is_valid_position M gs0.grid node.pos.1 node.pos.2 = true :=
        hval node.pos (by simp)
      have hprof2 : sameProfile gs0.grid
          (if node.pos ≠ M.start then markCell gs node.pos CellType.EXPLORED
           else gs).grid := by
        by_cases hcs : node.pos ≠ M.start
        · rw [if_pos hcs]
          have hv0 := hposval
          rw [is_valid_position_spec] at hv0
          refine sameProfile_trans hprof (updGrid_sameProfile _ _ _ ?_ ?_
            (by intro hh; cases hh) (by intro hh; cases hh))
          · exact fun hc2 => hv0.2.2.2.2.1 (((hprof node.pos).1).mpr hc2)
          · exact fun hc2 => hv0.2.2.2.2.2 (((hprof node.pos).2).mpr hc2)
        · rw [if_neg hcs]; exact hprof
      have hch := dlsChildren_sound M sched gs0 hev (dls_recursive M sched dfuel2) dfuel2
        (node.pos :: visited) (path ++ [node.pos]) node.pos
        hhead (List.getLast?_concat _) hchain hval
        (fun nb gs2 kr2 ke2 hpr hh hc hv =>
          ih nb (node.pos :: visited) (path ++ [node.pos]) gs2 kr2 ke2 hpr hh hc hv)
        (get_neighbors M
          (if node.pos ≠ M.start then markCell gs node.pos CellType.EXPLORED else gs).grid
          node)
        (if node.pos ≠ M.start then markCell gs node.pos CellType.EXPLORED else gs)
        (kr + 1) ke
        (fun n hn => get_neighbors_adj M _ node n hn) hprof2
      refine ⟨hch.1, hch.2.1, ?_⟩
      intro fp hfp
      obtain ⟨hgp, hlen⟩ := hch.2.2 fp hfp
      refine ⟨hgp, ?_⟩
      simp only [List.length_append, List.length_cons, List.length_nil] at hlen ⊢
      omega

/-- Completeness of the DLS neighbor loop: if some listed neighbor starts
a short enough duplicate-free passable continuation avoiding the branch's
visited set, a path is found. -/
theorem dlsChildren_complete (M : Model) (sched : Sched)
    (hev : ∀ k, sched.events k = [])
    (recur : Node → List Pos → List Pos → GState → Nat → Nat → Bool → DlsOut)
    (gs0 : GState) (dfuel2 : Nat) (visited path2 : List Pos)
    (hmono : ∀ (nb : Node) (gs : GState) (kr ke : Nat) (pz : Bool),
      profileLE gs.grid (recur nb visited path2 gs kr ke pz).gs.grid ∧
      (recur nb visited path2 gs kr ke pz).paused = pz)
    (hrec : ∀ (nb : Node) (gs : GState) (kr ke : Nat),
      profileLE gs0.grid gs.grid →
      ∀ (p : List Pos), p.head? = some nb.pos → p.getLast? = some M.target →
        List.Chain' Adj p → p.Nodup →
        (∀ q ∈ p, is_valid_position M gs0.grid q.1 q.2 = true) →
        (∀ q ∈ p.tail, q ∉ visited) →
        p.length ≤ dfuel2 →
        ((recur nb visited path2 gs kr ke false).found).isSome = true) :
    ∀ (ns : List Node) (gs : GState) (kr ke : Nat),
      profileLE gs0.grid gs.grid →
      ∀ (c : Node) (p : List Pos), c ∈ ns →
        p.head? = some c.pos → p.getLast? = some M.target →
        List.Chain' Adj p → p.Nodup →
        (∀ q ∈ p, is_valid_position M gs0.grid q.1 q.2 = true) →
        (∀ q ∈ p, q ∉ visited) →
        p.length ≤ dfuel2 →
        ((dlsChildren M sched recur ns visited path2 gs kr ke false).found).isSome
          = true := by
  intro ns
  induction ns with
  | nil =>
    intro gs kr ke _ c p hc
    exact absurd hc (List.not_mem_nil c)
  | cons nb more ih =>
    intro gs kr ke hprof c p hc hph hpl hpch hpnd hpval hpdisj hplen
    unfold dlsChildren
    rcases List.mem_cons.mp hc with hceq | hcmore
    · subst hceq
      have hposmem : c.pos ∈ p := List.mem_of_mem_head? (Option.mem_def.mpr hph)
      have hcpos_nvis : c.pos ∉ visited := hpdisj c.pos hposmem
      have hvalc : is_valid_position M gs.grid c.x c.y = true := by
        have h0 := hpval c.pos hposmem
        have h1 := valid_profileLE M hprof c.pos.1 c.pos.2 h0
        rw [node_pos_eq] at h1
        exact h1
      rw [if_pos ⟨hcpos_nvis, hvalc⟩]
      rw [hev ke]
      dsimp only [handle_events_during_search]
      rw [if_neg (by decide : ¬((!true) = true))]
      have hmark : profileLE gs.grid
          (if c.pos ≠ M.target then markCell gs c.pos CellType.FRONTIER else gs).grid := by
        by_cases ht : c.pos ≠ M.target
        · rw [if_pos ht]
          exact updGrid_profileLE _ _ _ (by intro hh; cases hh) (by intro hh; cases hh)
        · rw [if_neg ht]; exact profileLE_refl _
      have hr := hrec c
        (if c.pos ≠ M.target then markCell gs c.pos CellType.FRONTIER else gs)
        kr (ke + 1) (profileLE_trans hprof hmark) p hph hpl hpch hpnd hpval
        (fun q hq => hpdisj q (List.mem_of_mem_tail hq)) hplen
      cases hfnd : (recur c visited path2
          (if c.pos ≠ M.target then markCell gs c.pos CellType.FRONTIER else gs)
          kr (ke + 1) false).found with
      | some pp => rw [hfnd]; rfl
      | none =>
        rw [hfnd] at hr
        exact Bool.noConfusion hr
    · by_cases hcheck : nb.pos ∉ visited ∧ is_valid_position M gs.grid nb.x nb.y
      · rw [if_pos hcheck]
        rw [hev ke]
        dsimp only [handle_events_during_search]
        rw [if_neg (by decide : ¬((!true) = true))]
        have hmark : profileLE gs.grid
            (if nb.pos ≠ M.target then markCell gs nb.pos CellType.FRONTIER
             else gs).grid := by
          by_cases ht : nb.pos ≠ M.target
          · rw [if_pos ht]
            exact updGrid_profileLE _ _ _ (by intro hh; cases hh) (by intro hh; cases hh)
          · rw [if_neg ht]; exact profileLE_refl _
        have hm := hmono nb
          (if nb.pos ≠ M.target then markCell gs nb.pos CellType.FRONTIER else gs)
          kr (ke + 1) false
        cases hfnd : (recur nb visited path2
            (if nb.pos ≠ M.target then markCell gs nb.pos CellType.FRONTIER else gs)
            kr (ke + 1) false).found with
        | some pp => rw [hfnd]; rfl
        | none =>
          rw [hm.2]
          exact ih _ _ _ (profileLE_trans hprof (profileLE_trans hmark hm.1))
            c p hcmore hph hpl hpch hpnd hpval hpdisj hplen
      · rw [if_neg hcheck]
        exact ih gs kr ke hprof c p hcmore hph hpl hpch hpnd hpval hpdisj hplen

/-- Completeness of `dls_recursive`: with dynamic obstacles disabled and
no pending events, a duplicate-free passable path from the node to the
target that fits in the depth budget and avoids the branch's visited set
guarantees a found result. -/
theorem dls_complete (M : Model) (sched : Sched) (gs0 : GState)
    (henable : M.enable_dynamic_obstacles = false)
    (hev : ∀ k, sched.events k = []) :
    ∀ (dfuel : Nat) (node : Node) (visited path : List Pos) (gs : GState) (kr ke : Nat),
      profileLE gs0.grid gs.grid →
      ∀ (p : List Pos), p.head? = some node.pos → p.getLast? = some M.target →
        List.Chain' Adj p → p.Nodup →
        (∀ q ∈ p, is_valid_position M gs0.grid q.1 q.2 = true) →
        (∀ q ∈ p.tail, q ∉ visited) →
        p.length ≤ dfuel →
        ((dls_recursive M sched dfuel node visited path gs kr ke false).found).isSome
          = true := by
  intro dfuel
  induction dfuel with
  | zero =>
    intro node visited path gs kr ke _ p hph _ _ _ _ _ hplen
    cases p with
    | nil => exact Option.noConfusion hph
    | cons a t => exact absurd hplen (by simp)
  | succ dfuel2 ih =>
    intro node visited path gs kr ke hprof p hph hpl hpch hpnd hpval hpdisj hplen
    unfold dls_recursive
    rw [if_neg (by decide : ¬(false = true))]
    rw [add_dynamic_obstacle_enable_false M gs (sched.rand kr).1 (sched.rand kr).2 henable]
    dsimp only
    by_cases ht : node.pos = M.target
    · rw [if_pos ht]
      rfl
    · rw [if_neg ht]
      cases p with
      | nil => exact Option.noConfusion hph
      | cons a t =>
        have ha : a = node.pos := by
          have h2 : some a = some node.pos := hph
          injection h2
        subst ha
        cases t with
        | nil =>
          have h2 : some node.pos = some M.target := hpl
          injection h2 with h2
          exact absurd h2 ht
        | cons b t2 =>
          have hadj : Adj node.pos b := (List.chain'_cons.mp hpch).1
          have hbval0 : is_valid_position M gs0.grid b.1 b.2 = true :=
            hpval b (List.mem_cons_of_mem _ (List.mem_cons_self _ _))
          have hprofLE2 : profileLE gs0.grid
              (if node.pos ≠ M.start then markCell gs node.pos CellType.EXPLORED
               else gs).grid := by
            by_cases hcs : node.pos ≠ M.start
            · rw [if_pos hcs]
              exact profileLE_trans hprof (updGrid_profileLE _ _ _
                (by intro hh; cases hh) (by intro hh; cases hh))
            · rw [if_neg hcs]; exact hprof
          have hbval2 : is_valid_position M
              (if node.pos ≠ M.start then markCell gs node.pos CellType.EXPLORED
               else gs).grid
              b.1 b.2 = true :=
            valid_profileLE M hprofLE2 b.1 b.2 hbval0
          obtain ⟨c, hcmem, hcpos⟩ := get_neighbors_complete M
            (if node.pos ≠ M.start then markCell gs node.pos CellType.EXPLORED else gs).grid
            node b hadj hbval2
          rw [List.getLast?_cons_cons] at hpl
          have hch2 : List.Chain' Adj (b :: t2) := (List.chain'_cons.mp hpch).2
          have hnd2 : (b :: t2).Nodup := (List.nodup_cons.mp hpnd).2
          have hanotin : node.pos ∉ b :: t2 := (List.nodup_cons.mp hpnd).1
          have hdisj2 : ∀ q ∈ b :: t2, q ∉ node.pos :: visited := by
            intro q hq
            rw [List.mem_cons]
            rintro (h1 | h1)
            · exact hanotin (h1 ▸ hq)
            · exact hpdisj q hq h1
          have hlen2 : (b :: t2).length ≤ dfuel2 := by
            simp only [List.length_cons] at hplen ⊢
            omega
          exact dlsChildren_complete M sched hev (dls_recursive M sched dfuel2) gs0 dfuel2
            (node.pos :: visited) (path ++ [node.pos])
            (fun nb gs2 kr2 ke2 pz =>
              dls_profileLE M sched henable hev dfuel2 nb (node.pos :: visited)
                (path ++ [node.pos]) gs2 kr2 ke2 pz)
            (fun nb gs2 kr2 ke2 hpr p2 h1 h2 h3 h4 h5 h6 h7 =>
              ih nb (node.pos :: visited) (path ++ [node.pos]) gs2 kr2 ke2 hpr p2
                h1 h2 h3 h4 h5 h6 h7)
            (get_neighbors M
              (if node.pos ≠ M.start then markCell gs node.pos CellType.EXPLORED
               else gs).grid node)
            (if node.pos ≠ M.start then markCell gs node.pos CellType.EXPLORED else gs)
            (kr + 1) ke hprofLE2 c (b :: t2) hcmem (by rw [hcpos]; rfl)
            hpl hch2 hnd2 (fun q hq => hpval q (List.mem_cons_of_mem _ hq))
            hdisj2 hlen2

theorem start_node_pos (M : Model) : (Node.mk M.start.1 M.start.2 0 none).pos = M.start :=
  rfl

/-- C5: depth semantics of `depth_limited_search` (dynamic obstacles
disabled, no pending events, start on a valid cell).  (i) If every
passable path from start to target needs more than `d` moves, the search
with limit `d` finds nothing.  (ii) If some passable path of at most `d`
moves exists, it finds a path — this direction holds precisely because
the visited set is branch-local (copied on each recursive descent), so a
position consumed inside one failed branch can be revisited via a
different, non-ancestor path within the depth budget.  In particular, on
the 1×6 corridor that needs 5 moves, limit 2 finds nothing and limit 10
finds the corridor path. -/
theorem C5_dls_depth_semantics :
    (∀ (M : Model) (sched : Sched) (gs0 : GState) (d : Nat),
        M.enable_dynamic_obstacles = false → (∀ k, sched.events k = []) →
        is_valid_position M gs0.grid M.start.1 M.start.2 = true →
        (∀ p, GoodPath M gs0.grid p → d + 1 < p.length) →
        dls_result M sched gs0 d = none) ∧
    (∀ (M : Model) (sched : Sched) (gs0 : GState) (d : Nat),
        M.enable_dynamic_obstacles = false → (∀ k, sched.events k = []) →
        (∃ p, GoodPath M gs0.grid p ∧ p.length ≤ d + 1) →
        (dls_result M sched gs0 d).isSome = true) ∧
    dls_result lineM6 trivSched lineGS6 2 = none ∧
    dls_result lineM6 trivSched lineGS6 10 =
      some [((0 : Int), (0 : Int)), (0, 1), (0, 2), (0, 3), (0, 4), (0, 5)] := by
  refine ⟨?_, ?_, by decide, by decide⟩
  · intro M sched gs0 d henable hev hstart hlong
    cases hres : dls_result M sched gs0 d with
    | none => rfl
    | some fp =>
      exfalso
      simp only [dls_result, depth_limited_search] at hres
      have hv : ∀ q ∈ [] ++ [(Node.mk M.start.1 M.start.2 0 none).pos],
          is_valid_position M gs0.grid q.1 q.2 = true := by
        intro q hq
        simp only [List.nil_append, List.mem_singleton] at hq
        subst hq
        rw [start_node_pos]
        exact hstart
      have hsound := dls_sound M sched gs0 henable hev (d + 1)
        (Node.mk M.start.1 M.start.2 0 none) [] [] gs0 0 0
        (sameProfile_refl _) rfl (List.chain'_singleton _) hv
      obtain ⟨hgp, hlen⟩ := hsound.2.2 fp hres
      have hlong2 := hlong fp hgp
      simp only [List.length_nil] at hlen
      omega
  · intro M sched gs0 d henable hev hex
    obtain ⟨p, hgp, hplen⟩ := hex
    obtain ⟨q, hq1, hq2, hq3, hq4, hq5, hq6⟩ :=
      chain_shrink p.length p (Nat.le_refl _) hgp.2.2.1
    have hqh : q.head? = some (Node.mk M.start.1 M.start.2 0 none).pos := by
      rw [start_node_pos, hq2]
      exact hgp.1
    have hcomp := dls_complete M sched gs0 henable hev (d + 1)
      (Node.mk M.start.1 M.start.2 0 none) [] [] gs0 0 0 (profileLE_refl _)
      q hqh (hq3.trans hgp.2.1) hq1 hq4
      (fun x hx => hgp.2.2.2 x (hq6 x hx))
      (fun x hx => List.not_mem_nil x)
      (hq5.trans hplen)
    simp only [dls_result, depth_limited_search]
    exact hcomp

/-- Witness for C5 on the 1×6 corridor: every passable path needs at
least 5 moves (column span), so limit 2 yields nothing, while the
explicit 5-move corridor path makes limit 10 succeed. -/
theorem C5_dls_depth_semantics_witness :
    dls_result lineM6 trivSched lineGS6 2 = none ∧
    (dls_result lineM6 trivSched lineGS6 10).isSome = true := by
  constructor
  · apply C5_dls_depth_semantics.1 lineM6 trivSched lineGS6 2 rfl (fun _ => rfl) (by decide)
    intro p hgp
    have hspan := chain_col_span p lineM6.start lineM6.target hgp.2.2.1 hgp.1 hgp.2.1
    have habs : ((lineM6.target.2 : Int) - lineM6.start.2).natAbs = 5 := by decide
    omega
  · exact C5_dls_depth_semantics.2.1 lineM6 trivSched lineGS6 10 rfl (fun _ => rfl)
      ⟨[((0 : Int), (0 : Int)), (0, 1), (0, 2), (0, 3), (0, 4), (0, 5)],
        by decide, by decide⟩

/-! ## Bidirectional path assembly (C6) -/

theorem chainList_ne_nil (n : Node) : chainList n ≠ [] := by
  rcases n with ⟨x, y, c, pr⟩
  cases pr with
  | none => simp [chainList]
  | some p => simp [chainList]

theorem chainList_getLast : ∀ (n : Node), (chainList n).getLast? = some n.pos
  | .mk x y c none => rfl
  | .mk x y c (some p) => by
    rw [show chainList (Node.mk x y c (some p)) = chainList p ++ [(x, y)] from rfl,
      List.getLast?_concat]
    rfl

theorem reconstruct_path_eq : ∀ (n : Node), reconstruct_path n = chainList n
  | .mk x y c none => rfl
  | .mk x y c (some p) => by
    show (collectChain (Node.mk x y c (some p))).reverse = _
    rw [show collectChain (Node.mk x y c (some p)) = (x, y) :: collectChain p from rfl,
      List.reverse_cons,
      show (collectChain p).reverse = reconstruct_path p from rfl,
      reconstruct_path_eq p]
    rfl

theorem adj_symm {a b : Pos} (h : Adj a b) : Adj b a := by
  obtain ⟨d, hd, rfl⟩ := h
  refine ⟨(-d.1, -d.2), ?_, ?_⟩
  · fin_cases hd <;> decide
  · obtain ⟨a1, a2⟩ := a
    simp only [Prod.mk.injEq]
    constructor <;> ring

theorem get_neighbors_chain (M : Model) (g : GridMap) (cur nb : Node)
    (h : nb ∈ get_neighbors M g cur) : chainList nb = chainList cur ++ [nb.pos] := by
  unfold get_neighbors at h
  rw [List.mem_filterMap] at h
  obtain ⟨d, hdmem, hd⟩ := h
  by_cases hv : is_valid_position M g (cur.x + d.1) (cur.y + d.2)
  · rw [if_pos hv] at hd
    cases hd
    rfl
  · rw [if_neg hv] at hd
    cases hd

theorem ChainInv_mono {root : Pos} {vis vis2 : Pos → Option Node} {n : Node}
    (hm : ∀ q, vis q ≠ none → vis2 q ≠ none) (h : ChainInv root vis n) :
    ChainInv root vis2 n :=
  ⟨h.1, h.2.1, h.2.2.1, fun q hq => hm q (h.2.2.2 q hq)⟩

/-- The expansion loop of `bidirectional_search` preserves the chain
invariant: entries only get added (at the discovered position, with the
parent's chain extended by one adjacent cell). -/
theorem bidirExpand_pathInv (M : Model) (skip root : Pos) (cur : Node) :
    ∀ (ns : List Node) (gs : GState) (vis : Pos → Option Node) (q : List Node),
      (∀ n ∈ ns, chainList n = chainList cur ++ [n.pos] ∧ Adj cur.pos n.pos) →
      ChainInv root vis cur →
      (∀ n ∈ q, ChainInv root vis n) →
      VisOK root vis →
      (∀ n ∈ (bidirExpand M skip ns (gs, vis, q)).2.2,
        ChainInv root (bidirExpand M skip ns (gs, vis, q)).2.1 n) ∧
      VisOK root (bidirExpand M skip ns (gs, vis, q)).2.1 ∧
      (∀ p, vis p ≠ none → (bidirExpand M skip ns (gs, vis, q)).2.1 p ≠ none) := by
  intro ns
  induction ns with
  | nil =>
    intro gs vis q _ _ hq hvis
    exact ⟨hq, hvis, fun p h => h⟩
  | cons nb more ih =>
    intro gs vis q hns hcur hq hvis
    unfold bidirExpand
    dsimp only
    by_cases hc : vis nb.pos = none ∧ is_valid_position M gs.grid nb.x nb.y
    · rw [if_pos hc]
      have hmono1 : ∀ p, vis p ≠ none →
          (fun r => if r = nb.pos then some nb else vis r) p ≠ none := by
        intro p hp
        show (if p = nb.pos then some nb else vis p) ≠ none
        by_cases hpe : p = nb.pos
        · rw [if_pos hpe]
          exact fun hh => Option.noConfusion hh
        · rw [if_neg hpe]
          exact hp
      have hnbchain := (hns nb (List.mem_cons_self _ _)).1
      have hnbadj := (hns nb (List.mem_cons_self _ _)).2
      have hchain_nb : ChainInv root
          (fun r => if r = nb.pos then some nb else vis r) nb := by
        refine ⟨?_, ?_, ?_, ?_⟩
        · rw [hnbchain]
          exact head?_append_left _ _ _ hcur.1
        · rw [hnbchain, List.chain'_append]
          refine ⟨hcur.2.1, List.chain'_singleton _, ?_⟩
          intro x hx y hy
          rw [chainList_getLast] at hx
          simp only [Option.mem_def, Option.some_inj, List.head?_cons] at hx hy
          rw [← hx, ← hy]
          exact hnbadj
        · rw [hnbchain, List.nodup_append]
          refine ⟨hcur.2.2.1, List.nodup_singleton _, ?_⟩
          intro a ha ha2
          rw [List.mem_singleton.mp ha2] at ha
          exact hcur.2.2.2 nb.pos ha hc.1
        · rw [hnbchain]
          intro x hx
          show (if x = nb.pos then some nb else vis x) ≠ none
          rcases List.mem_append.mp hx with hx1 | hx1
          · by_cases hxe : x = nb.pos
            · rw [if_pos hxe]
              exact fun hh => Option.noConfusion hh
            · rw [if_neg hxe]
              exact hcur.2.2.2 x hx1
          · rw [if_pos (List.mem_singleton.mp hx1)]
            exact fun hh => Option.noConfusion hh
      have hvis2 : VisOK root (fun r => if r = nb.pos then some nb else vis r) := by
        intro p n hpn
        have hpn2 : (if p = nb.pos then some nb else vis p) = some n := hpn
        by_cases hpe : p = nb.pos
        · rw [if_pos hpe] at hpn2
          injection hpn2 with hpn2
          subst hpn2
          exact ⟨hpe.symm ▸ rfl, hchain_nb⟩
        · rw [if_neg hpe] at hpn2
          obtain ⟨h1, h2⟩ := hvis p n hpn2
          exact ⟨h1, ChainInv_mono hmono1 h2⟩
      have hq2 : ∀ n ∈ q ++ [nb],
          ChainInv root (fun r => if r = nb.pos then some nb else vis r) n := by
        intro n hn
        rcases List.mem_append.mp hn with hn1 | hn1
        · exact ChainInv_mono hmono1 (hq n hn1)
        · rw [List.mem_singleton.mp hn1]
          exact hchain_nb
      have hih := ih (if nb.pos ≠ skip then markCell gs nb.pos CellType.FRONTIER else gs)
        (fun r => if r = nb.pos then some nb else vis r) (q ++ [nb])
        (fun n hn => hns n (List.mem_cons_of_mem _ hn))
        (ChainInv_mono hmono1 hcur) hq2 hvis2
      exact ⟨hih.1, hih.2.1, fun p hp => hih.2.2 p (hmono1 p hp)⟩
    · rw [if_neg hc]
      exact ih gs vis q (fun n hn => hns n (List.mem_cons_of_mem _ hn)) hcur hq hvis

theorem eq_dropLast_concat {α : Type} :
    ∀ (l : List α) (a : α), l.getLast? = some a → l = l.dropLast ++ [a] := by
  intro l
  induction l with
  | nil => intro a h; exact Option.noConfusion h
  | cons b t ih =>
    intro a h
    cases t with
    | nil =>
      have h2 : some b = some a := h
      injection h2 with h2
      subst h2
      rfl
    | cons c t2 =>
      rw [List.getLast?_cons_cons] at h
      have h3 := ih a h
      rw [show (b :: c :: t2).dropLast = b :: (c :: t2).dropLast from rfl,
        List.cons_append, ← h3]

/-- The path assembled at a meeting point — the forward chain (ending at
the meet) followed by the reversed backward chain without its first
element — runs from `A` to `B`, stays eight-connected, and contains the
meet exactly once. -/
theorem assembled_path_ok (A B meet : Pos) (fl bl : List Pos)
    (hfh : fl.head? = some A) (hfc : List.Chain' Adj fl) (hfn : fl.Nodup)
    (hfl : fl.getLast? = some meet)
    (hbh : bl.head? = some B) (hbc : List.Chain' Adj bl) (hbn : bl.Nodup)
    (hbl : bl.getLast? = some meet) :
    (fl ++ bl.reverse.tail).head? = some A ∧
    (fl ++ bl.reverse.tail).getLast? = some B ∧
    List.Chain' Adj (fl ++ bl.reverse.tail) ∧
    ∃ m l1 l2, fl ++ bl.reverse.tail = l1 ++ m :: l2 ∧ m ∉ l1 ∧ m ∉ l2 := by
  have hbrh : bl.reverse.head? = some meet := by
    rw [List.head?_reverse]
    exact hbl
  cases hbr : bl.reverse with
  | nil => rw [hbr] at hbrh; exact Option.noConfusion hbrh
  | cons m rest =>
    have hm : m = meet := by
      rw [hbr] at hbrh
      have h2 : some m = some meet := hbrh
      injection h2
    subst hm
    have hbrc : List.Chain' Adj bl.reverse :=
      List.chain'_reverse.mpr (List.Chain'.imp (fun a b h => adj_symm h) hbc)
    have hfl2 : fl = fl.dropLast ++ [m] := eq_dropLast_concat fl m hfl
    have hbrc2 : List.Chain' Adj (m :: rest) := by
      rw [← hbr]
      exact hbrc
    refine ⟨head?_append_left _ _ _ hfh, ?_, ?_, m, fl.dropLast, rest,
      ?_, ?_, ?_⟩
    · cases rest with
      | nil =>
        have hblv : bl = [m] := by
          have h2 : bl.reverse.reverse = [m].reverse := by rw [hbr]
          rwa [List.reverse_reverse, List.reverse_singleton] at h2
        have hB : B = m := by
          rw [hblv] at hbh
          have h2 : some m = some B := hbh
          injection h2 with h2
          exact h2.symm
        simp only [List.tail_cons, List.append_nil]
        rw [hfl, hB]
      | cons r0 rest2 =>
        simp only [List.tail_cons]
        rw [getLast?_append_cons]
        have h1 : (m :: r0 :: rest2).getLast? = some B := by
          rw [← hbr, List.getLast?_reverse]
          exact hbh
        rw [List.getLast?_cons_cons] at h1
        exact h1
    · rw [List.chain'_append]
      refine ⟨hfc, List.Chain'.tail hbrc2, ?_⟩
      intro x hx y hy
      rw [hfl] at hx
      have hx2 : x = m := by
        simp only [Option.mem_def, Option.some_inj] at hx
        exact hx.symm
      subst hx2
      simp only [List.tail_cons] at hy
      exact (List.chain'_cons'.mp hbrc2).1 y hy
    · simp only [List.tail_cons]
      nth_rewrite 1 [hfl2]
      rw [List.append_assoc]
      rfl
    · have hfn2 := hfn
      rw [hfl2, List.nodup_append] at hfn2
      intro hmem
      exact (hfn2.2.2 hmem) (List.mem_singleton.mpr rfl)
    · have hrn : bl.reverse.Nodup := List.nodup_reverse.mpr hbn
      rw [hbr] at hrn
      exact (List.nodup_cons.mp hrn).1

theorem bidirFinish_pathInv (M : Model) (sched : Sched) (s : BidirState)
    (h : BidirPathInv M s) : BidirDoneOK M (bidirFinish sched s) := by
  unfold bidirFinish
  rcases hev : handle_events_during_search (sched.events s.k) s.paused with ⟨p2, c2⟩
  dsimp only
  by_cases hc2 : c2 = true
  · rw [if_pos hc2]
    exact ⟨h.1, h.2.1, h.2.2.1, h.2.2.2⟩
  · rw [if_neg hc2]
    intro path hp
    exact Option.noConfusion hp

/-- The backward phase preserves the chain invariant, and a path returned
on a backward meet satisfies `C6Path`. -/
theorem bidirBackward_pathInv (M : Model) (sched : Sched) (s : BidirState)
    (h : BidirPathInv M s) : BidirDoneOK M (bidirBackward M sched s) := by
  obtain ⟨hqf, hqb, hvf, hvb⟩ := h
  unfold bidirBackward
  cases hbq : s.backward_queue with
  | nil => exact bidirFinish_pathInv M sched s ⟨hqf, hqb, hvf, hvb⟩
  | cons current brest =>
    dsimp only
    have hcur : ChainInv M.target s.backward_visited current := by
      apply hqb current
      rw [hbq]
      exact List.mem_cons_self _ _
    cases hmeet : s.forward_visited current.pos with
    | some fnode =>
      intro path hp
      injection hp with hp
      subst hp
      obtain ⟨hfpos, hfchain⟩ := hvf current.pos fnode hmeet
      rw [reconstruct_path_eq fnode, reconstruct_path_eq current]
      have hflast : (chainList fnode).getLast? = some current.pos := by
        rw [chainList_getLast, hfpos]
      have hres := assembled_path_ok M.start M.target current.pos
        (chainList fnode) (chainList current)
        hfchain.1 hfchain.2.1 hfchain.2.2.1 hflast
        hcur.1 hcur.2.1 hcur.2.2.1 (chainList_getLast current)
      exact ⟨hres.1, hres.2.1, hres.2.2.1, hres.2.2.2⟩
    | none =>
      have hqrest : ∀ n ∈ brest, ChainInv M.target s.backward_visited n := by
        intro n hn
        apply hqb n
        rw [hbq]
        exact List.mem_cons_of_mem _ hn
      have hinv := bidirExpand_pathInv M M.start M.target current
        (get_neighbors M (if current.pos ≠ M.target then
            markCell s.gs current.pos CellType.EXPLORED else s.gs).grid current)
        (if current.pos ≠ M.target then
            markCell s.gs current.pos CellType.EXPLORED else s.gs)
        s.backward_visited brest
        (fun n hn => ⟨get_neighbors_chain M _ current n hn,
          get_neighbors_adj M _ current n hn⟩)
        hcur hqrest hvb
      rcases hbe : bidirExpand M M.start _ (_, s.backward_visited, brest) with ⟨a, bc⟩
      rcases bc with ⟨b, c⟩
      rw [hbe] at hinv
      exact bidirFinish_pathInv M sched _ ⟨hqf, hinv.1, hvf, hinv.2.1⟩

/-- One bidirectional step preserves the chain invariant, and a path
returned on a forward meet satisfies `C6Path`. -/
theorem bidirStep_pathInv (M : Model) (sched : Sched) (s : BidirState)
    (h : BidirPathInv M s) : BidirDoneOK M (bidirStep M sched s) := by
  obtain ⟨hqf, hqb, hvf, hvb⟩ := h
  unfold bidirStep
  by_cases h1 : ((s.forward_queue.isEmpty && s.backward_queue.isEmpty) || s.paused) = true
  · rw [if_pos h1]
    intro path hp
    exact Option.noConfusion hp
  · rw [if_neg h1]
    cases hq : s.forward_queue with
    | nil =>
      exact bidirBackward_pathInv M sched _
        ⟨fun n hn => absurd hn (List.not_mem_nil n), hqb, hvf, hvb⟩
    | cons current frest =>
      dsimp only
      have hcur : ChainInv M.start s.forward_visited current := by
        apply hqf current
        rw [hq]
        exact List.mem_cons_self _ _
      cases hmeet : s.backward_visited current.pos with
      | some bnode =>
        intro path hp
        injection hp with hp
        subst hp
        obtain ⟨hbpos, hbchain⟩ := hvb current.pos bnode hmeet
        rw [reconstruct_path_eq current, reconstruct_path_eq bnode]
        have hblast : (chainList bnode).getLast? = some current.pos := by
          rw [chainList_getLast, hbpos]
        have hres := assembled_path_ok M.start M.target current.pos
          (chainList current) (chainList bnode)
          hcur.1 hcur.2.1 hcur.2.2.1 (chainList_getLast current)
          hbchain.1 hbchain.2.1 hbchain.2.2.1 hblast
        exact ⟨hres.1, hres.2.1, hres.2.2.1, hres.2.2.2⟩
      | none =>
        have hqrest : ∀ n ∈ frest, ChainInv M.start s.forward_visited n := by
          intro n hn
          apply hqf n
          rw [hq]
          exact List.mem_cons_of_mem _ hn
        have hinv := bidirExpand_pathInv M M.target M.start current
          (get_neighbors M (if current.pos ≠ M.start then
              markCell (add_dynamic_obstacle M s.gs (sched.rand s.k).1
                (sched.rand s.k).2).1 current.pos CellType.EXPLORED
            else (add_dynamic_obstacle M s.gs (sched.rand s.k).1
                (sched.rand s.k).2).1).grid current)
          (if current.pos ≠ M.start then
              markCell (add_dynamic_obstacle M s.gs (sched.rand s.k).1
                (sched.rand s.k).2).1 current.pos CellType.EXPLORED
            else (add_dynamic_obstacle M s.gs (sched.rand s.k).1
                (sched.rand s.k).2).1)
          s.forward_visited frest
          (fun n hn => ⟨get_neighbors_chain M _ current n hn,
            get_neighbors_adj M _ current n hn⟩)
          hcur hqrest hvf
        rcases hbe : bidirExpand M M.target _ (_, s.forward_visited, frest) with ⟨a, bc⟩
        rcases bc with ⟨b, c⟩
        rw [hbe] at hinv
        exact bidirBackward_pathInv M sched _ ⟨hinv.1, hqb, hinv.2.1, hvb⟩

theorem bidirInit_pathInv (M : Model) (gs : GState) : BidirPathInv M (bidirInit M gs) := by
  unfold bidirInit
  dsimp only
  have hstart : ChainInv M.start
      (fun p => if p = (Node.mk M.start.1 M.start.2 0 none).pos
        then some (Node.mk M.start.1 M.start.2 0 none) else none)
      (Node.mk M.start.1 M.start.2 0 none) := by
    refine ⟨rfl, List.chain'_singleton _, List.nodup_singleton _, ?_⟩
    intro q hq
    have hq2 : q ∈ [(M.start.1, M.start.2)] := hq
    rw [List.mem_singleton] at hq2
    subst hq2
    show (if (M.start.1, M.start.2) = (Node.mk M.start.1 M.start.2 0 none).pos
        then some (Node.mk M.start.1 M.start.2 0 none) else none) ≠ none
    simp [node_pos_eq, Node.x, Node.y]
  have htarget : ChainInv M.target
      (fun p => if p = (Node.mk M.target.1 M.target.2 0 none).pos
        then some (Node.mk M.target.1 M.target.2 0 none) else none)
      (Node.mk M.target.1 M.target.2 0 none) := by
    refine ⟨rfl, List.chain'_singleton _, List.nodup_singleton _, ?_⟩
    intro q hq
    have hq2 : q ∈ [(M.target.1, M.target.2)] := hq
    rw [List.mem_singleton] at hq2
    subst hq2
    show (if (M.target.1, M.target.2) = (Node.mk M.target.1 M.target.2 0 none).pos
        then some (Node.mk M.target.1 M.target.2 0 none) else none) ≠ none
    simp [node_pos_eq, Node.x, Node.y]
  refine ⟨?_, ?_, ?_, ?_⟩
  · intro n hn
    rw [List.mem_singleton] at hn
    subst hn
    exact hstart
  · intro n hn
    rw [List.mem_singleton] at hn
    subst hn
    exact htarget
  · intro p n hpn
    have hpn2 : (if p = (Node.mk M.start.1 M.start.2 0 none).pos
        then some (Node.mk M.start.1 M.start.2 0 none) else none) = some n := hpn
    by_cases hpe : p = (Node.mk M.start.1 M.start.2 0 none).pos
    · rw [if_pos hpe] at hpn2
      injection hpn2 with hpn2
      subst hpn2
      exact ⟨hpe.symm, hstart⟩
    · rw [if_neg hpe] at hpn2
      exact Option.noConfusion hpn2
  · intro p n hpn
    have hpn2 : (if p = (Node.mk M.target.1 M.target.2 0 none).pos
        then some (Node.mk M.target.1 M.target.2 0 none) else none) = some n := hpn
    by_cases hpe : p = (Node.mk M.target.1 M.target.2 0 none).pos
    · rw [if_pos hpe] at hpn2
      injection hpn2 with hpn2
      subst hpn2
      exact ⟨hpe.symm, htarget⟩
    · rw [if_neg hpe] at hpn2
      exact Option.noConfusion hpn2

theorem bidirRun_C6 (M : Model) (sched : Sched) :
    ∀ (fuel : Nat) (s : BidirState), BidirPathInv M s →
      ∀ (path : List Pos) (gsf : GState),
        loopRun (bidirStep M sched) fuel s = some (some path, gsf) →
        C6Path M path := by
  intro fuel
  induction fuel with
  | zero => intro s _ path gsf h; exact Option.noConfusion h
  | succ fuel2 ih =>
    intro s hinv path gsf h
    unfold loopRun at h
    have hstep := bidirStep_pathInv M sched s hinv
    cases hs : bidirStep M sched s with
    | done r g =>
      rw [hs] at h hstep
      have h2 : (r, g) = (some path, gsf) := by
        injection h
      have hr : r = some path := congrArg Prod.fst h2
      exact hstep path hr
    | cont s2 =>
      rw [hs] at h hstep
      exact ih s2 hstep path gsf h

/-- C6: whenever `bidirectional_search` returns a path (one frontier
dequeued a position in the other side's visited map), the assembled path
— forward half to the meeting cell plus reversed backward half without
its head — begins at the start, ends at the target, moves by
eight-connected steps, and contains the meeting cell exactly once. -/
theorem C6_bidirectional_path_assembly (M : Model) (sched : Sched) (gs0 : GState)
    (fuel : Nat) (path : List Pos)
    (h : bidir_result M sched gs0 fuel = some (some path)) :
    path.head? = some M.start ∧ path.getLast? = some M.target ∧
    List.Chain' Adj path ∧
    ∃ meet l1 l2, path = l1 ++ meet :: l2 ∧ meet ∉ l1 ∧ meet ∉ l2 := by
  unfold bidir_result at h
  rw [Option.map_eq_some'] at h
  obtain ⟨⟨r, gsf⟩, h1, h2⟩ := h
  have hr : r = some path := h2
  subst hr
  unfold bidirectional_search at h1
  exact bidirRun_C6 M sched fuel (bidirInit M gs0) (bidirInit_pathInv M gs0) path gsf h1

/-- Witness for C6: the bidirectional run on the 1×6 corridor returns the
corridor path, which indeed runs start to target by single steps with a
unique meeting cell. -/
theorem C6_bidirectional_path_assembly_witness :
    bidir_result lineM6 trivSched lineGS6 12 =
      some (some [((0 : Int), (0 : Int)), (0, 1), (0, 2), (0, 3), (0, 4), (0, 5)]) ∧
    ([((0 : Int), (0 : Int)), (0, 1), (0, 2), (0, 3), (0, 4), (0, 5)] : List Pos).head? =
      some lineM6.start ∧
    ([((0 : Int), (0 : Int)), (0, 1), (0, 2), (0, 3), (0, 4), (0, 5)] :
      List Pos).getLast? = some lineM6.target ∧
    List.Chain' Adj [((0 : Int), (0 : Int)), (0, 1), (0, 2), (0, 3), (0, 4), (0, 5)] ∧
    ∃ meet l1 l2,
      [((0 : Int), (0 : Int)), (0, 1), (0, 2), (0, 3), (0, 4), (0, 5)] =
        l1 ++ meet :: l2 ∧ meet ∉ l1 ∧ meet ∉ l2 :=
  ⟨by decide,
   C6_bidirectional_path_assembly lineM6 trivSched lineGS6 12
     [((0 : Int), (0 : Int)), (0, 1), (0, 2), (0, 3), (0, 4), (0, 5)] (by decide)⟩

/-! ## UCS optimality (C1) -/

theorem listCost_concat : ∀ (l : List Pos) (u r : Pos), l.getLast? = some u →
    listCost (l ++ [r]) = listCost l + stepCost u r := by
  intro l
  induction l with
  | nil => intro u r h; exact Option.noConfusion h
  | cons a t ih =>
    intro u r h
    cases t with
    | nil =>
      have h2 : some a = some u := h
      injection h2 with h2
      subst h2
      simp only [List.cons_append, List.nil_append, listCost]
      omega
    | cons b t2 =>
      rw [List.getLast?_cons_cons] at h
      have h3 := ih u r h
      simp only [List.cons_append, List.append_eq, listCost] at h3 ⊢
      omega

theorem listCost_prefix_le : ∀ (l1 : List Pos) (r : Pos) (p2 : List Pos),
    listCost (l1 ++ [r]) ≤ listCost (l1 ++ r :: p2) := by
  intro l1
  induction l1 with
  | nil =>
    intro r p2
    exact Nat.zero_le _
  | cons a t ih =>
    intro r p2
    cases t with
    | nil =>
      simp only [List.cons_append, List.nil_append, listCost]
      omega
    | cons b t2 =>
      have h3 := ih r p2
      simp only [List.cons_append, List.append_eq, listCost] at h3 ⊢
      omega

theorem heappop_mem (l : List Node) (h : l ≠ []) : (heappop l).1 ∈ l := by
  rw [heappop_fst l h]
  cases l with
  | nil => exact absurd rfl h
  | cons a t => exact List.mem_cons_self _ _

theorem heappop_mem_rest (l : List Node) (h : l ≠ []) (n : Node) (hn : n ∈ l)
    (hne : n ≠ (heappop l).1) : n ∈ (heappop l).2 := by
  have hperm := heappop_perm l h
  rw [heappop_fst l h] at hne
  cases l with
  | nil => exact absurd rfl h
  | cons a t =>
    rcases List.mem_cons.mp hn with h1 | h1
    · exact absurd h1 hne
    · exact hperm.mem_iff.mpr h1

theorem heappush_mem_mono (l : List Node) (x n : Node) (h : n ∈ l) :
    n ∈ heappush l x :=
  (heappush_perm l x).mem_iff.mpr (List.mem_cons_of_mem _ h)

theorem heappush_mem_self (l : List Node) (x : Node) : x ∈ heappush l x :=
  (heappush_perm l x).mem_iff.mpr (List.mem_cons_self _ _)

theorem get_neighbors_cost (M : Model) (g : GridMap) (cur nb : Node)
    (h : nb ∈ get_neighbors M g cur) : nb.cost = cur.cost + stepCost cur.pos nb.pos := by
  rcases cur with ⟨x, y, c, pr⟩
  unfold get_neighbors at h
  rw [List.mem_filterMap] at h
  obtain ⟨d, hdmem, hd⟩ := h
  simp only [Node.x, Node.y] at hd
  by_cases hv : is_valid_position M g (x + d.1) (y + d.2)
  · rw [if_pos hv] at hd
    cases hd
    show c + moveCost d.1 d.2 = c + moveCost (x + d.1 - x) (y + d.2 - y)
    rw [show x + d.1 - x = d.1 by ring, show y + d.2 - y = d.2 by ring]
  · rw [if_neg hv] at hd
    cases hd

theorem first_unvisited_split (V : List Pos) :
    ∀ (p : List Pos) (q : Pos), q ∈ p → q ∉ V →
      ∃ p1 r p2, p = p1 ++ r :: p2 ∧ (∀ x ∈ p1, x ∈ V) ∧ r ∉ V := by
  intro p
  induction p with
  | nil => intro q hq; exact absurd hq (List.not_mem_nil q)
  | cons a t ih =>
    intro q hq hqv
    by_cases hav : a ∈ V
    · have hqt : q ∈ t := by
        rcases List.mem_cons.mp hq with h1 | h1
        · exact absurd (h1 ▸ hqv) (fun hh => hh hav)
        · exact h1
      obtain ⟨p1, r, p2, heq, hall, hr⟩ := ih q hqt hqv
      refine ⟨a :: p1, r, p2, by rw [heq]; rfl, ?_, hr⟩
      intro x hx
      rcases List.mem_cons.mp hx with h1 | h1
      · exact h1 ▸ hav
      · exact hall x h1
    · exact ⟨[], a, t, rfl, fun x hx => absurd hx (List.not_mem_nil x), hav⟩

theorem getLast?_mem {α : Type} : ∀ (l : List α) (a : α), l.getLast? = some a → a ∈ l := by
  intro l
  induction l with
  | nil => intro a h; exact Option.noConfusion h
  | cons b t ih =>
    intro a h
    cases t with
    | nil =>
      have h2 : some b = some a := h
      injection h2 with h2
      exact h2 ▸ List.mem_cons_self _ _
    | cons c t2 =>
      rw [List.getLast?_cons_cons] at h
      exact List.mem_cons_of_mem _ (ih a h)

theorem getLast?_some_of_ne_nil {α : Type} : ∀ (l : List α), l ≠ [] →
    ∃ a, l.getLast? = some a := by
  intro l
  induction l with
  | nil => intro h; exact absurd rfl h
  | cons b t ih =>
    intro _
    cases t with
    | nil => exact ⟨b, rfl⟩
    | cons c t2 =>
      obtain ⟨a, ha⟩ := ih (by simp)
      exact ⟨a, by rw [List.getLast?_cons_cons]; exact ha⟩

/-- Dijkstra boundary: at any invariant state, every passable path to an
unvisited position is matched in cost by some queue node. -/
theorem ucs_boundary (M : Model) (gs0 : GState) (s : UcsState)
    (hinv : UcsInv M gs0 s) (q : Pos) (hq : q ∉ s.visited) (p : List Pos)
    (hp : PathTo M gs0.grid q p) :
    ∃ n ∈ s.priority_queue, n.cost ≤ listCost p := by
  obtain ⟨hph, hpl, hpc, hpv⟩ := hp
  have hqmem : q ∈ p := getLast?_mem p q hpl
  obtain ⟨p1, r, p2, heq, hall, hr⟩ := first_unvisited_split s.visited p q hqmem hq
  subst heq
  rcases p1 with _ | ⟨a1, t1⟩
  · have hrs : r = M.start := by
      have h2 : some r = some M.start := hph
      exact Option.some.inj h2
    rcases hinv.startOk with hs1 | ⟨n, hn, hnp, hnc⟩
    · exact absurd (hrs ▸ hs1) hr
    · exact ⟨n, hn, by rw [hnc]; exact Nat.zero_le _⟩
  · obtain ⟨u, hu⟩ := getLast?_some_of_ne_nil (a1 :: t1) (by simp)
    have humem : u ∈ a1 :: t1 := getLast?_mem _ _ hu
    have huv : u ∈ s.visited := hall u humem
    have hp1path : PathTo M gs0.grid u (a1 :: t1) := by
      refine ⟨hph, hu, (List.chain'_append.mp hpc).1, ?_⟩
      intro x hx
      exact hpv x (List.mem_append_left _ hx)
    obtain ⟨cu, hcu, hcumin⟩ := hinv.closedMin u huv
    have hadj : Adj u r := by
      have h3 := (List.chain'_append.mp hpc).2.2
      exact h3 u (Option.mem_def.mpr hu) r (Option.mem_def.mpr rfl)
    have hrval : is_valid_position M gs0.grid r.1 r.2 = true :=
      hpv r (List.mem_append_right _ (List.mem_cons_self _ _))
    obtain ⟨m, hm, hmle⟩ := hinv.relaxed u huv cu hcu r hadj hrval hr
    obtain ⟨n, hn, hnp, hnc⟩ := hinv.openQueue r hr m hm
    refine ⟨n, hn, ?_⟩
    have h4 : cu ≤ listCost (a1 :: t1) := hcumin _ hp1path
    have h5 : listCost ((a1 :: t1) ++ [r]) = listCost (a1 :: t1) + stepCost u r :=
      listCost_concat _ u r hu
    have h6 : listCost ((a1 :: t1) ++ [r]) ≤ listCost ((a1 :: t1) ++ r :: p2) :=
      listCost_prefix_le _ r p2
    omega

/-- The relaxation loop of `uniform_cost_search`: the profile and heap
shape are preserved, queue entries persist, closed costs are untouched,
open costs only decrease, every recorded open cost is matched in the
queue, and every valid unvisited listed neighbor ends with a recorded
cost no worse than its own. -/
theorem ucsExpand_inv (M : Model) (gs0 : GState) (visited2 : List Pos) (cur : Node) :
    ∀ (ns : List Node) (gs : GState) (costs : Pos → Option Nat) (pq : List Node),
      sameProfile gs0.grid gs.grid →
      HeapInv pq →
      (∀ n ∈ ns, chainList n = chainList cur ++ [n.pos] ∧ Adj cur.pos n.pos ∧
        n.cost = cur.cost + stepCost cur.pos n.pos) →
      NodeSound M gs0.grid cur →
      (∀ n ∈ pq, NodeSound M gs0.grid n) →
      (∀ r, r ∉ visited2 → ∀ m, costs r = some m → ∃ n ∈ pq, n.pos = r ∧ n.cost ≤ m) →
      (∀ n ∈ pq, n.pos ∉ visited2 → ∃ m, costs n.pos = some m ∧ m ≤ n.cost) →
      sameProfile gs0.grid (ucsExpand M visited2 ns (gs, costs, pq)).1.grid ∧
      HeapInv (ucsExpand M visited2 ns (gs, costs, pq)).2.2 ∧
      (∀ n ∈ pq, n ∈ (ucsExpand M visited2 ns (gs, costs, pq)).2.2) ∧
      (∀ x ∈ visited2, (ucsExpand M visited2 ns (gs, costs, pq)).2.1 x = costs x) ∧
      (∀ x m, costs x = some m →
        ∃ m3, (ucsExpand M visited2 ns (gs, costs, pq)).2.1 x = some m3 ∧ m3 ≤ m) ∧
      (∀ n ∈ (ucsExpand M visited2 ns (gs, costs, pq)).2.2, NodeSound M gs0.grid n) ∧
      (∀ r, r ∉ visited2 → ∀ m, (ucsExpand M visited2 ns (gs, costs, pq)).2.1 r = some m →
        ∃ n ∈ (ucsExpand M visited2 ns (gs, costs, pq)).2.2, n.pos = r ∧ n.cost ≤ m) ∧
      (∀ n ∈ (ucsExpand M visited2 ns (gs, costs, pq)).2.2, n.pos ∉ visited2 →
        ∃ m, (ucsExpand M visited2 ns (gs, costs, pq)).2.1 n.pos = some m ∧ m ≤ n.cost) ∧
      (∀ n ∈ ns, n.pos ∉ visited2 →
        is_valid_position M gs0.grid n.pos.1 n.pos.2 = true →
        ∃ m3, (ucsExpand M visited2 ns (gs, costs, pq)).2.1 n.pos = some m3 ∧
          m3 ≤ n.cost) := by
  intro ns
  induction ns with
  | nil =>
    intro gs costs pq hprof hheap _ _ hsound hoq hoc
    exact ⟨hprof, hheap, fun n hn => hn, fun x _ => rfl,
      fun x m hm => ⟨m, hm, Nat.le_refl m⟩, hsound, hoq, hoc,
      fun n hn => absurd hn (List.not_mem_nil n)⟩
  | cons nb more ih =>
    intro gs costs pq hprof hheap hns hcur hsound hoq hoc
    unfold ucsExpand
    dsimp only
    by_cases hc : nb.pos ∉ visited2 ∧ is_valid_position M gs.grid nb.x nb.y
    · rw [if_pos hc]
      have hnbval0 : is_valid_position M gs0.grid nb.pos.1 nb.pos.2 = true := by
        rw [node_pos_eq]
        exact (valid_sameProfile M hprof nb.x nb.y).mpr hc.2
      have hprof2 : sameProfile gs0.grid
          (if nb.pos ≠ M.target then markCell gs nb.pos CellType.FRONTIER else gs).grid := by
        by_cases ht : nb.pos ≠ M.target
        · rw [if_pos ht]
          have hv0 := hnbval0
          rw [is_valid_position_spec] at hv0
          refine sameProfile_trans hprof (updGrid_sameProfile _ _ _ ?_ ?_
            (by intro hh; cases hh) (by intro hh; cases hh))
          · exact fun hc2 => hv0.2.2.2.2.1 (((hprof nb.pos).1).mpr hc2)
          · exact fun hc2 => hv0.2.2.2.2.2 (((hprof nb.pos).2).mpr hc2)
        · rw [if_neg ht]; exact hprof
      have hnbsound : NodeSound M gs0.grid nb := by
        obtain ⟨hchain, hadj, hcost⟩ := hns nb (List.mem_cons_self _ _)
        obtain ⟨⟨hch1, hch2, hch3, hch4⟩, hccost⟩ := hcur
        constructor
        · refine ⟨?_, ?_, ?_, ?_⟩
          · rw [hchain]
            exact head?_append_left _ _ _ hch1
          · rw [hchain, List.getLast?_concat]
          · rw [hchain, List.chain'_append]
            refine ⟨hch3, List.chain'_singleton _, ?_⟩
            intro x hx y hy
            rw [chainList_getLast] at hx
            simp only [Option.mem_def, Option.some_inj, List.head?_cons] at hx hy
            rw [← hx, ← hy]
            exact hadj
          · rw [hchain]
            intro x hx
            rcases List.mem_append.mp hx with hx1 | hx1
            · exact hch4 x hx1
            · rw [List.mem_singleton.mp hx1]
              exact hnbval0
        · rw [hchain, listCost_concat _ cur.pos nb.pos (chainList_getLast cur), hccost,
            hcost]
      cases hcp : costs nb.pos with
      | none =>
        rw [if_pos (by rfl)]
        have hih := ih (if nb.pos ≠ M.target then markCell gs nb.pos CellType.FRONTIER
            else gs)
          (fun q => if q = nb.pos then some nb.cost else costs q) (heappush pq nb)
          hprof2 (heappush_heapInv pq nb hheap)
          (fun n hn => hns n (List.mem_cons_of_mem _ hn)) hcur
          (fun n hn => by
            rcases List.mem_cons.mp ((heappush_perm pq nb).mem_iff.mp hn) with h1 | h1
            · rw [h1]; exact hnbsound
            · exact hsound n h1)
          (fun r hrv m hm => by
            have hm2 : (if r = nb.pos then some nb.cost else costs r) = some m := hm
            by_cases hre : r = nb.pos
            · rw [if_pos hre] at hm2
              injection hm2 with hm2
              exact ⟨nb, heappush_mem_self pq nb, hre.symm, Nat.le_of_eq hm2⟩
            · rw [if_neg hre] at hm2
              obtain ⟨n, hn1, hn2, hn3⟩ := hoq r hrv m hm2
              exact ⟨n, heappush_mem_mono pq nb n hn1, hn2, hn3⟩)
          (fun n hn hnv => by
            rcases List.mem_cons.mp ((heappush_perm pq nb).mem_iff.mp hn) with h1 | h1
            · subst h1
              refine ⟨n.cost, ?_, Nat.le_refl _⟩
              show (if n.pos = n.pos then some n.cost else costs n.pos) = some n.cost
              rw [if_pos rfl]
            · obtain ⟨m, hm1, hm2⟩ := hoc n h1 hnv
              by_cases hne : n.pos = nb.pos
              · rw [hne, hcp] at hm1
                exact Option.noConfusion hm1
              · refine ⟨m, ?_, hm2⟩
                show (if n.pos = nb.pos then some nb.cost else costs n.pos) = some m
                rw [if_neg hne]
                exact hm1)
        obtain ⟨o1, o2, o3, o4, o5, o6, o7, o8, o9⟩ := hih
        refine ⟨o1, o2, ?_, ?_, ?_, o6, o7, o8, ?_⟩
        · intro n hn
          exact o3 n (heappush_mem_mono pq nb n hn)
        · intro x hx
          rw [o4 x hx]
          show (if x = nb.pos then some nb.cost else costs x) = costs x
          rw [if_neg (fun he => hc.1 (by rw [he] at hx; exact hx))]
        · intro x m hm
          by_cases hxe : x = nb.pos
          · rw [hxe, hcp] at hm
            exact Option.noConfusion hm
          · have h2 : (if x = nb.pos then some nb.cost else costs x) = some m := by
              rw [if_neg hxe]
              exact hm
            exact o5 x m h2
        · intro n hn hnv hnval
          rcases List.mem_cons.mp hn with h1 | h1
          · subst h1
            have h2 : (if n.pos = n.pos then some n.cost else costs n.pos) =
                some n.cost := by rw [if_pos rfl]
            obtain ⟨m3, hm3, hm4⟩ := o5 n.pos n.cost h2
            exact ⟨m3, hm3, hm4⟩
          · exact o9 n h1 hnv hnval
      | some c =>
        by_cases hlt : nb.cost < c
        · rw [if_pos (decide_eq_true hlt)]
          have hih := ih (if nb.pos ≠ M.target then markCell gs nb.pos CellType.FRONTIER
              else gs)
            (fun q => if q = nb.pos then some nb.cost else costs q) (heappush pq nb)
            hprof2 (heappush_heapInv pq nb hheap)
            (fun n hn => hns n (List.mem_cons_of_mem _ hn)) hcur
            (fun n hn => by
              rcases List.mem_cons.mp ((heappush_perm pq nb).mem_iff.mp hn) with h1 | h1
              · rw [h1]; exact hnbsound
              · exact hsound n h1)
            (fun r hrv m hm => by
              have hm2 : (if r = nb.pos then some nb.cost else costs r) = some m := hm
              by_cases hre : r = nb.pos
              · rw [if_pos hre] at hm2
                injection hm2 with hm2
                exact ⟨nb, heappush_mem_self pq nb, hre.symm, Nat.le_of_eq hm2⟩
              · rw [if_neg hre] at hm2
                obtain ⟨n, hn1, hn2, hn3⟩ := hoq r hrv m hm2
                exact ⟨n, heappush_mem_mono pq nb n hn1, hn2, hn3⟩)
            (fun n hn hnv => by
              rcases List.mem_cons.mp ((heappush_perm pq nb).mem_iff.mp hn) with h1 | h1
              · subst h1
                refine ⟨n.cost, ?_, Nat.le_refl _⟩
                show (if n.pos = n.pos then some n.cost else costs n.pos) = some n.cost
                rw [if_pos rfl]
              · obtain ⟨m, hm1, hm2⟩ := hoc n h1 hnv
                by_cases hne : n.pos = nb.pos
                · refine ⟨nb.cost, ?_, ?_⟩
                  · show (if n.pos = nb.pos then some nb.cost else costs n.pos) =
                        some nb.cost
                    rw [if_pos hne]
                  · rw [hne, hcp] at hm1
                    injection hm1 with hm1
                    omega
                · refine ⟨m, ?_, hm2⟩
                  show (if n.pos = nb.pos then some nb.cost else costs n.pos) = some m
                  rw [if_neg hne]
                  exact hm1)
          obtain ⟨o1, o2, o3, o4, o5, o6, o7, o8, o9⟩ := hih
          refine ⟨o1, o2, ?_, ?_, ?_, o6, o7, o8, ?_⟩
          · intro n hn
            exact o3 n (heappush_mem_mono pq nb n hn)
          · intro x hx
            rw [o4 x hx]
            show (if x = nb.pos then some nb.cost else costs x) = costs x
            rw [if_neg (fun he => hc.1 (by rw [he] at hx; exact hx))]
          · intro x m hm
            by_cases hxe : x = nb.pos
            · subst hxe
              rw [hcp] at hm
              injection hm with hm
              have h2 : (if nb.pos = nb.pos then some nb.cost else costs nb.pos) =
                  some nb.cost := by
                rw [if_pos rfl]
              obtain ⟨m3, hm3, hm4⟩ := o5 nb.pos nb.cost h2
              exact ⟨m3, hm3, by omega⟩
            · have h2 : (if x = nb.pos then some nb.cost else costs x) = some m := by
                rw [if_neg hxe]
                exact hm
              exact o5 x m h2
          · intro n hn hnv hnval
            rcases List.mem_cons.mp hn with h1 | h1
            · subst h1
              have h2 : (if n.pos = n.pos then some n.cost else costs n.pos) =
                  some n.cost := by rw [if_pos rfl]
              obtain ⟨m3, hm3, hm4⟩ := o5 n.pos n.cost h2
              exact ⟨m3, hm3, hm4⟩
            · exact o9 n h1 hnv hnval
        · rw [if_neg (fun hh => hlt (of_decide_eq_true hh))]
          have hih := ih gs costs pq hprof hheap
            (fun n hn => hns n (List.mem_cons_of_mem _ hn)) hcur hsound hoq hoc
          obtain ⟨o1, o2, o3, o4, o5, o6, o7, o8, o9⟩ := hih
          refine ⟨o1, o2, o3, o4, o5, o6, o7, o8, ?_⟩
          intro n hn hnv hnval
          rcases List.mem_cons.mp hn with h1 | h1
          · subst h1
            obtain ⟨m3, hm3, hm4⟩ := o5 n.pos c hcp
            exact ⟨m3, hm3, by omega⟩
          · exact o9 n h1 hnv hnval
    · rw [if_neg hc]
      have hih := ih gs costs pq hprof hheap
        (fun n hn => hns n (List.mem_cons_of_mem _ hn)) hcur hsound hoq hoc
      obtain ⟨o1, o2, o3, o4, o5, o6, o7, o8, o9⟩ := hih
      refine ⟨o1, o2, o3, o4, o5, o6, o7, o8, ?_⟩
      intro n hn hnv hnval
      rcases List.mem_cons.mp hn with h1 | h1
      · subst h1
        exfalso
        apply hc
        constructor
        · exact hnv
        · have h2 := (valid_sameProfile M hprof n.pos.1 n.pos.2).mp hnval
          rw [node_pos_eq] at h2
          exact h2
      · exact o9 n h1 hnv hnval

/-- One `ucsStep` under the invariant, with the target still open and
reachable: the step either returns a minimum-cost path to the target or
continues in an invariant state with strictly smaller measure. -/
theorem ucsStep_cases (M : Model) (sched : Sched) (gs0 : GState)
    (henable : M.enable_dynamic_obstacles = false)
    (hev : ∀ k, sched.events k = [])
    (s : UcsState) (hinv : UcsInv M gs0 s)
    (htv : M.target ∉ s.visited)
    (hconn : ∃ p, PathTo M gs0.grid M.target p) :
    (∃ path gsf, ucsStep M sched s = .done (some path) gsf ∧
      PathTo M gs0.grid M.target path ∧
      ∀ q, PathTo M gs0.grid M.target q → listCost path ≤ listCost q) ∨
    (∃ s2, ucsStep M sched s = .cont s2 ∧ UcsInv M gs0 s2 ∧
      M.target ∉ s2.visited ∧
      ((s2.visited = s.visited ∧
        s2.priority_queue.length < s.priority_queue.length) ∨
       s2.visited.length = s.visited.length + 1)) := by
  obtain ⟨pc, hpc⟩ := hconn
  have hqne : s.priority_queue ≠ [] := by
    obtain ⟨n, hn, _⟩ := ucs_boundary M gs0 s hinv M.target htv pc hpc
    intro hq
    rw [hq] at hn
    exact List.not_mem_nil n hn
  have hguard : (s.priority_queue.isEmpty || s.paused) = false := by
    rw [hinv.np]
    cases hql : s.priority_queue with
    | nil => exact absurd hql hqne
    | cons a t => rfl
  unfold ucsStep
  rw [if_neg (by intro hh; rw [hguard] at hh; cases hh)]
  rw [add_dynamic_obstacle_enable_false M s.gs (sched.rand s.kr).1 (sched.rand s.kr).2
    henable]
  dsimp only
  rcases hpop : heappop s.priority_queue with ⟨current, rest⟩
  dsimp only
  have hcurmem : current ∈ s.priority_queue := by
    have h2 := heappop_mem s.priority_queue hqne
    rw [hpop] at h2
    exact h2
  have hcurmin : ∀ m ∈ s.priority_queue, current.cost ≤ m.cost := by
    have h2 := heappop_min s.priority_queue hinv.heap hqne
    rw [hpop] at h2
    exact h2
  have hrest_heap : HeapInv rest := by
    have h2 := heappop_heapInv s.priority_queue hinv.heap
    rw [hpop] at h2
    exact h2
  have hrestof : ∀ n ∈ s.priority_queue, n ≠ current → n ∈ rest := by
    intro n hn hne
    have h2 := heappop_mem_rest s.priority_queue hqne n hn (by rw [hpop]; exact hne)
    rw [hpop] at h2
    exact h2
  have hrest_sub : ∀ n ∈ rest, n ∈ s.priority_queue := by
    intro n hn
    have h2 : n ∈ (heappop s.priority_queue).2 := by rw [hpop]; exact hn
    have h3 := (heappop_perm s.priority_queue hqne).mem_iff.mp h2
    exact List.mem_of_mem_tail h3
  have hrest_len : rest.length < s.priority_queue.length := by
    have h2 := (heappop_perm s.priority_queue hqne).length_eq
    rw [hpop] at h2
    cases hql : s.priority_queue with
    | nil => exact absurd hql hqne
    | cons a t =>
      rw [hql] at h2
      simp only [List.length_cons, List.tail_cons] at h2 ⊢
      omega
  by_cases hcv : current.pos ∈ s.visited
  · rw [if_pos hcv]
    right
    refine ⟨_, rfl, ?_, htv, Or.inl ⟨rfl, hrest_len⟩⟩
    refine ⟨hinv.prof, hinv.np, hrest_heap, ?_, hinv.closedMin, hinv.relaxed,
      ?_, ?_, ?_, hinv.nd, hinv.vb⟩
    · intro n hn
      exact hinv.sound n (hrest_sub n hn)
    · intro r hr m hm
      obtain ⟨n, hn, hnp, hnc⟩ := hinv.openQueue r hr m hm
      refine ⟨n, hrestof n hn ?_, hnp, hnc⟩
      intro hne
      rw [hne] at hnp
      rw [hnp] at hcv
      exact hr hcv
    · intro n hn
      exact hinv.openCost n (hrest_sub n hn)
    · rcases hinv.startOk with h1 | ⟨n, hn, hnp, hnc⟩
      · exact Or.inl h1
      · by_cases hsv : M.start ∈ s.visited
        · exact Or.inl hsv
        · refine Or.inr ⟨n, hrestof n hn ?_, hnp, hnc⟩
          intro hne
          rw [hne] at hnp
          rw [hnp] at hcv
          exact hsv hcv
  · rw [if_neg hcv]
    by_cases hct : current.pos = M.target
    · rw [if_pos hct]
      left
      refine ⟨reconstruct_path current, _, rfl, ?_, ?_⟩
      · rw [reconstruct_path_eq, ← hct]
        exact (hinv.sound current hcurmem).1
      · intro q hq
        rw [reconstruct_path_eq, (hinv.sound current hcurmem).2]
        obtain ⟨n, hn, hnc⟩ := ucs_boundary M gs0 s hinv M.target htv q hq
        have h3 := hcurmin n hn
        omega
    · rw [if_neg hct]
      have hcsound := hinv.sound current hcurmem
      have hcval0 : is_valid_position M gs0.grid current.pos.1 current.pos.2 = true :=
        hcsound.1.2.2.2 current.pos (getLast?_mem _ _ (chainList_getLast current))
      have hprof2 : sameProfile gs0.grid
          (if current.pos ≠ M.start then markCell s.gs current.pos CellType.EXPLORED
           else s.gs).grid := by
        by_cases hcs : current.pos ≠ M.start
        · rw [if_pos hcs]
          have hv0 := hcval0
          rw [is_valid_position_spec] at hv0
          refine sameProfile_trans hinv.prof (updGrid_sameProfile _ _ _ ?_ ?_
            (by intro hh; cases hh) (by intro hh; cases hh))
          · exact fun hc2 => hv0.2.2.2.2.1 (((hinv.prof current.pos).1).mpr hc2)
          · exact fun hc2 => hv0.2.2.2.2.2 (((hinv.prof current.pos).2).mpr hc2)
        · rw [if_neg hcs]; exact hinv.prof
      have hoq2 : ∀ r, r ∉ current.pos :: s.visited → ∀ m, s.costs r = some m →
          ∃ n ∈ rest, n.pos = r ∧ n.cost ≤ m := by
        intro r hr m hm
        have hr2 : r ∉ s.visited := fun hh => hr (List.mem_cons_of_mem _ hh)
        have hr3 : r ≠ current.pos := fun hh => hr (hh ▸ List.mem_cons_self _ _)
        obtain ⟨n, hn, hnp, hnc⟩ := hinv.openQueue r hr2 m hm
        refine ⟨n, hrestof n hn ?_, hnp, hnc⟩
        intro hne
        rw [hne] at hnp
        exact hr3 hnp.symm
      have hoc2 : ∀ n ∈ rest, n.pos ∉ current.pos :: s.visited →
          ∃ m, s.costs n.pos = some m ∧ m ≤ n.cost := by
        intro n hn hnv
        exact hinv.openCost n (hrest_sub n hn)
          (fun hh => hnv (List.mem_cons_of_mem _ hh))
      have hexpinv := ucsExpand_inv M gs0 (current.pos :: s.visited) current
        (get_neighbors M
          (if current.pos ≠ M.start then markCell s.gs current.pos CellType.EXPLORED
           else s.gs).grid current)
        (if current.pos ≠ M.start then markCell s.gs current.pos CellType.EXPLORED
         else s.gs)
        s.costs rest hprof2 hrest_heap
        (fun n hn => ⟨get_neighbors_chain M _ current n hn,
          get_neighbors_adj M _ current n hn, get_neighbors_cost M _ current n hn⟩)
        hcsound
        (fun n hn => hinv.sound n (hrest_sub n hn))
        hoq2 hoc2
      rcases hexp : ucsExpand M (current.pos :: s.visited)
          (get_neighbors M
            (if current.pos ≠ M.start then markCell s.gs current.pos CellType.EXPLORED
             else s.gs).grid current)
          ((if current.pos ≠ M.start then markCell s.gs current.pos CellType.EXPLORED
            else s.gs), s.costs, rest) with ⟨gs3, cp⟩
      rcases cp with ⟨costs3, pq3⟩
      rw [hexp] at hexpinv
      obtain ⟨o1, o2, o3, o4, o5, o6, o7, o8, o9⟩ := hexpinv
      dsimp only at o1 o2 o3 o4 o5 o6 o7 o8 o9
      dsimp only
      rw [hev s.ke]
      dsimp only [handle_events_during_search]
      rw [if_pos rfl]
      -- the closed cost of current equals its popped cost
      obtain ⟨mc, hmc, hmcle⟩ := hinv.openCost current hcurmem hcv
      obtain ⟨n', hn', hn'p, hn'c⟩ := hinv.openQueue current.pos hcv mc hmc
      have hmceq : mc = current.cost := by
        have h3 := hcurmin n' hn'
        omega
      right
      refine ⟨_, rfl, ?_, ?_, Or.inr rfl⟩
      · refine ⟨o1, hinv.np, o2, o6, ?_, ?_, o7, o8, ?_, ?_, ?_⟩
        · -- closedMin
          intro u hu
          dsimp only at hu ⊢
          rcases List.mem_cons.mp hu with h1 | h1
          · subst h1
            refine ⟨mc, ?_, ?_⟩
            · rw [o4 current.pos (List.mem_cons_self _ _)]
              exact hmc
            · intro p hp
              obtain ⟨n2, hn2, hn2c⟩ := ucs_boundary M gs0 s hinv current.pos hcv p hp
              have h3 := hcurmin n2 hn2
              omega
          · obtain ⟨cu, hcu, hmin⟩ := hinv.closedMin u h1
            refine ⟨cu, ?_, hmin⟩
            rw [o4 u (List.mem_cons_of_mem _ h1)]
            exact hcu
        · -- relaxed
          intro u hu cu hcu r hadj hrval hrnv
          dsimp only at hu hcu hrnv ⊢
          rcases List.mem_cons.mp hu with h1 | h1
          · subst h1
            -- u = current.pos; cu = mc = current.cost
            rw [o4 current.pos (List.mem_cons_self _ _), hmc] at hcu
            injection hcu with hcu
            -- find the neighbor node at r
            have hrval2 : is_valid_position M
                (if current.pos ≠ M.start then
                    markCell s.gs current.pos CellType.EXPLORED else s.gs).grid
                r.1 r.2 = true :=
              (valid_sameProfile M hprof2 r.1 r.2).mp hrval
            obtain ⟨nbn, hnbn, hnbnp⟩ := get_neighbors_complete M _ current r hadj hrval2
            obtain ⟨m3, hm3, hm3le⟩ := o9 nbn hnbn (by rw [hnbnp]; exact hrnv)
              (by rw [hnbnp]; exact hrval)
            have hnbc := get_neighbors_cost M _ current nbn hnbn
            refine ⟨m3, by rw [← hnbnp]; exact hm3, ?_⟩
            rw [hnbc, hnbnp] at hm3le
            omega
          · -- u closed earlier
            obtain ⟨cuo, hcuo, hmin⟩ := hinv.closedMin u h1
            rw [o4 u (List.mem_cons_of_mem _ h1), hcuo] at hcu
            injection hcu with hcu
            have hrnv2 : r ∉ s.visited := fun hh => hrnv (List.mem_cons_of_mem _ hh)
            obtain ⟨m, hm, hmle⟩ := hinv.relaxed u h1 cuo hcuo r hadj hrval hrnv2
            obtain ⟨m3, hm3, hm3le⟩ := o5 r m hm
            exact ⟨m3, hm3, by omega⟩
        · -- startOk
          rcases hinv.startOk with h1 | ⟨n, hn, hnp, hnc⟩
          · exact Or.inl (List.mem_cons_of_mem _ h1)
          · by_cases hne : n = current
            · left
              rw [← hnp, hne]
              exact List.mem_cons_self _ _
            · exact Or.inr ⟨n, o3 n (hrestof n hn hne), hnp, hnc⟩
        · -- nodup
          exact List.nodup_cons.mpr ⟨hcv, hinv.nd⟩
        · -- bounds
          intro u hu
          rcases List.mem_cons.mp hu with h1 | h1
          · rw [h1]
            have hv0 := hcval0
            rw [is_valid_position_spec] at hv0
            exact ⟨hv0.1, hv0.2.1, hv0.2.2.1, hv0.2.2.2.1⟩
          · exact hinv.vb u h1
      · -- target not in new visited
        intro hh
        rcases List.mem_cons.mp hh with h1 | h1
        · exact hct h1.symm
        · exact htv h1

theorem ucsInit_inv (M : Model) (gs0 : GState)
    (hstart : is_valid_position M gs0.grid M.start.1 M.start.2 = true) :
    UcsInv M gs0 (ucsInit M gs0) := by
  unfold ucsInit
  dsimp only
  refine ⟨sameProfile_refl _, rfl, ?_, ?_, ?_, ?_, ?_, ?_, ?_, List.nodup_nil, ?_⟩
  · intro j h1 h2
    simp only [List.length_cons, List.length_nil] at h2
    omega
  · intro n hn
    rw [List.mem_singleton] at hn
    subst hn
    constructor
    · refine ⟨rfl, rfl, List.chain'_singleton _, ?_⟩
      intro r hr
      have hr2 : r ∈ [(M.start.1, M.start.2)] := hr
      rw [List.mem_singleton] at hr2
      subst hr2
      exact hstart
    · rfl
  · intro u hu
    exact absurd hu (List.not_mem_nil u)
  · intro u hu
    exact absurd hu (List.not_mem_nil u)
  · intro r _ m hm
    have hm2 : (if r = (Node.mk M.start.1 M.start.2 0 none).pos then some 0 else none) =
        some m := hm
    by_cases hre : r = (Node.mk M.start.1 M.start.2 0 none).pos
    · rw [if_pos hre] at hm2
      injection hm2 with hm2
      refine ⟨Node.mk M.start.1 M.start.2 0 none, List.mem_cons_self _ _, hre.symm, ?_⟩
      rw [show (Node.mk M.start.1 M.start.2 0 none).cost = 0 from rfl]
      omega
    · rw [if_neg hre] at hm2
      exact Option.noConfusion hm2
  · intro n hn _
    rw [List.mem_singleton] at hn
    subst hn
    refine ⟨0, ?_, Nat.le_refl 0⟩
    show (if (Node.mk M.start.1 M.start.2 0 none).pos =
        (Node.mk M.start.1 M.start.2 0 none).pos then some 0 else none) = some 0
    rw [if_pos rfl]
  · exact Or.inr ⟨Node.mk M.start.1 M.start.2 0 none, List.mem_cons_self _ _,
      start_node_pos M, rfl⟩
  · intro u hu
    exact absurd hu (List.not_mem_nil u)

theorem visited_length_le (M : Model) (v : List Pos) (hnd : v.Nodup)
    (hb : ∀ u ∈ v, inBounds M u) : v.length ≤ M.rows * M.cols := by
  classical
  have h1 : v.toFinset ⊆
      (Finset.Ico (0 : Int) (M.rows : Int)) ×ˢ (Finset.Ico (0 : Int) (M.cols : Int)) := by
    intro x hx
    rw [List.mem_toFinset] at hx
    obtain ⟨hb1, hb2, hb3, hb4⟩ := hb x hx
    rw [Finset.mem_product, Finset.mem_Ico, Finset.mem_Ico]
    exact ⟨⟨hb1, hb2⟩, hb3, hb4⟩
  have h2 := Finset.card_le_card h1
  rw [List.toFinset_card_of_nodup hnd, Finset.card_product, Int.card_Ico,
    Int.card_Ico] at h2
  simpa using h2

theorem ucs_fuel (M : Model) (sched : Sched) (gs0 : GState)
    (henable : M.enable_dynamic_obstacles = false)
    (hev : ∀ k, sched.events k = []) :
    ∀ (n1 n2 : Nat) (s : UcsState), UcsInv M gs0 s →
      M.target ∉ s.visited →
      (∃ p, PathTo M gs0.grid M.target p) →
      M.rows * M.cols - s.visited.length ≤ n1 →
      s.priority_queue.length ≤ n2 →
      ∃ (k : Nat) (path : List Pos) (gsf : GState),
        loopRun (ucsStep M sched) k s = some (some path, gsf) ∧
        PathTo M gs0.grid M.target path ∧
        ∀ q, PathTo M gs0.grid M.target q → listCost path ≤ listCost q := by
  intro n1
  induction n1 with
  | zero =>
    intro n2
    induction n2 with
    | zero =>
      intro s hinv htv hconn hn1 hn2
      rcases ucsStep_cases M sched gs0 henable hev s hinv htv hconn with
        ⟨path, gsf, hstep, hp1, hp2⟩ | ⟨s2, hstep, hinv2, htv2, hdec⟩
      · exact ⟨1, path, gsf, by unfold loopRun; rw [hstep], hp1, hp2⟩
      · exfalso
        rcases hdec with ⟨hveq, hqlt⟩ | hgrow
        · omega
        · have hble := visited_length_le M s2.visited hinv2.nd hinv2.vb
          omega
    | succ n2 ih2 =>
      intro s hinv htv hconn hn1 hn2
      rcases ucsStep_cases M sched gs0 henable hev s hinv htv hconn with
        ⟨path, gsf, hstep, hp1, hp2⟩ | ⟨s2, hstep, hinv2, htv2, hdec⟩
      · exact ⟨1, path, gsf, by unfold loopRun; rw [hstep], hp1, hp2⟩
      · rcases hdec with ⟨hveq, hqlt⟩ | hgrow
        · obtain ⟨k, path, gsf, hk, hp1, hp2⟩ := ih2 s2 hinv2 htv2 hconn
            (by rw [hveq]; exact hn1) (by omega)
          exact ⟨k + 1, path, gsf, by unfold loopRun; rw [hstep]; exact hk, hp1, hp2⟩
        · exfalso
          have hble := visited_length_le M s2.visited hinv2.nd hinv2.vb
          omega
  | succ n1 ih1 =>
    intro n2
    induction n2 with
    | zero =>
      intro s hinv htv hconn hn1 hn2
      rcases ucsStep_cases M sched gs0 henable hev s hinv htv hconn with
        ⟨path, gsf, hstep, hp1, hp2⟩ | ⟨s2, hstep, hinv2, htv2, hdec⟩
      · exact ⟨1, path, gsf, by unfold loopRun; rw [hstep], hp1, hp2⟩
      · rcases hdec with ⟨hveq, hqlt⟩ | hgrow
        · omega
        · obtain ⟨k, path, gsf, hk, hp1, hp2⟩ := ih1 s2.priority_queue.length s2 hinv2
            htv2 hconn (by omega) (Nat.le_refl _)
          exact ⟨k + 1, path, gsf, by unfold loopRun; rw [hstep]; exact hk, hp1, hp2⟩
    | succ n2 ih2 =>
      intro s hinv htv hconn hn1 hn2
      rcases ucsStep_cases M sched gs0 henable hev s hinv htv hconn with
        ⟨path, gsf, hstep, hp1, hp2⟩ | ⟨s2, hstep, hinv2, htv2, hdec⟩
      · exact ⟨1, path, gsf, by unfold loopRun; rw [hstep], hp1, hp2⟩
      · rcases hdec with ⟨hveq, hqlt⟩ | hgrow
        · obtain ⟨k, path, gsf, hk, hp1, hp2⟩ := ih2 s2 hinv2 htv2 hconn
            (by rw [hveq]; exact hn1) (by omega)
          exact ⟨k + 1, path, gsf, by unfold loopRun; rw [hstep]; exact hk, hp1, hp2⟩
        · obtain ⟨k, path, gsf, hk, hp1, hp2⟩ := ih1 s2.priority_queue.length s2 hinv2
            htv2 hconn (by omega) (Nat.le_refl _)
          exact ⟨k + 1, path, gsf, by unfold loopRun; rw [hstep]; exact hk, hp1, hp2⟩

/-- C1: with the start and target connected by passable cells, dynamic
obstacles disabled and no pause or cancellation, `uniform_cost_search`
terminates with Found and a passable start-to-target path of minimal
accumulated cost (10 per orthogonal and 14 per diagonal move, the source's
1.0 and 1.4 scaled by ten); the goal test fires on pop, after the popped
position passes the closed-set check. -/
theorem C1_ucs_optimal (M : Model) (sched : Sched) (gs0 : GState)
    (henable : M.enable_dynamic_obstacles = false)
    (hev : ∀ k, sched.events k = [])
    (hconn : ∃ p, GoodPath M gs0.grid p) :
    ∃ (fuel : Nat) (path : List Pos) (gsf : GState),
      uniform_cost_search M sched gs0 fuel = some (some path, gsf) ∧
      GoodPath M gs0.grid path ∧
      ∀ q, GoodPath M gs0.grid q → listCost path ≤ listCost q := by
  obtain ⟨p0, hp0⟩ := hconn
  have hpt : PathTo M gs0.grid M.target p0 := hp0
  have hstart : is_valid_position M gs0.grid M.start.1 M.start.2 = true := by
    have hmem : M.start ∈ p0 := by
      cases p0 with
      | nil => exact Option.noConfusion hp0.1
      | cons a t =>
        have h2 : some a = some M.start := hp0.1
        injection h2 with h2
        rw [← h2]
        exact List.mem_cons_self _ _
    exact hp0.2.2.2 M.start hmem
  have hinv0 := ucsInit_inv M gs0 hstart
  have htv0 : M.target ∉ (ucsInit M gs0).visited := fun hh => List.not_mem_nil _ hh
  obtain ⟨k, path, gsf, hk, h1, h2⟩ := ucs_fuel M sched gs0 henable hev
    (M.rows * M.cols) (ucsInit M gs0).priority_queue.length (ucsInit M gs0)
    hinv0 htv0 ⟨p0, hpt⟩ (Nat.sub_le _ _) (Nat.le_refl _)
  exact ⟨k, path, gsf, hk, h1, h2⟩

/-- Witness for C1 on the 1×6 corridor: UCS terminates with a passable
minimum-cost path. -/
theorem C1_ucs_optimal_witness :
    ∃ (fuel : Nat) (path : List Pos) (gsf : GState),
      uniform_cost_search lineM6 trivSched lineGS6 fuel = some (some path, gsf) ∧
      GoodPath lineM6 lineGS6.grid path ∧
      ∀ q, GoodPath lineM6 lineGS6.grid q → listCost path ≤ listCost q :=
  C1_ucs_optimal lineM6 trivSched lineGS6 rfl (fun _ => rfl)
    ⟨[((0 : Int), (0 : Int)), (0, 1), (0, 2), (0, 3), (0, 4), (0, 5)], by decide⟩
